import Mathlib

/-!
Verification of the heading-tree core of the NotionT outline editor.

The development embeds, faithfully to the TypeScript source:
  * `parseMarkdownHeadings` (src/utils/markdownParser.ts) — buffer → heading tree;
  * `handleNodeAdd` / `handleNodeDelete` (src/components/Editor.tsx) — structural
    mutators computing line-range edits of the raw buffer;
  * `flattenGraph` (src/components/MindmapGraph.tsx) — tree → (nodes, links).

Buffers are `List Char`; lines are obtained by splitting on the line feed,
mirroring `markdown.split('\n')`.  Trees are a nested inductive mirroring the
`HeadingNode` interface.  JavaScript regular expressions are translated by
their greedy-backtracking semantics on single lines.
-/

set_option maxHeartbeats 1000000

namespace NotionT

abbrev Line := List Char

/-- Character class of the JavaScript regex `\s` (whitespace). -/
def isJsWs (c : Char) : Bool :=
  c = ' ' || c = '\t' || c = '\n' || c = '\r' || c = '\x0b' || c = '\x0c' ||
  c = ' ' || c = ' ' || (0x2000 ≤ c.val && c.val ≤ 0x200A) ||
  c = ' ' || c = ' ' || c = ' ' || c = ' ' ||
  c = '　' || c = '﻿'

/-- Character class of the JavaScript regex `.` without the `s` flag:
any character except a line terminator. -/
def isDotChar (c : Char) : Bool :=
  !(c = '\n' || c = '\r' || c.val = 0x2028 || c.val = 0x2029)

/-- `markdown.split('\n')`: split a character buffer into lines at every
line feed.  The result is always non-empty; `splitNl [] = [[]]` mirrors
`"".split('\n') === [""]`. -/
def splitNl : List Char → List Line
  | [] => [[]]
  | c :: rest =>
    if c = '\n' then [] :: splitNl rest
    else
      match splitNl rest with
      | [] => [[c]]
      | l :: ls => (c :: l) :: ls

/-- `lines.join('\n')`: interleave a single line feed between lines. -/
def joinNl : List Line → List Char
  | [] => []
  | [l] => l
  | l :: ls => l ++ '\n' :: joinNl ls

/-- Semantics of matching one line against `/^(#{1,6})\s+(.+)$/`
(the heading recognizer of `parseMarkdownHeadings`).  Returns the marker
count (capture 1 length) and capture 2 on success.  The translation follows
the greedy backtracking semantics: the marker run must have length 1–6
(a run of 7+ cannot match), `\s+` takes the maximal whitespace run that
still leaves a non-empty remainder, and every remainder character must be
matched by `.` (no line terminators). -/
def lineHeading (line : Line) : Option (Nat × List Char) :=
  let k := (line.takeWhile (fun c => c = '#')).length
  if 1 ≤ k ∧ k ≤ 6 then
    let rest := line.drop k
    let w := (rest.takeWhile isJsWs).length
    if w = 0 then none
    else if w < rest.length then
      let t := rest.drop w
      if t.all isDotChar then some (k, t) else none
    else
      if 2 ≤ w then
        match rest.drop (w - 1) with
        | [c] => if isDotChar c then some (k, [c]) else none
        | _ => none
      else none
  else none

/-- Semantics of matching one line against `/^(#{1,6})\s/` (the boundary
scan used by `handleNodeAdd` and `handleNodeDelete`).  Returns the marker
count on success.  Note this test is weaker than `lineHeading`: it does not
require any text after the whitespace. -/
def looseLevel (line : Line) : Option Nat :=
  let k := (line.takeWhile (fun c => c = '#')).length
  if 1 ≤ k ∧ k ≤ 6 then
    match (line.drop k).head? with
    | some c => if isJsWs c then some k else none
    | none => none
  else none

/-- The `HeadingNode` interface of src/utils/markdownParser.ts (the optional
UI-only `collapsed` flag is not part of the tree structure and is omitted). -/
inductive HeadingNode : Type where
  | mk (id : String) (text : List Char) (level : Nat) (line : Nat)
       (children : List HeadingNode)

namespace HeadingNode

def id : HeadingNode → String
  | mk i _ _ _ _ => i

def text : HeadingNode → List Char
  | mk _ t _ _ _ => t

def level : HeadingNode → Nat
  | mk _ _ l _ _ => l

def line : HeadingNode → Nat
  | mk _ _ _ ln _ => ln

def children : HeadingNode → List HeadingNode
  | mk _ _ _ _ cs => cs

end HeadingNode

/-- The synthetic root produced at the start of `parseMarkdownHeadings`. -/
def rootNode : HeadingNode := .mk "root" "Root".data 0 0 []

instance : Inhabited HeadingNode := ⟨rootNode⟩

/-- `heading-$\x7bindex\x7d`: the id given to the node of a heading line. -/
def headingId (i : Nat) : String := "heading-" ++ Nat.repr i

/-- `parent.children.push(child)`. -/
def appendChild (p c : HeadingNode) : HeadingNode :=
  match p with
  | .mk i t l ln cs => .mk i t l ln (cs ++ [c])

/-- One step of the `while` loop of the parser: while the stack (head = top)
has more than one element and its top has level ≥ the new level, pop the top
and record it as the last child of the element below (in the JavaScript
original the child list of the element below already holds the popped node
by reference; the functional translation attaches it at pop time).
`popToAux` carries the current top separately so that the recursion is
structural on the remainder of the stack. -/
def popToAux (lvl : Nat) (c : HeadingNode) : List HeadingNode → List HeadingNode
  | [] => [c]
  | p :: rest =>
    if lvl ≤ c.level then popToAux lvl (appendChild p c) rest
    else c :: p :: rest

def popTo (lvl : Nat) : List HeadingNode → List HeadingNode
  | [] => []
  | c :: rest => popToAux lvl c rest

/-- Push a freshly parsed heading node: find the correct parent by popping,
then place the node on top of the stack (it is recorded as the last child of
the new stack top when it is itself popped, or at the final collapse). -/
def pushEntry (s : List HeadingNode) (e : HeadingNode) : List HeadingNode :=
  e :: popTo e.level s

/-- At the end of the scan the JavaScript root already holds every child by
reference; the functional translation attaches the still-open stack entries
from the top down, structurally on the remainder of the stack. -/
def collapseAux (c : HeadingNode) : List HeadingNode → HeadingNode
  | [] => c
  | p :: rest => collapseAux (appendChild p c) rest

def collapseStack : List HeadingNode → HeadingNode
  | [] => rootNode
  | c :: rest => collapseAux c rest

/-- Body of `lines.forEach((line, index) => ...)`. -/
def parseStep (s : List HeadingNode) (i : Nat) (l : Line) : List HeadingNode :=
  match lineHeading l with
  | some (k, t) => pushEntry s (.mk (headingId i) t k i [])
  | none => s

/-- The indexed `forEach` over all lines. -/
def scanLines (i : Nat) (s : List HeadingNode) : List Line → List HeadingNode
  | [] => s
  | l :: rest => scanLines (i + 1) (parseStep s i l) rest

def parseLines (lines : List Line) : HeadingNode :=
  collapseStack (scanLines 0 [rootNode] lines)

/-- `parseMarkdownHeadings` of src/utils/markdownParser.ts. -/
def parseMarkdownHeadings (markdown : List Char) : HeadingNode :=
  parseLines (splitNl markdown)

mutual

/-- Depth-first (document-order) node sequence of a tree.  This is also the
order in which `flattenGraph`'s `traverse` pushes node records. -/
def preorder : HeadingNode → List HeadingNode
  | .mk i t l ln cs => .mk i t l ln cs :: preForest cs

def preForest : List HeadingNode → List HeadingNode
  | [] => []
  | c :: cs => preorder c ++ preForest cs

end

mutual

/-- The `findNode` helper of `handleNodeAdd` / `handleNodeDelete`:
depth-first search by exact id, self first, then children left to right. -/
def findById : HeadingNode → String → Option HeadingNode
  | .mk i t l ln cs, nid =>
    if i = nid then some (.mk i t l ln cs) else findInForest cs nid

def findInForest : List HeadingNode → String → Option HeadingNode
  | [], _ => none
  | c :: rest, nid =>
    match findById c nid with
    | some r => some r
    | none => findInForest rest nid

end

/-- The boundary scan `for (let i = parentLineIndex + 1; ...)` of the two
mutators, testing each line against `/^(#{1,6})\s/` and stopping at the
first whose marker count is ≤ the reference level; `i` is the absolute
index of the first line of the scanned suffix. -/
def findBoundaryAux (lvl : Nat) (i : Nat) : List Line → Option Nat
  | [] => none
  | l :: rest =>
    match looseLevel l with
    | some k =>
      if k ≤ lvl then some i else findBoundaryAux lvl (i + 1) rest
    | none => findBoundaryAux lvl (i + 1) rest

/-- `handleNodeAdd` of src/components/Editor.tsx: insert a child heading of
`parentId` into the raw buffer.  The tree is the parse of the current
buffer; an unresolved `parentId` leaves the buffer unchanged. -/
def handleNodeAdd (content : List Char) (parentId : String) (text : List Char) :
    List Char :=
  match findById (parseLines (splitNl content)) parentId with
  | none => content
  | some parentNode =>
    let newLevel := parentNode.level + 1
    let hashes : List Char := List.replicate (min newLevel 6) '#'
    let lines := splitNl content
    let insertIndex : Nat :=
      if parentId = "root" then content.length
      else
        match findBoundaryAux parentNode.level (parentNode.line + 1)
            (lines.drop (parentNode.line + 1)) with
        | some b => (joinNl (lines.take b)).length + 1
        | none => content.length
    let before := content.take insertIndex
    let after := content.drop insertIndex
    let toInsert :=
      (if before.getLast? = some '\n' then [] else ['\n']) ++
        hashes ++ ' ' :: text ++
        (if after.head? = some '\n' then [] else ['\n'])
    before ++ toInsert ++ after

/-- `handleNodeDelete` of src/components/Editor.tsx: remove the line range
of the subtree rooted at `id` from the raw buffer.  A no-op for the root or
an unresolved id. -/
def handleNodeDelete (content : List Char) (nid : String) : List Char :=
  match findById (parseLines (splitNl content)) nid with
  | none => content
  | some nodeToDelete =>
    if nodeToDelete.id = "root" then content
    else
      let lines := splitNl content
      let startLine := nodeToDelete.line
      let endLine :=
        match findBoundaryAux nodeToDelete.level (startLine + 1)
            (lines.drop (startLine + 1)) with
        | some e => e
        | none => lines.length
      joinNl (lines.take startLine ++ lines.drop endLine)

mutual

/-- Link records of `flattenGraph`: `traverse` pushes, for each child in
order, the link (node.id, child.id) and then the links of the child's
subtree. -/
def flattenLinks : HeadingNode → List (String × String)
  | .mk i _ _ _ cs => linksForest i cs

def linksForest : String → List HeadingNode → List (String × String)
  | _, [] => []
  | pid, c :: rest => (pid, c.id) :: (flattenLinks c ++ linksForest pid rest)

end

/-- `flattenGraph` of src/components/MindmapGraph.tsx: the node records are
pushed in depth-first document order (exactly `preorder`), the link records
as in `flattenLinks`. -/
def flattenGraph (root : HeadingNode) : List HeadingNode × List (String × String) :=
  (preorder root, flattenLinks root)

/-! Auxiliary definitions used to state and prove properties of the embedded
functions.  None of these changes the embedded code above. -/

/-- The line-independent data of a node: id, text, level, line. -/
abbrev Info := String × List Char × Nat × Nat

def einfo (n : HeadingNode) : Info := (n.id, n.text, n.level, n.line)

/-- The info of the synthetic root. -/
def rootInfo : Info := ("root", "Root".data, 0, 0)

/-- Document-order info sequence of a tree. -/
def infos (n : HeadingNode) : List Info := (preorder n).map einfo

/-- Info sequence represented by a parser stack (bottom of the stack first,
i.e. the sequence of the tree the stack collapses to). -/
def stackInfos : List HeadingNode → List Info
  | [] => []
  | n :: rest => stackInfos rest ++ infos n

mutual

/-- Structural well-formedness produced by the parser: every child is
strictly deeper than its parent, and the levels of the children of one node
are non-increasing left to right (a later sibling of a higher level would
have been nested inside the earlier one). -/
def goodNode : HeadingNode → Bool
  | .mk _ _ l _ cs => goodForest l cs

def goodForest : Nat → List HeadingNode → Bool
  | _, [] => true
  | lvl, c :: rest =>
    decide (lvl < c.level) && goodNode c &&
      (match rest with
       | [] => true
       | d :: _ => decide (d.level ≤ c.level)) &&
      goodForest lvl rest

end

/-- The heading entries of the lines, in order: one childless node per line
recognized by `lineHeading`, carrying the absolute line index (`i` is the
index of the first listed line). -/
def headingEntriesFrom (i : Nat) : List Line → List HeadingNode
  | [] => []
  | l :: rest =>
    match lineHeading l with
    | some (k, t) => .mk (headingId i) t k i [] :: headingEntriesFrom (i + 1) rest
    | none => headingEntriesFrom (i + 1) rest

/-- First absolute index ≥ `i` of a line satisfying `p`, scanning the given
suffix whose first line has absolute index `i`. -/
def scanIdx (p : Line → Bool) (i : Nat) : List Line → Option Nat
  | [] => none
  | l :: rest => if p l then some i else scanIdx p (i + 1) rest

/-- Does the line parse as a heading of level ≤ `lvl`? -/
def strictLevelLe (lvl : Nat) (l : Line) : Bool :=
  match lineHeading l with
  | some (k, _) => decide (k ≤ lvl)
  | none => false

/-- Does the line pass the mutators' loose marker test at level ≤ `lvl`? -/
def looseLevelLe (lvl : Nat) (l : Line) : Bool :=
  match looseLevel l with
  | some k => decide (k ≤ lvl)
  | none => false

/-- The end (exclusive) of the subtree line range of a node at `startLine`
of level `lvl`: the first line after `startLine` that parses as a heading of
level ≤ `lvl`, or the number of lines if there is none.  This is the
spec-side boundary, defined with the parser's heading recognizer. -/
def endStrict (ls : List Line) (startLine lvl : Nat) : Nat :=
  match scanIdx (strictLevelLe lvl) (startLine + 1) (ls.drop (startLine + 1)) with
  | some e => e
  | none => ls.length

/-- A buffer is clean when every line passing the mutators' loose marker
test is also recognized as a heading by the parser (this excludes only
degenerate lines such as markers followed by nothing but whitespace). -/
def cleanLines (ls : List Line) : Prop :=
  ∀ l ∈ ls, (looseLevel l).isSome → (lineHeading l).isSome

instance (ls : List Line) : Decidable (cleanLines ls) := by
  unfold cleanLines; infer_instance

/-- Strip surrounding whitespace (the `String.prototype.trim` of the spec's
wording). -/
def trimChars (l : List Char) : List Char :=
  ((l.dropWhile isJsWs).reverse.dropWhile isJsWs).reverse

/-- Serialize one heading node back to a text line: `level` marker
characters, one space, the text.  This is the line format `handleNodeAdd`
itself writes, and the re-serialization the spec's round-trip property
speaks about. -/
def serializeNode (n : HeadingNode) : Line :=
  List.replicate n.level '#' ++ ' ' :: n.text

/-- Re-serialize the headings of a tree in document (depth-first) order,
one line per heading. -/
def reserialize (t : HeadingNode) : List Char :=
  joinNl ((preorder t).tail.map serializeNode)

/-- Decimal digit list of a natural number, most significant first; the
characters `Nat.repr` produces. -/
def digitsList (n : Nat) : List Char :=
  if _h : n < 10 then [Nat.digitChar n]
  else digitsList (n / 10) ++ [Nat.digitChar (n % 10)]
decreasing_by exact Nat.div_lt_self (by omega) (by omega)

/-- Stack invariant pieces: levels strictly decrease from top (head) to the
root at the bottom. -/
def levelsDec (s : List HeadingNode) : Prop :=
  List.Chain' (fun a b => b.level < a.level) s

/-- For adjacent stack entries (a directly above b), a future pop of `a`
into `b` keeps b's children levels non-increasing: the current last child of
`b`, if any, is at least as deep as `a`. -/
def stackPair (a b : HeadingNode) : Prop :=
  ∀ c0, b.children.getLast? = some c0 → a.level ≤ c0.level

/-- Invariant of the parser stack between two processed lines. -/
structure StackOk (s : List HeadingNode) : Prop where
  ne : s ≠ []
  chain : levelsDec s
  goods : ∀ n ∈ s, goodNode n = true
  pairs : List.Chain' stackPair s
  lastLev : ∀ r, s.getLast? = some r → r.level = 0
  headEmpty : ∀ h0, s.head? = some h0 → h0.children = []

/-! ### Line splitting and joining -/

theorem splitNl_ne_nil (cs : List Char) : splitNl cs ≠ [] := by
  cases cs with
  | nil => simp [splitNl]
  | cons c rest =>
    simp only [splitNl]
    split
    · simp
    · split <;> simp

theorem splitNl_cons_nl (rest : List Char) :
    splitNl ('\n' :: rest) = [] :: splitNl rest := by
  simp [splitNl]

theorem splitNl_cons_ne (c : Char) (rest : List Char) (hc : c ≠ '\n')
    (l0 : Line) (ls : List Line) (h0 : splitNl rest = l0 :: ls) :
    splitNl (c :: rest) = (c :: l0) :: ls := by
  simp [splitNl, hc, h0]

theorem nl_not_mem_splitNl : ∀ cs : List Char, ∀ l ∈ splitNl cs, '\n' ∉ l := by
  intro cs
  induction cs with
  | nil => intro l hl; simp [splitNl] at hl; simp [hl]
  | cons c rest ih =>
    intro l hl
    by_cases hc : c = '\n'
    · subst hc
      rw [splitNl_cons_nl] at hl
      rcases List.mem_cons.mp hl with h | h
      · simp [h]
      · exact ih l h
    · rcases h0 : splitNl rest with _ | ⟨l0, ls⟩
      · exact absurd h0 (splitNl_ne_nil rest)
      · rw [splitNl_cons_ne c rest hc l0 ls h0] at hl
        rcases List.mem_cons.mp hl with h | h
        · subst h
          intro hmem
          rcases List.mem_cons.mp hmem with h | h
          · exact hc h.symm
          · exact ih l0 (by rw [h0]; exact List.mem_cons_self _ _) h
        · exact ih l (by rw [h0]; exact List.mem_cons_of_mem _ h)

theorem joinNl_cons_ne (l : Line) (ls : List Line) (h : ls ≠ []) :
    joinNl (l :: ls) = l ++ '\n' :: joinNl ls := by
  cases ls with
  | nil => exact absurd rfl h
  | cons a as => rfl

theorem joinNl_splitNl : ∀ cs : List Char, joinNl (splitNl cs) = cs := by
  intro cs
  induction cs with
  | nil => rfl
  | cons c rest ih =>
    by_cases hc : c = '\n'
    · subst hc
      rw [splitNl_cons_nl, joinNl_cons_ne _ _ (splitNl_ne_nil rest), ih]
      rfl
    · rcases h0 : splitNl rest with _ | ⟨l0, ls⟩
      · exact absurd h0 (splitNl_ne_nil rest)
      · rw [splitNl_cons_ne c rest hc l0 ls h0]
        rw [h0] at ih
        cases ls with
        | nil => simpa [joinNl] using congrArg (c :: ·) ih
        | cons b bs =>
          rw [joinNl_cons_ne _ _ (by simp)]
          rw [joinNl_cons_ne _ _ (by simp)] at ih
          simpa [List.cons_append] using congrArg (c :: ·) ih

theorem splitNl_append_nl : ∀ a b : List Char,
    splitNl (a ++ '\n' :: b) = splitNl a ++ splitNl b := by
  intro a b
  induction a with
  | nil => simp [splitNl_cons_nl, splitNl]
  | cons c rest ih =>
    by_cases hc : c = '\n'
    · subst hc
      rw [List.cons_append, splitNl_cons_nl, splitNl_cons_nl, ih]
      rfl
    · rcases h0 : splitNl rest with _ | ⟨l0, ls⟩
      · exact absurd h0 (splitNl_ne_nil rest)
      · have hr : splitNl (rest ++ '\n' :: b) = l0 :: (ls ++ splitNl b) := by
          rw [ih, h0]; rfl
        rw [List.cons_append, splitNl_cons_ne c _ hc _ _ hr,
          splitNl_cons_ne c rest hc l0 ls h0]
        rfl

theorem splitNl_no_nl : ∀ cs : List Char, '\n' ∉ cs → splitNl cs = [cs] := by
  intro cs
  induction cs with
  | nil => simp [splitNl]
  | cons c rest ih =>
    intro h
    have hc : c ≠ '\n' := fun hh => h (hh ▸ List.mem_cons_self _ _)
    have hr : '\n' ∉ rest := fun hh => h (List.mem_cons_of_mem _ hh)
    rw [splitNl_cons_ne c rest hc rest [] (ih hr)]

theorem splitNl_joinNl : ∀ xs : List Line, xs ≠ [] → (∀ l ∈ xs, '\n' ∉ l) →
    splitNl (joinNl xs) = xs := by
  intro xs
  induction xs with
  | nil => intro h; exact absurd rfl h
  | cons l ls ih =>
    intro _ hmem
    cases ls with
    | nil => simpa [joinNl] using splitNl_no_nl l (hmem l (by simp))
    | cons b bs =>
      rw [joinNl_cons_ne _ _ (by simp), splitNl_append_nl,
        splitNl_no_nl l (hmem l (by simp)),
        ih (by simp) (fun x hx => hmem x (List.mem_cons_of_mem _ hx))]
      rfl

theorem joinNl_append : ∀ xs ys : List Line, xs ≠ [] → ys ≠ [] →
    joinNl (xs ++ ys) = joinNl xs ++ '\n' :: joinNl ys := by
  intro xs ys hx hy
  induction xs with
  | nil => exact absurd rfl hx
  | cons l ls ih =>
    cases ls with
    | nil =>
      cases ys with
      | nil => exact absurd rfl hy
      | cons b bs => simp [joinNl_cons_ne, joinNl]
    | cons a as =>
      rw [List.cons_append, joinNl_cons_ne _ _ (by simp),
        joinNl_cons_ne _ _ (by simp), ih (by simp)]
      simp

theorem splitNl_length_pos (cs : List Char) : 0 < (splitNl cs).length :=
  List.length_pos.mpr (splitNl_ne_nil cs)

/-! ### The heading recognizer and the loose marker test -/

theorem isJsWs_ne_hash {c : Char} (h : isJsWs c = true) : c ≠ '#' := by
  intro hc; subst hc; simp [isJsWs] at h

theorem takeWhile_marker_eq (l : List Char) :
    l.takeWhile (fun c => c = '#') =
      List.replicate (l.takeWhile (fun c => c = '#')).length '#' := by
  apply List.eq_replicate_of_mem
  intro c hc
  simpa using List.mem_takeWhile_imp hc

theorem drop_takeWhile_length {α : Type} (p : α → Bool) (l : List α) :
    l.drop (l.takeWhile p).length = l.dropWhile p := by
  induction l with
  | nil => rfl
  | cons a l ih =>
    by_cases h : p a
    · simp [List.takeWhile_cons_of_pos h, List.dropWhile_cons_of_pos h, ih]
    · simp [List.takeWhile_cons_of_neg h, List.dropWhile_cons_of_neg h]

theorem line_decomp_marker (l : List Char) :
    l = List.replicate (l.takeWhile (fun c => c = '#')).length '#' ++
      l.drop (l.takeWhile (fun c => c = '#')).length := by
  rw [drop_takeWhile_length, ← takeWhile_marker_eq,
    List.takeWhile_append_dropWhile]

theorem marker_count_of_append (k : Nat) (rest : List Char)
    (h : rest.head? ≠ some '#') :
    ((List.replicate k '#' ++ rest).takeWhile (fun c => c = '#')).length = k := by
  have hr : rest.takeWhile (fun c => c = '#') = [] := by
    cases rest with
    | nil => rfl
    | cons c cs =>
      have : ¬ (c = '#') := by simpa using h
      simp [List.takeWhile_cons_of_neg, this]
  rw [List.takeWhile_append_of_pos (by intro a ha; simpa using List.eq_of_mem_replicate ha),
    hr]
  simp

theorem drop_length_sub_one {α : Type} (l : List α) (h : l ≠ []) :
    l.drop (l.length - 1) = [l.getLast h] := by
  rcases List.eq_nil_or_concat l with rfl | ⟨ys, x, hl⟩
  · exact absurd rfl h
  · subst hl
    simp only [List.concat_eq_append]
    have h1 : (ys ++ [x]).length - 1 = ys.length := by
      rw [List.length_append]; rfl
    rw [h1, List.drop_left, List.getLast_append]
    simp

/-- Full characterization of a successful heading match: the line splits
into the marker run, a non-empty whitespace run, and the non-empty
remainder that became the text, every character of which is matched by `.`;
the remainder starts with a non-whitespace character unless the whole rest
of the line was whitespace, in which case the text is its final character. -/
theorem lineHeading_facts {l : List Char} {k : Nat} {t : List Char}
    (h : lineHeading l = some (k, t)) :
    ∃ w, l = List.replicate k '#' ++ w ++ t ∧ 1 ≤ k ∧ k ≤ 6 ∧ w ≠ [] ∧
      (∀ c ∈ w, isJsWs c = true) ∧ t ≠ [] ∧ (∀ c ∈ t, isDotChar c = true) ∧
      (∀ c, t.head? = some c → isJsWs c = false ∨ t = [c]) := by
  unfold lineHeading at h
  set k0 := (l.takeWhile (fun c => c = '#')).length with hk0
  by_cases hk : 1 ≤ k0 ∧ k0 ≤ 6
  · rw [if_pos hk] at h
    set rest := l.drop k0 with hrest
    set w0 := (rest.takeWhile isJsWs).length with hw0
    have hdecomp : l = List.replicate k0 '#' ++ rest := line_decomp_marker l
    have hw0le : w0 ≤ rest.length := by
      have hlen := congrArg List.length
        (List.takeWhile_append_dropWhile isJsWs rest)
      rw [List.length_append] at hlen
      omega
    by_cases hz : w0 = 0
    · rw [if_pos hz] at h; exact absurd h (by simp)
    · rw [if_neg hz] at h
      by_cases hlt : w0 < rest.length
      · rw [if_pos hlt] at h
        by_cases hall : (rest.drop w0).all isDotChar
        · rw [if_pos hall] at h
          obtain ⟨hkeq, hteq⟩ : k0 = k ∧ rest.drop w0 = t := by
            have := Option.some.inj h
            exact ⟨congrArg Prod.fst this, congrArg Prod.snd this⟩
          subst hkeq
          refine ⟨rest.takeWhile isJsWs, ?_, hk.1, hk.2, ?_, ?_, ?_, ?_, ?_⟩
          · rw [← hteq]
            have hdw : rest.drop w0 = rest.dropWhile isJsWs := by
              conv_lhs => rw [← List.takeWhile_append_dropWhile isJsWs rest]
              rw [hw0, List.drop_left]
            rw [hdw, List.append_assoc, List.takeWhile_append_dropWhile]
            exact hdecomp
          · intro hnil; exact hz (by rw [hw0, hnil]; rfl)
          · intro c hc; exact List.mem_takeWhile_imp hc
          · rw [← hteq]
            intro hnil
            have := congrArg List.length hnil
            simp [List.length_drop] at this
            omega
          · intro c hc
            rw [← hteq] at hc
            have := List.all_eq_true.mp hall c hc
            simpa using this
          · intro c hc
            left
            rw [← hteq] at hc
            have hdw : rest.drop w0 = rest.dropWhile isJsWs := by
              conv_lhs => rw [← List.takeWhile_append_dropWhile isJsWs rest]
              rw [hw0, List.drop_left]
            rw [hdw] at hc
            have := List.head?_dropWhile_not isJsWs rest
            rw [hc] at this
            exact this
        · rw [if_neg hall] at h; exact absurd h (by simp)
      · rw [if_neg hlt] at h
        have hw0eq : w0 = rest.length := le_antisymm hw0le (by omega)
        by_cases h2 : 2 ≤ w0
        · rw [if_pos h2] at h
          have hrne : rest ≠ [] := by
            intro hnil
            rw [hnil] at hw0eq
            simp at hw0eq
            omega
          have hdrop : rest.drop (w0 - 1) = [rest.getLast hrne] := by
            rw [hw0eq]; exact drop_length_sub_one rest hrne
          rw [hdrop] at h
          replace h : (if isDotChar (rest.getLast hrne) = true then
              some (k0, [rest.getLast hrne]) else (none : Option (Nat × List Char)))
              = some (k, t) := h
          by_cases hdc : isDotChar (rest.getLast hrne)
          · rw [if_pos hdc] at h
            obtain ⟨hkeq, hteq⟩ : k0 = k ∧ ([rest.getLast hrne] : List Char) = t := by
              have := Option.some.inj h
              exact ⟨congrArg Prod.fst this, congrArg Prod.snd this⟩
            subst hkeq
            have hdwnil : rest.dropWhile isJsWs = [] := by
              have hlen := congrArg List.length
                (List.takeWhile_append_dropWhile isJsWs rest)
              rw [List.length_append, ← hw0, hw0eq] at hlen
              exact List.eq_nil_of_length_eq_zero (by omega)
            have hallws : ∀ c ∈ rest, isJsWs c = true := by
              intro c hc
              rw [← List.takeWhile_append_dropWhile isJsWs rest, hdwnil,
                List.append_nil] at hc
              exact List.mem_takeWhile_imp hc
            refine ⟨rest.dropLast, ?_, hk.1, hk.2, ?_, ?_, ?_, ?_, ?_⟩
            · rw [← hteq, List.append_assoc, List.dropLast_append_getLast hrne]
              exact hdecomp
            · intro hnil
              have := congrArg List.length hnil
              rw [List.length_dropLast] at this
              simp at this
              omega
            · intro c hc
              exact hallws c (List.dropLast_subset _ hc)
            · rw [← hteq]; simp
            · intro c hc
              rw [← hteq] at hc
              simp at hc
              rw [hc]; exact hdc
            · intro c hc
              right
              rw [← hteq] at hc ⊢
              simp at hc
              rw [hc]
          · rw [if_neg hdc] at h; exact absurd h (by simp)
        · rw [if_neg h2] at h; exact absurd h (by simp)
  · rw [if_neg hk] at h; exact absurd h (by simp)

/-- Converse direction: any marker/whitespace/dot-text decomposition is
recognized. -/
theorem lineHeading_isSome_of_decomp {k : Nat} {w t : List Char}
    (hk1 : 1 ≤ k) (hk6 : k ≤ 6) (hw : w ≠ [])
    (hws : ∀ c ∈ w, isJsWs c = true) (ht : t ≠ [])
    (hdot : ∀ c ∈ t, isDotChar c = true) :
    (lineHeading (List.replicate k '#' ++ w ++ t)).isSome := by
  obtain ⟨c0, w0, rfl⟩ : ∃ c0 w0, w = c0 :: w0 := by
    cases w with
    | nil => exact absurd rfl hw
    | cons a b => exact ⟨a, b, rfl⟩
  have hc0 : isJsWs c0 = true := hws c0 (by simp)
  have hkc : ((List.replicate k '#' ++ (c0 :: (w0 ++ t))).takeWhile
      (fun c => c = '#')).length = k := by
    apply marker_count_of_append
    intro hcc
    simp only [List.head?_cons, Option.some.injEq] at hcc
    exact isJsWs_ne_hash hc0 hcc
  have hleq : List.replicate k '#' ++ (c0 :: w0) ++ t
      = List.replicate k '#' ++ (c0 :: (w0 ++ t)) := by simp
  rw [hleq]
  simp only [lineHeading]
  rw [hkc, if_pos ⟨hk1, hk6⟩, List.drop_left' (List.length_replicate _ _)]
  set rest := c0 :: (w0 ++ t) with hrest
  have htw : rest.takeWhile isJsWs = (c0 :: w0) ++ t.takeWhile isJsWs := by
    rw [hrest]
    have h1 : (c0 :: w0) ++ t = c0 :: (w0 ++ t) := by simp
    rw [← h1]
    exact List.takeWhile_append_of_pos hws
  have hdw : rest.dropWhile isJsWs = t.dropWhile isJsWs := by
    rw [hrest]
    have h1 : (c0 :: w0) ++ t = c0 :: (w0 ++ t) := by simp
    rw [← h1]
    exact List.dropWhile_append_of_pos hws
  have hw0pos : 0 < (rest.takeWhile isJsWs).length := by
    rw [htw]; simp
  rw [if_neg (by omega)]
  have hrdrop : rest.drop (rest.takeWhile isJsWs).length = rest.dropWhile isJsWs :=
    drop_takeWhile_length _ _
  by_cases hlt : (rest.takeWhile isJsWs).length < rest.length
  · rw [if_pos hlt, hrdrop, hdw]
    have hsub : ∀ c ∈ t.dropWhile isJsWs, isDotChar c = true := by
      intro c hc
      exact hdot c (List.dropWhile_subset _ hc)
    rw [if_pos (List.all_eq_true.mpr hsub)]
    simp
  · have hwle : (rest.takeWhile isJsWs).length ≤ rest.length := by
      have hlen := congrArg List.length
        (List.takeWhile_append_dropWhile isJsWs rest)
      rw [List.length_append] at hlen
      omega
    have hweq : (rest.takeWhile isJsWs).length = rest.length := by omega
    rw [if_neg hlt]
    have h2 : 2 ≤ (rest.takeWhile isJsWs).length := by
      have hr2 : 2 ≤ rest.length := by
        rw [hrest]
        simp only [List.length_cons, List.length_append]
        have : 0 < t.length := List.length_pos.mpr ht
        omega
      omega
    rw [if_pos h2]
    have hrne : rest ≠ [] := by rw [hrest]; simp
    have hdrop : rest.drop ((rest.takeWhile isJsWs).length - 1) =
        [rest.getLast hrne] := by
      rw [hweq]; exact drop_length_sub_one rest hrne
    rw [hdrop]
    show (match [rest.getLast hrne] with
      | [c] => if isDotChar c = true then some (k, [c]) else none
      | _ => (none : Option (Nat × List Char))).isSome = true
    have hlast : rest.getLast? = t.getLast? := by
      rw [hrest]
      have h1 : c0 :: (w0 ++ t) = (c0 :: w0) ++ t := by simp
      rw [h1, List.getLast?_append]
      cases h2 : t.getLast? with
      | none => exact absurd (List.getLast?_eq_getLast t ht) (by rw [h2]; simp)
      | some a => rfl
    have hdc : isDotChar (rest.getLast hrne) = true := by
      have h3 : rest.getLast? = some (rest.getLast hrne) :=
        List.getLast?_eq_getLast rest hrne
      have h4 : t.getLast? = some (t.getLast ht) :=
        List.getLast?_eq_getLast t ht
      have h5 : rest.getLast hrne = t.getLast ht := by
        rw [hlast, h4] at h3
        exact Option.some.inj h3.symm
      rw [h5]
      exact hdot _ (List.getLast_mem ht)
    show (if isDotChar (rest.getLast hrne) = true then
      some (k, [rest.getLast hrne]) else (none : Option (Nat × List Char))).isSome = true
    rw [if_pos hdc]
    rfl

/-- The exact value recognized on a line of the serialized form: `k` marker
characters, one space, then the text `t` (with `t` non-empty, matched by `.`,
and either starting with a non-whitespace character or a single character).
This is the shape of the line `handleNodeAdd` writes and `serializeNode`
produces. -/
theorem lineHeading_marker_space {k : Nat} {t : List Char}
    (hk1 : 1 ≤ k) (hk6 : k ≤ 6) (ht : t ≠ [])
    (hdot : ∀ c ∈ t, isDotChar c = true)
    (hhead : ∀ c, t.head? = some c → isJsWs c = false ∨ t = [c]) :
    lineHeading (List.replicate k '#' ++ ' ' :: t) = some (k, t) := by
  obtain ⟨c0, t0, rfl⟩ : ∃ c0 t0, t = c0 :: t0 := by
    cases t with
    | nil => exact absurd rfl ht
    | cons a b => exact ⟨a, b, rfl⟩
  have hkc : ((List.replicate k '#' ++ (' ' :: (c0 :: t0))).takeWhile
      (fun c => c = '#')).length = k := by
    apply marker_count_of_append
    intro hcc
    have h1 : ' ' = '#' := by simpa using hcc
    exact absurd h1 (by decide)
  simp only [lineHeading]
  rw [hkc, if_pos ⟨hk1, hk6⟩, List.drop_left' (List.length_replicate _ _)]
  by_cases hc0 : isJsWs c0 = true
  · have ht1 : c0 :: t0 = [c0] := by
      rcases hhead c0 rfl with h | h
      · rw [hc0] at h; exact absurd h (by simp)
      · exact h
    have ht0 : t0 = [] := by simpa using ht1
    subst ht0
    have htw : (' ' :: (c0 :: ([] : List Char))).takeWhile isJsWs
        = ' ' :: [c0] := by
      rw [List.takeWhile_cons_of_pos (by decide),
        List.takeWhile_cons_of_pos hc0]
      rfl
    rw [htw]
    have hlen2 : (' ' :: [c0] : List Char).length = 2 := rfl
    rw [hlen2]
    rw [if_neg (by omega), if_neg (by simp), if_pos (by omega)]
    have hd1 : (' ' :: (c0 :: ([] : List Char))).drop (2 - 1) = [c0] := rfl
    rw [hd1]
    show (if isDotChar c0 = true then some (k, [c0])
      else (none : Option (Nat × List Char))) = some (k, [c0])
    rw [if_pos (hdot c0 (by simp))]
  · have htw : (' ' :: (c0 :: t0)).takeWhile isJsWs = [' '] := by
      rw [List.takeWhile_cons_of_pos (by decide),
        List.takeWhile_cons_of_neg (by simp [hc0])]
    rw [htw]
    have hlen1 : ([' '] : List Char).length = 1 := rfl
    rw [hlen1]
    rw [if_neg (by omega), if_pos (by simp)]
    have hd1 : (' ' :: (c0 :: t0)).drop 1 = c0 :: t0 := rfl
    rw [hd1]
    rw [if_pos (List.all_eq_true.mpr (by intro c hc; exact hdot c hc))]

theorem looseLevel_some_facts {l : List Char} {k : Nat}
    (h : looseLevel l = some k) :
    1 ≤ k ∧ k ≤ 6 ∧ ∃ c rest, l = List.replicate k '#' ++ c :: rest ∧
      isJsWs c = true ∧ l.head? = some '#' := by
  unfold looseLevel at h
  set k0 := (l.takeWhile (fun c => c = '#')).length with hk0
  by_cases hk : 1 ≤ k0 ∧ k0 ≤ 6
  · rw [if_pos hk] at h
    rcases hd : (l.drop k0).head? with _ | c
    · rw [hd] at h; exact absurd h (by simp)
    · rw [hd] at h
      replace h : (if isJsWs c = true then some k0 else (none : Option Nat))
          = some k := h
      by_cases hws : isJsWs c = true
      · rw [if_pos hws] at h
        have hkeq : k0 = k := Option.some.inj h
        subst hkeq
        obtain ⟨rest, hrest⟩ : ∃ rest, l.drop k0 = c :: rest := by
          cases hdrop : l.drop k0 with
          | nil => rw [hdrop] at hd; exact absurd hd (by simp)
          | cons a b =>
            rw [hdrop] at hd
            simp at hd
            exact ⟨b, by rw [hd]⟩
        refine ⟨hk.1, hk.2, c, rest, ?_, hws, ?_⟩
        · conv_lhs => rw [line_decomp_marker l]
          rw [← hk0, hrest]
        · conv_lhs => rw [line_decomp_marker l]
          rw [← hk0]
          cases hkk : k0 with
          | zero => omega
          | succ m => simp [List.replicate_succ]
      · rw [if_neg hws] at h; exact absurd h (by simp)
  · rw [if_neg hk] at h; exact absurd h (by simp)

theorem looseLevel_of_decomp {k : Nat} {c : Char} {rest : List Char}
    (hk1 : 1 ≤ k) (hk6 : k ≤ 6) (hc : isJsWs c = true) :
    looseLevel (List.replicate k '#' ++ c :: rest) = some k := by
  have hkc : ((List.replicate k '#' ++ (c :: rest)).takeWhile
      (fun c => c = '#')).length = k := by
    apply marker_count_of_append
    intro hcc
    exact isJsWs_ne_hash hc (by simpa using hcc)
  unfold looseLevel
  rw [hkc, if_pos ⟨hk1, hk6⟩, List.drop_left' (List.length_replicate _ _)]
  simp [hc]

theorem looseLevel_of_lineHeading {l : List Char} {k : Nat} {t : List Char}
    (h : lineHeading l = some (k, t)) : looseLevel l = some k := by
  obtain ⟨w, hl, hk1, hk6, hw, hws, _, _, _⟩ := lineHeading_facts h
  obtain ⟨c0, w0, rfl⟩ : ∃ c0 w0, w = c0 :: w0 := by
    cases w with
    | nil => exact absurd rfl hw
    | cons a b => exact ⟨a, b, rfl⟩
  rw [hl, List.append_assoc]
  have : (c0 :: w0) ++ t = c0 :: (w0 ++ t) := by simp
  rw [this]
  exact looseLevel_of_decomp hk1 hk6 (hws c0 (by simp))

/-! ### Tree recursion helpers -/

@[simp] theorem id_mk (i : String) (t : List Char) (l ln : Nat)
    (cs : List HeadingNode) : (HeadingNode.mk i t l ln cs).id = i := rfl

@[simp] theorem text_mk (i : String) (t : List Char) (l ln : Nat)
    (cs : List HeadingNode) : (HeadingNode.mk i t l ln cs).text = t := rfl

@[simp] theorem level_mk (i : String) (t : List Char) (l ln : Nat)
    (cs : List HeadingNode) : (HeadingNode.mk i t l ln cs).level = l := rfl

@[simp] theorem line_mk (i : String) (t : List Char) (l ln : Nat)
    (cs : List HeadingNode) : (HeadingNode.mk i t l ln cs).line = ln := rfl

@[simp] theorem children_mk (i : String) (t : List Char) (l ln : Nat)
    (cs : List HeadingNode) : (HeadingNode.mk i t l ln cs).children = cs := rfl

theorem node_eta : ∀ n : HeadingNode,
    n = .mk n.id n.text n.level n.line n.children
  | .mk _ _ _ _ _ => rfl

/-- Structural induction over the nested tree type, with the inductive
hypothesis available for every child. -/
theorem headingInduction (P : HeadingNode → Prop)
    (h : ∀ i t l ln cs, (∀ c ∈ cs, P c) → P (.mk i t l ln cs)) :
    ∀ n, P n
  | .mk i t l ln cs => h i t l ln cs (fun c hc => headingInduction P h c)
termination_by n => sizeOf n
decreasing_by
  have h1 := List.sizeOf_lt_of_mem hc
  simp only [HeadingNode.mk.sizeOf_spec]
  omega

theorem preorder_eq (n : HeadingNode) : preorder n = n :: preForest n.children := by
  cases n
  rfl

@[simp] theorem preForest_nil : preForest [] = [] := rfl

@[simp] theorem preForest_cons (c : HeadingNode) (cs : List HeadingNode) :
    preForest (c :: cs) = preorder c ++ preForest cs := rfl

theorem preForest_append (xs ys : List HeadingNode) :
    preForest (xs ++ ys) = preForest xs ++ preForest ys := by
  induction xs with
  | nil => rfl
  | cons c cs ih => simp [ih]

theorem preorder_ne_nil (n : HeadingNode) : preorder n ≠ [] := by
  rw [preorder_eq]; simp

theorem self_mem_preorder (n : HeadingNode) : n ∈ preorder n := by
  rw [preorder_eq]; exact List.mem_cons_self _ _

theorem mem_preForest_iff {n : HeadingNode} {cs : List HeadingNode} :
    n ∈ preForest cs ↔ ∃ c ∈ cs, n ∈ preorder c := by
  induction cs with
  | nil => simp
  | cons c cs ih =>
    simp only [preForest_cons, List.mem_append, ih, List.mem_cons]
    constructor
    · rintro (h | ⟨d, hd, hn⟩)
      · exact ⟨c, Or.inl rfl, h⟩
      · exact ⟨d, Or.inr hd, hn⟩
    · rintro ⟨d, hd | hd, hn⟩
      · exact Or.inl (hd ▸ hn)
      · exact Or.inr ⟨d, hd, hn⟩

theorem einfo_mk (i : String) (t : List Char) (l ln : Nat)
    (cs : List HeadingNode) :
    einfo (HeadingNode.mk i t l ln cs) = (i, t, l, ln) := rfl

theorem infos_eq (n : HeadingNode) :
    infos n = einfo n :: (preForest n.children).map einfo := by
  unfold infos
  rw [preorder_eq]
  rfl

theorem appendChild_id (p c : HeadingNode) : (appendChild p c).id = p.id := by
  cases p; rfl

theorem appendChild_text (p c : HeadingNode) :
    (appendChild p c).text = p.text := by cases p; rfl

theorem appendChild_level (p c : HeadingNode) :
    (appendChild p c).level = p.level := by cases p; rfl

theorem appendChild_line (p c : HeadingNode) :
    (appendChild p c).line = p.line := by cases p; rfl

theorem appendChild_children (p c : HeadingNode) :
    (appendChild p c).children = p.children ++ [c] := by cases p; rfl

theorem appendChild_einfo (p c : HeadingNode) :
    einfo (appendChild p c) = einfo p := by cases p; rfl

theorem infos_appendChild (p c : HeadingNode) :
    infos (appendChild p c) = infos p ++ infos c := by
  rw [infos_eq, infos_eq, appendChild_einfo, appendChild_children,
    preForest_append]
  simp only [preForest_cons, preForest_nil, List.append_nil]
  rw [List.map_append]
  rfl

theorem infos_childless (n : HeadingNode) (h : n.children = []) :
    infos n = [einfo n] := by
  rw [infos_eq, h]
  rfl

@[simp] theorem stackInfos_nil : stackInfos [] = [] := rfl

@[simp] theorem stackInfos_cons (n : HeadingNode) (s : List HeadingNode) :
    stackInfos (n :: s) = stackInfos s ++ infos n := rfl

theorem goodNode_eq (n : HeadingNode) :
    goodNode n = goodForest n.level n.children := by cases n; rfl

@[simp] theorem goodForest_nil (lvl : Nat) : goodForest lvl [] = true := rfl

theorem goodForest_cons {lvl : Nat} {c : HeadingNode} {cs : List HeadingNode} :
    goodForest lvl (c :: cs) = true ↔
      lvl < c.level ∧ goodNode c = true ∧
      (∀ d, cs.head? = some d → d.level ≤ c.level) ∧ goodForest lvl cs = true := by
  cases cs with
  | nil =>
    show (decide (lvl < c.level) && goodNode c && true && true) = true ↔ _
    simp only [Bool.and_true, Bool.and_eq_true, decide_eq_true_eq]
    constructor
    · rintro ⟨h1, h2⟩
      exact ⟨h1, h2, by intro d hd; simp at hd, rfl⟩
    · rintro ⟨h1, h2, _, _⟩
      exact ⟨h1, h2⟩
  | cons d ds =>
    show (decide (lvl < c.level) && goodNode c && decide (d.level ≤ c.level) &&
      goodForest lvl (d :: ds)) = true ↔ _
    simp only [Bool.and_eq_true, decide_eq_true_eq]
    constructor
    · rintro ⟨⟨⟨h1, h2⟩, h3⟩, h4⟩
      refine ⟨h1, h2, ?_, h4⟩
      intro d' hd'
      simp only [List.head?_cons, Option.some.injEq] at hd'
      subst hd'
      exact h3
    · rintro ⟨h1, h2, h3, h4⟩
      exact ⟨⟨⟨h1, h2⟩, h3 d rfl⟩, h4⟩

theorem goodForest_mem {lvl : Nat} {cs : List HeadingNode}
    (h : goodForest lvl cs = true) :
    ∀ c ∈ cs, lvl < c.level ∧ goodNode c = true := by
  induction cs with
  | nil => simp
  | cons c cs ih =>
    rw [goodForest_cons] at h
    intro d hd
    rcases List.mem_cons.mp hd with rfl | hd
    · exact ⟨h.1, h.2.1⟩
    · exact ih h.2.2.2 d hd

/-- Appending one more (deeper, good, level below the previous last child)
child preserves forest goodness. -/
theorem goodForest_append_one {lvl : Nat} {cs : List HeadingNode}
    {c : HeadingNode} (hg : goodForest lvl cs = true)
    (hc : goodNode c = true) (hlvl : lvl < c.level)
    (hlast : ∀ c0, cs.getLast? = some c0 → c.level ≤ c0.level) :
    goodForest lvl (cs ++ [c]) = true := by
  induction cs with
  | nil =>
    simp only [List.nil_append]
    rw [goodForest_cons]
    exact ⟨hlvl, hc, by intro d hd; simp at hd, rfl⟩
  | cons c0 rest ih =>
    rw [goodForest_cons] at hg
    rw [List.cons_append, goodForest_cons]
    refine ⟨hg.1, hg.2.1, ?_, ?_⟩
    · intro d hd
      cases rest with
      | nil =>
        simp at hd
        subst hd
        exact hlast c0 rfl
      | cons r rs =>
        simp at hd
        subst hd
        exact hg.2.2.1 r rfl
    · refine ih hg.2.2.2 ?_
      intro c1 hc1
      apply hlast
      cases rest with
      | nil => simp at hc1
      | cons r rs =>
        rw [List.getLast?_cons_cons]
        exact hc1

theorem goodNode_appendChild {p c : HeadingNode}
    (hp : goodNode p = true) (hc : goodNode c = true)
    (hlvl : p.level < c.level)
    (hlast : ∀ c0, p.children.getLast? = some c0 → c.level ≤ c0.level) :
    goodNode (appendChild p c) = true := by
  rw [goodNode_eq, appendChild_level, appendChild_children]
  rw [goodNode_eq] at hp
  exact goodForest_append_one hp hc hlvl hlast

theorem goodNode_childless (n : HeadingNode) (h : n.children = []) :
    goodNode n = true := by
  rw [goodNode_eq, h]
  rfl

/-- Within a good tree every strict descendant is strictly deeper. -/
theorem level_lt_of_mem_preForest :
    ∀ n : HeadingNode, goodNode n = true →
      ∀ d ∈ preForest n.children, n.level < d.level := by
  intro n
  induction n using headingInduction with
  | h i t l ln cs ih =>
    intro hg d hd
    rw [goodNode_eq] at hg
    simp only [children_mk, level_mk] at hg hd ⊢
    rcases mem_preForest_iff.mp hd with ⟨c, hc, hdc⟩
    have hcfacts := goodForest_mem hg c hc
    rw [preorder_eq] at hdc
    rcases List.mem_cons.mp hdc with rfl | hdc
    · exact hcfacts.1
    · have h2 := ih c hc hcfacts.2 d hdc
      simp only [children_mk] at h2
      omega

theorem level_le_of_mem_preorder {n d : HeadingNode}
    (hg : goodNode n = true) (hd : d ∈ preorder n) : n.level ≤ d.level := by
  rw [preorder_eq] at hd
  rcases List.mem_cons.mp hd with rfl | hd
  · exact le_refl _
  · exact le_of_lt (level_lt_of_mem_preForest n hg d hd)

theorem goodNode_of_mem_preorder :
    ∀ n : HeadingNode, goodNode n = true →
      ∀ d ∈ preorder n, goodNode d = true := by
  intro n
  induction n using headingInduction with
  | h i t l ln cs ih =>
    intro hg d hd
    rw [preorder_eq] at hd
    rcases List.mem_cons.mp hd with rfl | hd
    · exact hg
    · simp only [children_mk] at hd
      rcases mem_preForest_iff.mp hd with ⟨c, hc, hdc⟩
      rw [goodNode_eq] at hg
      simp only [children_mk, level_mk] at hg
      have hcfacts := goodForest_mem hg c hc
      exact ih c hc hcfacts.2 d hdc

/-! ### The parser stack machine -/

theorem popTo_nil (lvl : Nat) : popTo lvl [] = [] := rfl

theorem popTo_one (lvl : Nat) (c : HeadingNode) : popTo lvl [c] = [c] := rfl

theorem popTo_two (lvl : Nat) (c p : HeadingNode) (rest : List HeadingNode) :
    popTo lvl (c :: p :: rest) =
      if lvl ≤ c.level then popTo lvl (appendChild p c :: rest)
      else c :: p :: rest := by
  show popToAux lvl c (p :: rest) = _
  unfold popToAux
  by_cases h : lvl ≤ c.level
  · rw [if_pos h, if_pos h]
    rfl
  · rw [if_neg h, if_neg h]

/-- Preservation of the stack invariant по the popping loop, together with
the facts needed to push the new node on top afterwards. -/
theorem popTo_ok_aux (lvl : Nat) (hlvl : 1 ≤ lvl) :
    ∀ (N : Nat) (s : List HeadingNode), s.length ≤ N →
      levelsDec s → (∀ n ∈ s, goodNode n = true) → List.Chain' stackPair s →
      (∀ r, s.getLast? = some r → r.level = 0) →
      stackInfos (popTo lvl s) = stackInfos s ∧
      levelsDec (popTo lvl s) ∧
      (∀ n ∈ popTo lvl s, goodNode n = true) ∧
      List.Chain' stackPair (popTo lvl s) ∧
      (∀ r, (popTo lvl s).getLast? = some r → r.level = 0) ∧
      (popTo lvl s ≠ [] ↔ s ≠ []) ∧
      (∀ h0, (popTo lvl s).head? = some h0 → h0.level < lvl) ∧
      (popTo lvl s = s ∨
        ∃ h0, (popTo lvl s).head? = some h0 ∧
          ∀ c0, h0.children.getLast? = some c0 → lvl ≤ c0.level) := by
  intro N
  induction N with
  | zero =>
    intro s hlen h1 h2 h3 h4
    have hs : s = [] := List.eq_nil_of_length_eq_zero (by omega)
    subst hs
    refine ⟨by rw [popTo_nil], by rw [popTo_nil]; exact h1, ?_, ?_, ?_, ?_, ?_, ?_⟩
    · rw [popTo_nil]; exact h2
    · rw [popTo_nil]; exact h3
    · rw [popTo_nil]; exact h4
    · rw [popTo_nil]
    · rw [popTo_nil]; intro h0 hh; simp at hh
    · left; rw [popTo_nil]
  | succ N ih =>
    intro s hlen h1 h2 h3 h4
    match s with
    | [] =>
      refine ⟨by rw [popTo_nil], by rw [popTo_nil]; exact h1, ?_, ?_, ?_, ?_, ?_, ?_⟩
      · rw [popTo_nil]; exact h2
      · rw [popTo_nil]; exact h3
      · rw [popTo_nil]; exact h4
      · rw [popTo_nil]
      · rw [popTo_nil]; intro h0 hh; simp at hh
      · left; rw [popTo_nil]
    | [c] =>
      have hc0 : c.level = 0 := h4 c (by simp)
      refine ⟨by rw [popTo_one], by rw [popTo_one]; exact h1, ?_, ?_, ?_, ?_, ?_, ?_⟩
      · rw [popTo_one]; exact h2
      · rw [popTo_one]; exact h3
      · rw [popTo_one]; exact h4
      · rw [popTo_one]
      · rw [popTo_one]
        intro h0 hh
        simp at hh
        subst hh
        omega
      · left; rw [popTo_one]
    | c :: p :: rest =>
      by_cases hle : lvl ≤ c.level
      · have heq : popTo lvl (c :: p :: rest) = popTo lvl (appendChild p c :: rest) := by
          rw [popTo_two, if_pos hle]
        have hplt : p.level < c.level := (List.chain'_cons.mp h1).1
        have hchainpr : List.Chain' (fun a b => b.level < a.level) (p :: rest) :=
          (List.chain'_cons.mp h1).2
        have hpairscp : stackPair c p := (List.chain'_cons.mp h3).1
        have hpairspr : List.Chain' stackPair (p :: rest) :=
          (List.chain'_cons.mp h3).2
        have hgoodapp : goodNode (appendChild p c) = true := by
          apply goodNode_appendChild (h2 p (by simp)) (h2 c (by simp)) hplt
          intro c0 hc0
          exact hpairscp c0 hc0
        have hchain1 : levelsDec (appendChild p c :: rest) := by
          unfold levelsDec
          rw [List.chain'_cons']
          constructor
          · intro b hb
            rw [appendChild_level]
            exact (List.chain'_cons'.mp hchainpr).1 b hb
          · exact (List.chain'_cons'.mp hchainpr).2
        have hgoods1 : ∀ n ∈ appendChild p c :: rest, goodNode n = true := by
          intro n hn
          rcases List.mem_cons.mp hn with rfl | hn
          · exact hgoodapp
          · exact h2 n (by simp [hn])
        have hpairs1 : List.Chain' stackPair (appendChild p c :: rest) := by
          rw [List.chain'_cons']
          constructor
          · intro b hb c0 hc0
            rw [appendChild_level]
            exact (List.chain'_cons'.mp hpairspr).1 b hb c0 hc0
          · exact (List.chain'_cons'.mp hpairspr).2
        have hlast1 : ∀ r, (appendChild p c :: rest).getLast? = some r →
            r.level = 0 := by
          intro r hr
          cases rest with
          | nil =>
            simp at hr
            subst hr
            rw [appendChild_level]
            exact h4 p (by simp)
          | cons r0 rs =>
            rw [List.getLast?_cons_cons] at hr
            apply h4
            rw [List.getLast?_cons_cons, List.getLast?_cons_cons]
            exact hr
        have hlen1 : (appendChild p c :: rest).length ≤ N := by
          simp at hlen ⊢
          omega
        obtain ⟨i1, i2, i3, i4, i5, i6, i7, i8⟩ :=
          ih (appendChild p c :: rest) hlen1 hchain1 hgoods1 hpairs1 hlast1
        rw [heq]
        refine ⟨?_, i2, i3, i4, i5, ?_, i7, ?_⟩
        · rw [i1]
          simp only [stackInfos_cons, infos_appendChild]
          rw [List.append_assoc]
        · constructor
          · intro _; simp
          · intro _; exact i6.mpr (by simp)
        · rcases i8 with hsame | ⟨h0, hh0, hcond⟩
          · right
            refine ⟨appendChild p c, ?_, ?_⟩
            · rw [hsame]; rfl
            · intro c0 hc0
              rw [appendChild_children, List.getLast?_concat] at hc0
              rw [← Option.some.inj hc0]
              exact hle
          · right; exact ⟨h0, hh0, hcond⟩
      · have heq : popTo lvl (c :: p :: rest) = c :: p :: rest := by
          rw [popTo_two, if_neg hle]
        rw [heq]
        refine ⟨rfl, h1, h2, h3, h4, Iff.rfl, ?_, Or.inl rfl⟩
        intro h0 hh
        simp at hh
        subst hh
        omega

theorem popTo_ok (lvl : Nat) (hlvl : 1 ≤ lvl) (s : List HeadingNode)
    (h1 : levelsDec s) (h2 : ∀ n ∈ s, goodNode n = true)
    (h3 : List.Chain' stackPair s)
    (h4 : ∀ r, s.getLast? = some r → r.level = 0) :
    stackInfos (popTo lvl s) = stackInfos s ∧
    levelsDec (popTo lvl s) ∧
    (∀ n ∈ popTo lvl s, goodNode n = true) ∧
    List.Chain' stackPair (popTo lvl s) ∧
    (∀ r, (popTo lvl s).getLast? = some r → r.level = 0) ∧
    (popTo lvl s ≠ [] ↔ s ≠ []) ∧
    (∀ h0, (popTo lvl s).head? = some h0 → h0.level < lvl) ∧
    (popTo lvl s = s ∨
      ∃ h0, (popTo lvl s).head? = some h0 ∧
        ∀ c0, h0.children.getLast? = some c0 → lvl ≤ c0.level) :=
  popTo_ok_aux lvl hlvl s.length s (le_refl _) h1 h2 h3 h4

/-- Pushing one parsed heading entry preserves the stack invariant and
appends the entry info. -/
theorem pushEntry_ok (s : List HeadingNode) (e : HeadingNode)
    (hs : StackOk s) (he1 : 1 ≤ e.level) (he2 : e.children = []) :
    StackOk (pushEntry s e) ∧
    stackInfos (pushEntry s e) = stackInfos s ++ [einfo e] := by
  obtain ⟨i1, i2, i3, i4, i5, i6, i7, i8⟩ :=
    popTo_ok e.level he1 s hs.chain hs.goods hs.pairs hs.lastLev
  have hne : popTo e.level s ≠ [] := i6.mpr hs.ne
  constructor
  · refine ⟨by simp [pushEntry], ?_, ?_, ?_, ?_, ?_⟩
    · unfold levelsDec
      rw [pushEntry, List.chain'_cons']
      exact ⟨fun b hb => i7 b hb, i2⟩
    · intro n hn
      rcases List.mem_cons.mp hn with rfl | hn
      · exact goodNode_childless n he2
      · exact i3 n hn
    · rw [pushEntry, List.chain'_cons']
      constructor
      · intro b hb c0 hc0
        rcases i8 with hsame | ⟨h0, hh0, hcond⟩
        · rw [hsame] at hb
          have hbchild : b.children = [] := by
            apply hs.headEmpty
            cases s with
            | nil => exact absurd rfl hs.ne
            | cons x xs => simpa using hb
          rw [hbchild] at hc0
          simp at hc0
        · rw [hh0] at hb
          have hb0 : h0 = b := by simpa using hb
          subst hb0
          exact hcond c0 hc0
      · exact i4
    · intro r hr
      apply i5
      rw [pushEntry] at hr
      cases hpop : popTo e.level s with
      | nil => exact absurd hpop hne
      | cons x xs =>
        rw [hpop] at hr
        rw [List.getLast?_cons_cons] at hr
        exact hr
    · intro h0 hh
      rw [pushEntry] at hh
      simp at hh
      subst hh
      exact he2
  · rw [pushEntry, stackInfos_cons, i1, infos_childless e he2]

theorem lineHeading_level_bounds {l : List Char} {k : Nat} {t : List Char}
    (h : lineHeading l = some (k, t)) : 1 ≤ k ∧ k ≤ 6 := by
  obtain ⟨w, _, hk1, hk6, _⟩ := lineHeading_facts h
  exact ⟨hk1, hk6⟩

@[simp] theorem scanLines_nil (i : Nat) (s : List HeadingNode) :
    scanLines i s [] = s := rfl

theorem scanLines_cons (i : Nat) (s : List HeadingNode) (l : Line)
    (rest : List Line) :
    scanLines i s (l :: rest) = scanLines (i + 1) (parseStep s i l) rest := rfl

@[simp] theorem headingEntriesFrom_nil (i : Nat) : headingEntriesFrom i [] = [] := rfl

theorem headingEntriesFrom_cons_none (i : Nat) (l : Line) (rest : List Line)
    (h : lineHeading l = none) :
    headingEntriesFrom i (l :: rest) = headingEntriesFrom (i + 1) rest := by
  conv_lhs => unfold headingEntriesFrom
  rw [h]

theorem headingEntriesFrom_cons_some (i : Nat) (l : Line) (rest : List Line)
    (k : Nat) (t : List Char) (h : lineHeading l = some (k, t)) :
    headingEntriesFrom i (l :: rest) =
      .mk (headingId i) t k i [] :: headingEntriesFrom (i + 1) rest := by
  conv_lhs => unfold headingEntriesFrom
  rw [h]

theorem scanLines_ok : ∀ (ls : List Line) (i : Nat) (s : List HeadingNode),
    StackOk s →
    StackOk (scanLines i s ls) ∧
    stackInfos (scanLines i s ls) =
      stackInfos s ++ (headingEntriesFrom i ls).map einfo := by
  intro ls
  induction ls with
  | nil => intro i s hs; exact ⟨hs, by simp⟩
  | cons l rest ih =>
    intro i s hs
    rw [scanLines_cons]
    cases hlh : lineHeading l with
    | none =>
      have hstep : parseStep s i l = s := by
        unfold parseStep; rw [hlh]
      rw [hstep, headingEntriesFrom_cons_none i l rest hlh]
      exact ih (i + 1) s hs
    | some kt =>
      obtain ⟨k, t⟩ := kt
      have hbounds := lineHeading_level_bounds hlh
      have hstep : parseStep s i l =
          pushEntry s (.mk (headingId i) t k i []) := by
        unfold parseStep; rw [hlh]
      rw [hstep, headingEntriesFrom_cons_some i l rest k t hlh]
      obtain ⟨hok1, hinf1⟩ := pushEntry_ok s (.mk (headingId i) t k i []) hs
        (by simpa using hbounds.1) (by simp)
      obtain ⟨hok2, hinf2⟩ := ih (i + 1) _ hok1
      refine ⟨hok2, ?_⟩
      rw [hinf2, hinf1]
      simp

theorem collapseStack_nil : collapseStack [] = rootNode := rfl

theorem collapseStack_one (n : HeadingNode) : collapseStack [n] = n := rfl

theorem collapseStack_two (c p : HeadingNode) (rest : List HeadingNode) :
    collapseStack (c :: p :: rest) = collapseStack (appendChild p c :: rest) := rfl

theorem collapseStack_infos_aux : ∀ (N : Nat) (s : List HeadingNode),
    s.length ≤ N → s ≠ [] → infos (collapseStack s) = stackInfos s := by
  intro N
  induction N with
  | zero =>
    intro s hlen hne
    exact absurd (List.eq_nil_of_length_eq_zero (by omega)) hne
  | succ N ih =>
    intro s hlen hne
    match s with
    | [n] => rw [collapseStack_one]; simp
    | c :: p :: rest =>
      rw [collapseStack_two, ih (appendChild p c :: rest)
        (by simp at hlen ⊢; omega) (by simp)]
      simp only [stackInfos_cons, infos_appendChild]
      rw [List.append_assoc]

theorem collapseStack_infos (s : List HeadingNode) (hne : s ≠ []) :
    infos (collapseStack s) = stackInfos s :=
  collapseStack_infos_aux s.length s (le_refl _) hne

theorem collapseStack_good_aux : ∀ (N : Nat) (s : List HeadingNode),
    s.length ≤ N → levelsDec s → (∀ n ∈ s, goodNode n = true) →
    List.Chain' stackPair s → goodNode (collapseStack s) = true := by
  intro N
  induction N with
  | zero =>
    intro s hlen h1 h2 h3
    have hs : s = [] := List.eq_nil_of_length_eq_zero (by omega)
    subst hs
    rw [collapseStack_nil]
    rfl
  | succ N ih =>
    intro s hlen h1 h2 h3
    match s with
    | [] => rw [collapseStack_nil]; rfl
    | [n] => rw [collapseStack_one]; exact h2 n (by simp)
    | c :: p :: rest =>
      have hplt : p.level < c.level := (List.chain'_cons.mp h1).1
      have hchainpr := (List.chain'_cons.mp h1).2
      have hpairscp : stackPair c p := (List.chain'_cons.mp h3).1
      have hpairspr := (List.chain'_cons.mp h3).2
      have hgoodapp : goodNode (appendChild p c) = true := by
        apply goodNode_appendChild (h2 p (by simp)) (h2 c (by simp)) hplt
        intro c0 hc0
        exact hpairscp c0 hc0
      rw [collapseStack_two]
      apply ih (appendChild p c :: rest) (by simp at hlen ⊢; omega)
      · unfold levelsDec
        rw [List.chain'_cons']
        constructor
        · intro b hb
          rw [appendChild_level]
          exact (List.chain'_cons'.mp hchainpr).1 b hb
        · exact (List.chain'_cons'.mp hchainpr).2
      · intro n hn
        rcases List.mem_cons.mp hn with rfl | hn
        · exact hgoodapp
        · exact h2 n (by simp [hn])
      · rw [List.chain'_cons']
        constructor
        · intro b hb c0 hc0
          rw [appendChild_level]
          exact (List.chain'_cons'.mp hpairspr).1 b hb c0 hc0
        · exact (List.chain'_cons'.mp hpairspr).2

theorem stackOk_init : StackOk [rootNode] := by
  refine ⟨by simp, ?_, ?_, ?_, ?_, ?_⟩
  · exact List.chain'_singleton _
  · intro n hn
    rcases List.mem_singleton.mp hn with rfl
    rfl
  · exact List.chain'_singleton _
  · intro r hr
    simp at hr
    subst hr
    rfl
  · intro h0 hh
    simp at hh
    subst hh
    rfl

/-- The document-order info sequence of the parsed tree is exactly the root
info followed by the per-line heading entries in line order. -/
theorem parseLines_infos (ls : List Line) :
    infos (parseLines ls) = rootInfo :: (headingEntriesFrom 0 ls).map einfo := by
  unfold parseLines
  obtain ⟨hok, hinf⟩ := scanLines_ok ls 0 [rootNode] stackOk_init
  rw [collapseStack_infos _ hok.ne, hinf]
  have hri : stackInfos [rootNode] = [rootInfo] := by
    simp [infos_childless rootNode rfl]
    rfl
  rw [hri]
  rfl

/-- The parsed tree is structurally well-formed. -/
theorem parseLines_good (ls : List Line) : goodNode (parseLines ls) = true := by
  unfold parseLines
  obtain ⟨hok, _⟩ := scanLines_ok ls 0 [rootNode] stackOk_init
  exact collapseStack_good_aux (scanLines 0 [rootNode] ls).length _ (le_refl _)
    hok.chain hok.goods hok.pairs

theorem parseLines_einfo (ls : List Line) :
    einfo (parseLines ls) = rootInfo := by
  have h := parseLines_infos ls
  rw [infos_eq] at h
  exact (List.cons.injEq _ _ _ _ ▸ h : _ ∧ _).1

theorem parseLines_id (ls : List Line) : (parseLines ls).id = "root" := by
  have h := parseLines_einfo ls
  unfold einfo rootInfo at h
  exact congrArg Prod.fst h

theorem parseLines_level (ls : List Line) : (parseLines ls).level = 0 := by
  have h := parseLines_einfo ls
  unfold einfo rootInfo at h
  exact congrArg (fun q => q.2.2.1) h

theorem parseLines_text (ls : List Line) : (parseLines ls).text = "Root".data := by
  have h := parseLines_einfo ls
  unfold einfo rootInfo at h
  exact congrArg (fun q => q.2.1) h

theorem parseLines_line (ls : List Line) : (parseLines ls).line = 0 := by
  have h := parseLines_einfo ls
  unfold einfo rootInfo at h
  exact congrArg (fun q => q.2.2.2) h

/-! ### The heading entry list -/

theorem headingEntriesFrom_append : ∀ (xs : List Line) (i : Nat) (ys : List Line),
    headingEntriesFrom i (xs ++ ys) =
      headingEntriesFrom i xs ++ headingEntriesFrom (i + xs.length) ys := by
  intro xs
  induction xs with
  | nil => intro i ys; simp
  | cons l rest ih =>
    intro i ys
    cases hlh : lineHeading l with
    | none =>
      rw [List.cons_append, headingEntriesFrom_cons_none _ _ _ hlh,
        headingEntriesFrom_cons_none _ _ _ hlh, ih]
      have harith : i + 1 + rest.length = i + (l :: rest).length := by
        simp only [List.length_cons]; omega
      rw [harith]
    | some kt =>
      obtain ⟨k, t⟩ := kt
      rw [List.cons_append, headingEntriesFrom_cons_some _ _ _ _ _ hlh,
        headingEntriesFrom_cons_some _ _ _ _ _ hlh, ih]
      have harith : i + 1 + rest.length = i + (l :: rest).length := by
        simp only [List.length_cons]; omega
      rw [harith, List.cons_append]

/-- Every entry comes from a recognized line, with id, line index, level and
text determined by that line. -/
theorem mem_headingEntriesFrom : ∀ (ls : List Line) (i : Nat) (e : HeadingNode),
    e ∈ headingEntriesFrom i ls →
    ∃ j l, ls.drop j = l :: ls.drop (j + 1) ∧ j < ls.length ∧
      lineHeading l = some (e.level, e.text) ∧
      e = .mk (headingId (i + j)) e.text e.level (i + j) [] := by
  intro ls
  induction ls with
  | nil => intro i e he; simp at he
  | cons l rest ih =>
    intro i e he
    cases hlh : lineHeading l with
    | none =>
      rw [headingEntriesFrom_cons_none _ _ _ hlh] at he
      obtain ⟨j, l0, hdrop0, hj, hlh0, he⟩ := ih (i + 1) e he
      refine ⟨j + 1, l0, ?_, ?_, hlh0, ?_⟩
      · simpa using hdrop0
      · simp; omega
      · have : i + 1 + j = i + (j + 1) := by omega
        rw [this] at he
        exact he
    | some kt =>
      obtain ⟨k, t⟩ := kt
      rw [headingEntriesFrom_cons_some _ _ _ _ _ hlh] at he
      rcases List.mem_cons.mp he with rfl | he
      · exact ⟨0, l, by simp, by simp, by simpa using hlh, by simp⟩
      · obtain ⟨j, l0, hdrop0, hj, hlh0, he⟩ := ih (i + 1) e he
        refine ⟨j + 1, l0, ?_, ?_, hlh0, ?_⟩
        · simpa using hdrop0
        · simp; omega
        · have : i + 1 + j = i + (j + 1) := by omega
          rw [this] at he
          exact he

/-- Conversely, every recognized line produces its entry. -/
theorem headingEntriesFrom_complete :
    ∀ (ls : List Line) (i j : Nat) (l : Line) (k : Nat) (t : List Char),
    ls.drop j = l :: ls.drop (j + 1) → j < ls.length →
    lineHeading l = some (k, t) →
    (HeadingNode.mk (headingId (i + j)) t k (i + j) []) ∈ headingEntriesFrom i ls := by
  intro ls
  induction ls with
  | nil => intro i j l k t hdd hj; simp at hj
  | cons l0 rest ih =>
    intro i j l k t hdd hj hlh
    cases j with
    | zero =>
      simp at hdd
      subst hdd
      rw [headingEntriesFrom_cons_some _ _ _ _ _ hlh]
      simp
    | succ j0 =>
      have hdd0 : rest.drop j0 = l :: rest.drop (j0 + 1) := by simpa using hdd
      have hj0 : j0 < rest.length := by simp at hj; omega
      have hmem := ih (i + 1) j0 l k t hdd0 hj0 hlh
      have harith : i + 1 + j0 = i + (j0 + 1) := by omega
      rw [harith] at hmem
      cases hlh0 : lineHeading l0 with
      | none => rw [headingEntriesFrom_cons_none _ _ _ hlh0]; exact hmem
      | some kt0 =>
        obtain ⟨k0, t0⟩ := kt0
        rw [headingEntriesFrom_cons_some _ _ _ _ _ hlh0]
        exact List.mem_cons_of_mem _ hmem

theorem headingEntriesFrom_line_bounds :
    ∀ (ls : List Line) (i : Nat) (e : HeadingNode),
    e ∈ headingEntriesFrom i ls → i ≤ e.line ∧ e.line < i + ls.length := by
  intro ls i e he
  obtain ⟨j, l, _, hj, _, he⟩ := mem_headingEntriesFrom ls i e he
  rw [he]
  simp
  omega

theorem headingEntriesFrom_pairwise :
    ∀ (ls : List Line) (i : Nat),
    List.Pairwise (fun a b => a.line < b.line) (headingEntriesFrom i ls) := by
  intro ls
  induction ls with
  | nil => intro i; simp
  | cons l rest ih =>
    intro i
    cases hlh : lineHeading l with
    | none => rw [headingEntriesFrom_cons_none _ _ _ hlh]; exact ih (i + 1)
    | some kt =>
      obtain ⟨k, t⟩ := kt
      rw [headingEntriesFrom_cons_some _ _ _ _ _ hlh]
      refine List.pairwise_cons.mpr ⟨?_, ih (i + 1)⟩
      intro e he
      have := (headingEntriesFrom_line_bounds rest (i + 1) e he).1
      simp
      omega

theorem headingEntriesFrom_level_bounds :
    ∀ (ls : List Line) (i : Nat) (e : HeadingNode),
    e ∈ headingEntriesFrom i ls → 1 ≤ e.level ∧ e.level ≤ 6 := by
  intro ls i e he
  obtain ⟨j, l, _, hj, hlh, he⟩ := mem_headingEntriesFrom ls i e he
  exact lineHeading_level_bounds hlh

/-! ### Injectivity of the line-derived ids -/

theorem digitsList_lt (n : Nat) (h : n < 10) :
    digitsList n = [Nat.digitChar n] := by
  unfold digitsList
  rw [dif_pos h]

theorem digitsList_ge (n : Nat) (h : ¬ n < 10) :
    digitsList n = digitsList (n / 10) ++ [Nat.digitChar (n % 10)] := by
  conv_lhs => unfold digitsList
  rw [dif_neg h]

theorem digitsList_ne_nil (n : Nat) : digitsList n ≠ [] := by
  by_cases h : n < 10
  · rw [digitsList_lt n h]; simp
  · rw [digitsList_ge n h]; simp

theorem toDigitsCore_eq_digitsList :
    ∀ (f n : Nat) (acc : List Char), n < f →
      Nat.toDigitsCore 10 f n acc = digitsList n ++ acc := by
  intro f
  induction f with
  | zero => intro n acc h; omega
  | succ f ih =>
    intro n acc h
    show (if n / 10 = 0 then Nat.digitChar (n % 10) :: acc
      else Nat.toDigitsCore 10 f (n / 10) (Nat.digitChar (n % 10) :: acc))
      = digitsList n ++ acc
    by_cases hz : n / 10 = 0
    · rw [if_pos hz]
      have hn10 : n < 10 := by omega
      rw [digitsList_lt n hn10, Nat.mod_eq_of_lt hn10]
      rfl
    · rw [if_neg hz]
      have hge : ¬ n < 10 := by omega
      have hlt : n / 10 < f := by
        have h1 : n / 10 < n := Nat.div_lt_self (by omega) (by omega)
        omega
      rw [ih (n / 10) (Nat.digitChar (n % 10) :: acc) hlt,
        digitsList_ge n hge, List.append_assoc]
      rfl

theorem repr_eq_digitsList (n : Nat) :
    Nat.repr n = (digitsList n).asString := by
  show (Nat.toDigitsCore 10 (n + 1) n []).asString = (digitsList n).asString
  rw [toDigitsCore_eq_digitsList (n + 1) n [] (by omega), List.append_nil]

theorem digitChar_inj_lt : ∀ m < 10, ∀ n < 10,
    Nat.digitChar m = Nat.digitChar n → m = n := by
  decide

theorem digitsList_inj : ∀ m n : Nat, digitsList m = digitsList n → m = n := by
  intro m
  induction m using Nat.strong_induction_on with
  | _ m ih =>
    intro n h
    by_cases hm : m < 10
    · by_cases hn : n < 10
      · rw [digitsList_lt m hm, digitsList_lt n hn] at h
        simp at h
        exact digitChar_inj_lt m hm n hn h
      · rw [digitsList_lt m hm, digitsList_ge n hn] at h
        have hlen := congrArg List.length h
        rw [List.length_singleton, List.length_append, List.length_singleton] at hlen
        have h0 : (digitsList (n / 10)).length = 0 := by omega
        exact absurd (List.eq_nil_of_length_eq_zero h0) (digitsList_ne_nil _)
    · by_cases hn : n < 10
      · rw [digitsList_ge m hm, digitsList_lt n hn] at h
        have hlen := congrArg List.length h
        rw [List.length_singleton, List.length_append, List.length_singleton] at hlen
        have h0 : (digitsList (m / 10)).length = 0 := by omega
        exact absurd (List.eq_nil_of_length_eq_zero h0) (digitsList_ne_nil _)
      · rw [digitsList_ge m hm, digitsList_ge n hn] at h
        have h2 := congrArg List.reverse h
        simp only [List.reverse_append, List.reverse_cons, List.reverse_nil,
          List.nil_append, List.singleton_append] at h2
        have hhead : Nat.digitChar (m % 10) = Nat.digitChar (n % 10) :=
          (List.cons.injEq _ _ _ _ ▸ h2 : _ ∧ _).1
        have htail : (digitsList (m / 10)).reverse = (digitsList (n / 10)).reverse :=
          (List.cons.injEq _ _ _ _ ▸ h2 : _ ∧ _).2
        have hmod : m % 10 = n % 10 :=
          digitChar_inj_lt (m % 10) (Nat.mod_lt m (by omega))
            (n % 10) (Nat.mod_lt n (by omega)) hhead
        have hdiv : m / 10 = n / 10 := by
          apply ih (m / 10) (Nat.div_lt_self (by omega) (by omega))
          have := congrArg List.reverse htail
          simpa using this
        omega

theorem nat_repr_inj {m n : Nat} (h : Nat.repr m = Nat.repr n) : m = n := by
  rw [repr_eq_digitsList, repr_eq_digitsList] at h
  apply digitsList_inj
  have h2 := congrArg String.data h
  simpa [List.asString] using h2

theorem headingId_inj {i j : Nat} (h : headingId i = headingId j) : i = j := by
  unfold headingId at h
  have h2 := congrArg String.data h
  rw [String.data_append, String.data_append] at h2
  have h3 : (Nat.repr i).data = (Nat.repr j).data :=
    List.append_cancel_left h2
  apply nat_repr_inj
  cases hi : Nat.repr i with
  | mk di =>
    cases hj : Nat.repr j with
    | mk dj =>
      rw [hi, hj] at h3
      simp at h3
      rw [h3]

theorem headingId_ne_root (i : Nat) : headingId i ≠ "root" := by
  intro h
  unfold headingId at h
  have h2 := congrArg String.data h
  rw [String.data_append] at h2
  have h3 : ("heading-".data ++ (Nat.repr i).data).length = ("root".data).length :=
    congrArg List.length h2
  rw [List.length_append] at h3
  have h4 : ("heading-".data).length = 8 := rfl
  have h5 : ("root".data).length = 4 := rfl
  omega

/-! ### findById -/

theorem findById_eq (i : String) (t : List Char) (l ln : Nat)
    (cs : List HeadingNode) (nid : String) :
    findById (.mk i t l ln cs) nid =
      if i = nid then some (.mk i t l ln cs) else findInForest cs nid := rfl

@[simp] theorem findInForest_nil (nid : String) :
    findInForest [] nid = none := rfl

theorem findInForest_cons (c : HeadingNode) (rest : List HeadingNode)
    (nid : String) :
    findInForest (c :: rest) nid =
      match findById c nid with
      | some r => some r
      | none => findInForest rest nid := rfl

theorem findById_self (t : HeadingNode) (nid : String) (h : t.id = nid) :
    findById t nid = some t := by
  cases t with
  | mk i tx l ln cs =>
    rw [findById_eq, if_pos (by simpa using h)]

theorem findById_some :
    ∀ (t : HeadingNode) (nid : String) (p : HeadingNode),
      findById t nid = some p → p.id = nid ∧ p ∈ preorder t := by
  intro t
  induction t using headingInduction with
  | h i tx l ln cs ih =>
    intro nid p hp
    rw [findById_eq] at hp
    by_cases hid : i = nid
    · rw [if_pos hid] at hp
      have : HeadingNode.mk i tx l ln cs = p := Option.some.inj hp
      subst this
      exact ⟨by simpa using hid, self_mem_preorder _⟩
    · rw [if_neg hid] at hp
      have haux : ∀ (ds : List HeadingNode), (∀ c ∈ ds, c ∈ cs) →
          findInForest ds nid = some p → p.id = nid ∧ p ∈ preForest ds := by
        intro ds
        induction ds with
        | nil => intro _ hq; simp [findInForest_nil] at hq
        | cons c rest ihf =>
          intro hsub hq
          rw [findInForest_cons] at hq
          cases hfc : findById c nid with
          | some r =>
            rw [hfc] at hq
            have hrp : r = p := Option.some.inj hq
            subst hrp
            have := ih c (hsub c (by simp)) nid r hfc
            exact ⟨this.1, by rw [preForest_cons]; exact List.mem_append_left _ this.2⟩
          | none =>
            rw [hfc] at hq
            have := ihf (fun c0 hc0 => hsub c0 (List.mem_cons_of_mem _ hc0)) hq
            exact ⟨this.1, by rw [preForest_cons]; exact List.mem_append_right _ this.2⟩
      have := haux cs (fun c hc => hc) hp
      refine ⟨this.1, ?_⟩
      rw [preorder_eq]
      exact List.mem_cons_of_mem _ (by simpa using this.2)

/-! ### Ids of the parsed tree -/

theorem einfo_id (n : HeadingNode) : (einfo n).1 = n.id := rfl

theorem parseLines_ids (ls : List Line) :
    (preorder (parseLines ls)).map HeadingNode.id =
      "root" :: (headingEntriesFrom 0 ls).map HeadingNode.id := by
  have h := congrArg (List.map Prod.fst) (parseLines_infos ls)
  unfold infos at h
  rw [List.map_map, List.map_cons, List.map_map] at h
  exact h

theorem entries_id_line (ls : List Line) (i : Nat) :
    ∀ e ∈ headingEntriesFrom i ls, e.id = headingId e.line := by
  intro e he
  obtain ⟨j, l, _, _, _, he⟩ := mem_headingEntriesFrom ls i e he
  rw [he]
  simp

theorem parseLines_nodup_ids (ls : List Line) :
    ((preorder (parseLines ls)).map HeadingNode.id).Nodup := by
  rw [parseLines_ids]
  refine List.nodup_cons.mpr ⟨?_, ?_⟩
  · intro hmem
    rcases List.mem_map.mp hmem with ⟨e, he, hid⟩
    rw [entries_id_line ls 0 e he] at hid
    exact headingId_ne_root e.line hid
  · have hpw := headingEntriesFrom_pairwise ls 0
    unfold List.Nodup
    rw [List.pairwise_map]
    apply List.Pairwise.imp_of_mem ?_ hpw
    intro a b ha hb hlt
    rw [entries_id_line ls 0 a ha, entries_id_line ls 0 b hb]
    intro heq
    have := headingId_inj heq
    omega
/-! ### Claim theorems -/

/-- C6: for every buffer, `insertChild` with a `parentId` that resolves to
no node of the current tree returns the buffer unchanged, and
`deleteSubtree` with a `nodeId` that is "root" or resolves to no node
returns the buffer unchanged; in no failure case is the buffer modified. -/
theorem C6_failed_lookups_are_noops :
    (∀ (md : List Char) (pid : String) (tx : List Char),
      findById (parseMarkdownHeadings md) pid = none →
      handleNodeAdd md pid tx = md) ∧
    (∀ (md : List Char) (nid : String),
      findById (parseMarkdownHeadings md) nid = none ∨ nid = "root" →
      handleNodeDelete md nid = md) := by
  constructor
  · intro md pid tx h
    unfold handleNodeAdd
    have h2 : findById (parseLines (splitNl md)) pid = none := h
    rw [h2]
  · intro md nid h
    rcases h with h | h
    · unfold handleNodeDelete
      have h2 : findById (parseLines (splitNl md)) nid = none := h
      rw [h2]
    · subst h
      unfold handleNodeDelete
      have hfind : findById (parseLines (splitNl md)) "root" =
          some (parseLines (splitNl md)) :=
        findById_self _ _ (parseLines_id _)
      rw [hfind]
      show (if (parseLines (splitNl md)).id = "root" then md else _) = md
      rw [if_pos (parseLines_id _)]

/-- Witness for C6 at concrete inputs: an unresolved parent id leaves the
buffer unchanged on insert, and deleting "root" or an unresolved id leaves
the buffer unchanged. -/
theorem C6_witness :
    handleNodeAdd "# A\n## B".data "heading-7" "X".data = "# A\n## B".data ∧
    handleNodeDelete "# A\n## B".data "root" = "# A\n## B".data ∧
    handleNodeDelete "# A\n## B".data "nope" = "# A\n## B".data :=
  ⟨C6_failed_lookups_are_noops.1 "# A\n## B".data "heading-7" "X".data rfl,
   C6_failed_lookups_are_noops.2 "# A\n## B".data "root" (Or.inr rfl),
   C6_failed_lookups_are_noops.2 "# A\n## B".data "nope" (Or.inl rfl)⟩

theorem scanLines_all_none :
    ∀ (ls : List Line) (i : Nat) (s : List HeadingNode),
      (∀ l ∈ ls, lineHeading l = none) → scanLines i s ls = s := by
  intro ls
  induction ls with
  | nil => intro i s _; rfl
  | cons l rest ih =>
    intro i s h
    rw [scanLines_cons]
    have hstep : parseStep s i l = s := by
      unfold parseStep
      rw [h l (by simp)]
    rw [hstep]
    exact ih (i + 1) s (fun l0 hl0 => h l0 (List.mem_cons_of_mem _ hl0))

/-- C10: for every buffer containing no line recognized as a heading —
including the empty string — `parse` returns the synthetic root alone:
id "root", text "Root", level 0, line 0, no children.  (The parse is a
total function, so it never fails on any input string.) -/
theorem C10_no_headings_root_only :
    (∀ md : List Char, (∀ l ∈ splitNl md, lineHeading l = none) →
      parseMarkdownHeadings md = rootNode) ∧
    parseMarkdownHeadings "".data = rootNode ∧
    rootNode = .mk "root" "Root".data 0 0 [] := by
  refine ⟨?_, rfl, rfl⟩
  intro md h
  unfold parseMarkdownHeadings parseLines
  rw [scanLines_all_none (splitNl md) 0 [rootNode] h, collapseStack_one]

/-- Witness for C10 at a concrete headingless buffer. -/
theorem C10_witness :
    parseMarkdownHeadings "hello\nworld ####### not a heading\n#".data = rootNode :=
  C10_no_headings_root_only.1 _ (by decide)

/-- C9: within one parsed tree all node ids are pairwise distinct: each
non-root node's id is "heading-" followed by its line index, line-derived
ids are never the reserved root id "root", and find-by-id is unambiguous
(at most one node of the tree matches any id). -/
theorem C9_ids_unambiguous (md : List Char) :
    ((preorder (parseMarkdownHeadings md)).map HeadingNode.id).Nodup ∧
    (∀ n ∈ preorder (parseMarkdownHeadings md),
      n.id ≠ "root" → n.id = headingId n.line) ∧
    (∀ i : Nat, headingId i ≠ "root") ∧
    (∀ nid : String,
      ((preorder (parseMarkdownHeadings md)).map HeadingNode.id).count nid ≤ 1) := by
  refine ⟨parseLines_nodup_ids _, ?_, headingId_ne_root, ?_⟩
  · intro n hn hroot
    have hinfo : einfo n ∈ infos (parseLines (splitNl md)) := by
      unfold infos
      exact List.mem_map_of_mem einfo hn
    rw [parseLines_infos] at hinfo
    rcases List.mem_cons.mp hinfo with hr | he
    · exfalso
      apply hroot
      have := congrArg Prod.fst hr
      simpa [einfo, rootInfo] using this
    · rcases List.mem_map.mp he with ⟨e, hee, heq⟩
      have hid : n.id = e.id := by
        have := congrArg Prod.fst heq
        simpa [einfo] using this.symm
      have hline : n.line = e.line := by
        have := congrArg (fun q => q.2.2.2) heq
        simpa [einfo] using this.symm
      rw [hid, hline]
      exact entries_id_line _ 0 e hee
  · intro nid
    exact List.nodup_iff_count_le_one.mp (parseLines_nodup_ids _) nid

/-- Witness for C9's inner implications at a concrete buffer and node. -/
theorem C9_witness :
    (HeadingNode.mk "heading-1" "B".data 2 1 []) ∈
      preorder (parseMarkdownHeadings "# A\n## B".data) ∧
    (HeadingNode.mk "heading-1" "B".data 2 1 []).id = headingId 1 := by
  constructor
  · have h9 := C9_ids_unambiguous "# A\n## B".data
    show _ ∈ preorder (parseMarkdownHeadings "# A\n## B".data)
    have : preorder (parseMarkdownHeadings "# A\n## B".data) =
        [parseMarkdownHeadings "# A\n## B".data,
         .mk "heading-0" "A".data 1 0 [.mk "heading-1" "B".data 2 1 []],
         .mk "heading-1" "B".data 2 1 []] := rfl
    rw [this]
    simp
  · have h9 := C9_ids_unambiguous "# A\n## B".data
    exact h9.2.1 _ (by
      have : preorder (parseMarkdownHeadings "# A\n## B".data) =
          [parseMarkdownHeadings "# A\n## B".data,
           .mk "heading-0" "A".data 1 0 [.mk "heading-1" "B".data 2 1 []],
           .mk "heading-1" "B".data 2 1 []] := rfl
      rw [this]
      simp) (by decide)

/-- C5 (amended): a line is recognized as a heading iff it decomposes into
1–6 marker characters, at least one whitespace character, and a non-empty
remainder every character of which is matched by the regex dot (no line
terminators); the level is the marker count, and the text is the raw
remainder — chosen greedily after the longest whitespace run (or the run's
final character when everything after the markers is whitespace) — with NO
trimming of surrounding whitespace; a line with 7 or more leading markers
is never recognized.  (The claim's "remainder with surrounding whitespace
trimmed" is refuted by `C5_counterexample`.) -/
theorem C5_heading_recognition (line : Line) :
    ((lineHeading line).isSome ↔
      ∃ k w t, line = List.replicate k '#' ++ w ++ t ∧ 1 ≤ k ∧ k ≤ 6 ∧
        w ≠ [] ∧ (∀ c ∈ w, isJsWs c = true) ∧ t ≠ [] ∧
        (∀ c ∈ t, isDotChar c = true)) ∧
    (∀ k t, lineHeading line = some (k, t) →
      ∃ w, line = List.replicate k '#' ++ w ++ t ∧ 1 ≤ k ∧ k ≤ 6 ∧ w ≠ [] ∧
        (∀ c ∈ w, isJsWs c = true) ∧ t ≠ [] ∧ (∀ c ∈ t, isDotChar c = true) ∧
        (∀ c, t.head? = some c → isJsWs c = false ∨ t = [c])) ∧
    (7 ≤ (line.takeWhile (fun c => c = '#')).length → lineHeading line = none) := by
  refine ⟨⟨?_, ?_⟩, ?_, ?_⟩
  · intro h
    rw [Option.isSome_iff_exists] at h
    obtain ⟨kt, hkt⟩ := h
    obtain ⟨k, t⟩ := kt
    obtain ⟨w, hl, hk1, hk6, hw, hws, ht, hdot, _⟩ := lineHeading_facts hkt
    exact ⟨k, w, t, hl, hk1, hk6, hw, hws, ht, hdot⟩
  · rintro ⟨k, w, t, rfl, hk1, hk6, hw, hws, ht, hdot⟩
    exact lineHeading_isSome_of_decomp hk1 hk6 hw hws ht hdot
  · intro k t h
    exact lineHeading_facts h
  · intro h7
    unfold lineHeading
    rw [if_neg (by omega)]

/-- Witness for C5 at a concrete line: "## x" is recognized with level 2
and text "x", and its decomposition exists. -/
theorem C5_witness :
    ∃ w, "## x".data = List.replicate 2 '#' ++ w ++ "x".data ∧ 2 ≤ 6 := by
  obtain ⟨w, hl, _, hk6, _⟩ :=
    (C5_heading_recognition "## x".data).2.1 2 "x".data rfl
  exact ⟨w, hl, hk6⟩

/-- Counterexample to C5 as stated: on the line "# A " the stored text is
"A " — the remainder is NOT trimmed (its trim would be "A") — and on the
line "# A\r" (markers, whitespace, non-empty remainder ending in a
carriage return) nothing is recognized because `.` does not match a line
terminator. -/
theorem C5_counterexample :
    lineHeading "# A ".data = some (1, "A ".data) ∧
    trimChars "A ".data = "A".data ∧
    "A ".data ≠ "A".data ∧
    lineHeading "# A\r".data = none := by
  refine ⟨rfl, by decide, by decide, rfl⟩

/-! ### Round-trip: serializing and reparsing -/

theorem lineHeading_of_some_serialize {l : List Char} {k : Nat} {t : List Char}
    (h : lineHeading l = some (k, t)) :
    lineHeading (List.replicate k '#' ++ ' ' :: t) = some (k, t) := by
  obtain ⟨w, _, hk1, hk6, _, _, ht, hdot, hhead⟩ := lineHeading_facts h
  exact lineHeading_marker_space hk1 hk6 ht hdot hhead

theorem scanLines_congr : ∀ (ls1 ls2 : List Line),
    ls1.map lineHeading = ls2.map lineHeading →
    ∀ (i : Nat) (s : List HeadingNode), scanLines i s ls1 = scanLines i s ls2 := by
  intro ls1
  induction ls1 with
  | nil =>
    intro ls2 h i s
    cases ls2 with
    | nil => rfl
    | cons l2 rest2 => simp at h
  | cons l1 rest1 ih =>
    intro ls2 h i s
    cases ls2 with
    | nil => simp at h
    | cons l2 rest2 =>
      simp only [List.map_cons, List.cons.injEq] at h
      rw [scanLines_cons, scanLines_cons]
      have hstep : parseStep s i l1 = parseStep s i l2 := by
        unfold parseStep
        rw [h.1]
      rw [hstep]
      exact ih rest2 h.2 (i + 1) _

theorem entries_map_level_text (ls : List Line) (i : Nat)
    (hvalid : ∀ l ∈ ls, (lineHeading l).isSome) :
    (headingEntriesFrom i ls).map (fun e => some (e.level, e.text)) =
      ls.map lineHeading := by
  induction ls generalizing i with
  | nil => rfl
  | cons l rest ih =>
    cases hlh : lineHeading l with
    | none =>
      have := hvalid l (by simp)
      rw [hlh] at this
      simp at this
    | some kt =>
      obtain ⟨k, t⟩ := kt
      rw [headingEntriesFrom_cons_some _ _ _ _ _ hlh, List.map_cons,
        List.map_cons, hlh,
        ih (i + 1) (fun l0 hl0 => hvalid l0 (List.mem_cons_of_mem _ hl0))]
      rfl

theorem preorder_tail (t : HeadingNode) :
    (preorder t).tail = preForest t.children := by
  rw [preorder_eq]
  rfl

theorem parseLines_tail_infos (ls : List Line) :
    ((preorder (parseLines ls)).tail).map einfo =
      (headingEntriesFrom 0 ls).map einfo := by
  have h := parseLines_infos ls
  unfold infos at h
  rw [preorder_eq, List.map_cons] at h
  have := (List.cons.injEq _ _ _ _ ▸ h : _ ∧ _).2
  rw [preorder_tail]
  exact this

/-- C7: parse is a pure function of the buffer; for a buffer composed only
of valid heading lines, re-serializing the headings in document order
reproduces exactly the per-line `(level, text)` results, and parsing the
re-serialized buffer yields a tree identical to parsing the original. -/
theorem C7_roundtrip_idempotent (md : List Char)
    (hvalid : ∀ l ∈ splitNl md, (lineHeading l).isSome) :
    ((preorder (parseMarkdownHeadings md)).tail.map
        (fun n => some (n.level, n.text)) = (splitNl md).map lineHeading) ∧
    parseMarkdownHeadings (reserialize (parseMarkdownHeadings md)) =
      parseMarkdownHeadings md := by
  have htail := parseLines_tail_infos (splitNl md)
  have hlv : ((preorder (parseLines (splitNl md))).tail).map
      (fun n => some (n.level, n.text)) =
      (headingEntriesFrom 0 (splitNl md)).map (fun e => some (e.level, e.text)) := by
    have h1 := congrArg (List.map (fun q : Info => some (q.2.2.1, q.2.1))) htail
    rw [List.map_map, List.map_map] at h1
    exact h1
  have hpart1 : ((preorder (parseMarkdownHeadings md)).tail).map
      (fun n => some (n.level, n.text)) = (splitNl md).map lineHeading := by
    show ((preorder (parseLines (splitNl md))).tail).map _ = _
    rw [hlv, entries_map_level_text (splitNl md) 0 hvalid]
  refine ⟨hpart1, ?_⟩
  -- The serialized lines.
  set tl := (preorder (parseMarkdownHeadings md)).tail with htl
  set L2 := tl.map serializeNode with hL2
  -- Each serialized line reparses to the same (level, text).
  have hline : ∀ n ∈ tl, lineHeading (serializeNode n) = some (n.level, n.text) := by
    intro n hn
    have hmem : some (n.level, n.text) ∈ (splitNl md).map lineHeading := by
      rw [← hpart1]
      exact List.mem_map_of_mem _ hn
    rcases List.mem_map.mp hmem with ⟨l, _, hl⟩
    exact lineHeading_of_some_serialize hl
  have hmaps : L2.map lineHeading = (splitNl md).map lineHeading := by
    rw [hL2, List.map_map, ← hpart1]
    apply List.map_congr_left
    intro n hn
    exact hline n hn
  -- The serialized buffer splits back into the serialized lines.
  have hnonl : ∀ l ∈ L2, '\n' ∉ l := by
    intro l hl
    rcases List.mem_map.mp hl with ⟨n, hn, rfl⟩
    intro hmem
    unfold serializeNode at hmem
    rcases List.mem_append.mp hmem with hmem | hmem
    · have := List.eq_of_mem_replicate hmem
      simp at this
    · rcases List.mem_cons.mp hmem with hmem | hmem
      · simp at hmem
      · have hv := hline n hn
        obtain ⟨w, _, _, _, _, _, _, hdot, _⟩ := lineHeading_facts hv
        have := hdot _ hmem
        simp [isDotChar] at this
  have hL2ne : L2 ≠ [] := by
    intro hnil
    have h0 : tl = [] := by
      rw [hL2] at hnil
      exact List.map_eq_nil.mp hnil
    rw [h0] at hpart1
    simp only [List.map_nil] at hpart1
    exact splitNl_ne_nil md (List.map_eq_nil.mp hpart1.symm)
  have hsplit : splitNl (reserialize (parseMarkdownHeadings md)) = L2 := by
    show splitNl (joinNl L2) = L2
    exact splitNl_joinNl L2 hL2ne hnonl
  show parseLines (splitNl (reserialize (parseMarkdownHeadings md))) = _
  rw [hsplit]
  unfold parseLines
  rw [scanLines_congr L2 (splitNl md) hmaps 0 [rootNode]]
  rfl

/-- Witness for C7 at a concrete two-heading buffer. -/
theorem C7_witness :
    parseMarkdownHeadings (reserialize (parseMarkdownHeadings "# A\n## B".data)) =
      parseMarkdownHeadings "# A\n## B".data :=
  (C7_roundtrip_idempotent "# A\n## B".data (by decide)).2

/-! ### Flattening the tree to nodes and links -/

theorem flattenLinks_eq (n : HeadingNode) :
    flattenLinks n = linksForest n.id n.children := by
  cases n
  rfl

@[simp] theorem linksForest_nil (pid : String) : linksForest pid [] = [] := rfl

@[simp] theorem linksForest_cons (pid : String) (c : HeadingNode)
    (rest : List HeadingNode) :
    linksForest pid (c :: rest) =
      (pid, c.id) :: (flattenLinks c ++ linksForest pid rest) := by
  rfl

theorem preorder_map_id (n : HeadingNode) :
    (preorder n).map HeadingNode.id =
      n.id :: (preForest n.children).map HeadingNode.id := by
  rw [preorder_eq]
  rfl

/-- The link targets, in emission order, are exactly the ids of the
non-root nodes in document order. -/
theorem flattenLinks_targets :
    ∀ n : HeadingNode, (flattenLinks n).map Prod.snd =
      (preForest n.children).map HeadingNode.id := by
  intro n
  induction n using headingInduction with
  | h i t l ln cs ih =>
    rw [flattenLinks_eq]
    simp only [children_mk, id_mk]
    induction cs with
    | nil => rfl
    | cons c rest ihf =>
      rw [linksForest_cons, preForest_cons]
      simp only [List.map_cons, List.map_append]
      rw [ih c (by simp), preorder_map_id]
      have hrest := ihf (fun c0 hc0 => ih c0 (List.mem_cons_of_mem _ hc0))
      rw [hrest]
      rfl

theorem flattenLinks_length (n : HeadingNode) :
    (flattenLinks n).length + 1 = (preorder n).length := by
  have h := congrArg List.length (flattenLinks_targets n)
  rw [List.length_map, List.length_map] at h
  rw [h, preorder_eq]
  rfl

theorem linksForest_src_aux (pid : String) :
    ∀ cs : List HeadingNode,
      (∀ c ∈ cs, ∀ lk ∈ flattenLinks c,
        ∃ p c0, p ∈ preorder c ∧ c0 ∈ p.children ∧ lk = (p.id, c0.id)) →
      ∀ lk ∈ linksForest pid cs,
        (∃ c ∈ cs, lk = (pid, c.id)) ∨
        (∃ c ∈ cs, ∃ p c0, p ∈ preorder c ∧ c0 ∈ p.children ∧
          lk = (p.id, c0.id)) := by
  intro cs
  induction cs with
  | nil => simp
  | cons c rest ih =>
    intro hsub lk hlk
    rw [linksForest_cons] at hlk
    rcases List.mem_cons.mp hlk with rfl | hlk
    · exact Or.inl ⟨c, by simp, rfl⟩
    · rcases List.mem_append.mp hlk with hlk | hlk
      · obtain ⟨p, c0, hp, hc0, hlkeq⟩ := hsub c (by simp) lk hlk
        exact Or.inr ⟨c, by simp, p, c0, hp, hc0, hlkeq⟩
      · rcases ih (fun c0 hc0 => hsub c0 (List.mem_cons_of_mem _ hc0)) lk hlk with
          ⟨c0, hc0, hlkeq⟩ | ⟨c0, hc0, p, c1, hp, hc1, hlkeq⟩
        · exact Or.inl ⟨c0, List.mem_cons_of_mem _ hc0, hlkeq⟩
        · exact Or.inr ⟨c0, List.mem_cons_of_mem _ hc0, p, c1, hp, hc1, hlkeq⟩

theorem flattenLinks_src :
    ∀ n : HeadingNode, ∀ lk ∈ flattenLinks n,
      ∃ p c, p ∈ preorder n ∧ c ∈ p.children ∧ lk = (p.id, c.id) := by
  intro n
  induction n using headingInduction with
  | h i t l ln cs ih =>
    intro lk hlk
    rw [flattenLinks_eq] at hlk
    simp only [children_mk, id_mk] at hlk
    rcases linksForest_src_aux i cs ih lk hlk with
      ⟨c, hc, hlkeq⟩ | ⟨c, hc, p, c0, hp, hc0, hlkeq⟩
    · exact ⟨.mk i t l ln cs, c, self_mem_preorder _, by simpa using hc, hlkeq⟩
    · refine ⟨p, c0, ?_, hc0, hlkeq⟩
      rw [preorder_eq]
      refine List.mem_cons_of_mem _ ?_
      simp only [children_mk]
      exact mem_preForest_iff.mpr ⟨c, hc, hp⟩

theorem flattenLinks_sub :
    ∀ (cs : List HeadingNode) (pid : String) (c : HeadingNode), c ∈ cs →
      ∀ lk ∈ flattenLinks c, lk ∈ linksForest pid cs := by
  intro cs
  induction cs with
  | nil => simp
  | cons c0 rest ih =>
    intro pid c hc lk hlk
    rw [linksForest_cons]
    rcases List.mem_cons.mp hc with rfl | hc
    · exact List.mem_cons_of_mem _ (List.mem_append_left _ hlk)
    · exact List.mem_cons_of_mem _
        (List.mem_append_right _ (ih pid c hc lk hlk))

theorem flatten_reachable :
    ∀ n : HeadingNode, ∀ m ∈ preorder n,
      Relation.ReflTransGen (fun a b => (a, b) ∈ flattenLinks n) n.id m.id := by
  intro n
  induction n using headingInduction with
  | h i t l ln cs ih =>
    intro m hm
    rw [preorder_eq] at hm
    rcases List.mem_cons.mp hm with rfl | hm
    · exact Relation.ReflTransGen.refl
    · simp only [children_mk] at hm
      rcases mem_preForest_iff.mp hm with ⟨c, hc, hmc⟩
      have hstep : ((HeadingNode.mk i t l ln cs).id, c.id) ∈
          flattenLinks (.mk i t l ln cs) := by
        rw [flattenLinks_eq]
        simp only [children_mk, id_mk]
        obtain ⟨u, v, huv⟩ := List.append_of_mem hc
        rw [huv]
        clear huv hc hm hmc
        induction u with
        | nil => simp
        | cons a u ihu =>
          rw [List.cons_append, linksForest_cons]
          exact List.mem_cons_of_mem _ (List.mem_append_right _ ihu)
      have hrest := ih c hc m hmc
      have hmono : Relation.ReflTransGen
          (fun a b => (a, b) ∈ flattenLinks (.mk i t l ln cs)) c.id m.id := by
        apply Relation.ReflTransGen.mono ?_ hrest
        intro a b hab
        rw [flattenLinks_eq]
        simp only [children_mk, id_mk]
        exact flattenLinks_sub cs i c hc (a, b) hab
      exact Relation.ReflTransGen.head hstep hmono

/-- C8: flattening emits one node record per HeadingNode in depth-first
document order, and one link per parent-child edge (hence n-1 links for n
nodes); the links form a spanning tree of the emitted nodes: every node is
reachable from the root along links, and — when the node ids are pairwise
distinct, as they are for every parsed tree (C9) — every non-root node has
exactly one incoming link. -/
theorem C8_flatten_spanning_tree (t : HeadingNode) :
    (flattenGraph t).1 = preorder t ∧
    (flattenGraph t).2.length + 1 = (flattenGraph t).1.length ∧
    (∀ lk ∈ (flattenGraph t).2, ∃ p c, p ∈ preorder t ∧ c ∈ p.children ∧
      lk = (p.id, c.id)) ∧
    (∀ n ∈ (flattenGraph t).1,
      Relation.ReflTransGen (fun a b => (a, b) ∈ (flattenGraph t).2) t.id n.id) ∧
    (((preorder t).map HeadingNode.id).Nodup →
      ∀ n ∈ (flattenGraph t).1, n.id ≠ t.id →
        (flattenGraph t).2.countP (fun lk => lk.2 == n.id) = 1) := by
  refine ⟨rfl, flattenLinks_length t, flattenLinks_src t, flatten_reachable t, ?_⟩
  intro hnodup n hn hne
  show (flattenLinks t).countP (fun lk => lk.2 == n.id) = 1
  have hcount : (flattenLinks t).countP (fun lk => lk.2 == n.id) =
      ((flattenLinks t).map Prod.snd).countP (fun x => x == n.id) :=
    (List.countP_map (fun x => x == n.id) Prod.snd (flattenLinks t)).symm
  rw [hcount, flattenLinks_targets]
  have h2 : ((preForest t.children).map HeadingNode.id).countP (fun x => x == n.id)
      = ((preForest t.children).map HeadingNode.id).count n.id := rfl
  rw [h2]
  rw [preorder_map_id] at hnodup
  have htailnodup := (List.nodup_cons.mp hnodup).2
  apply List.count_eq_one_of_mem htailnodup
  have hn2 : n ∈ preorder t := hn
  have hmem : n ∈ preForest t.children := by
    rw [preorder_eq] at hn2
    rcases List.mem_cons.mp hn2 with rfl | hm
    · exact absurd rfl hne
    · exact hm
  exact List.mem_map_of_mem _ hmem

/-- Witness for C8 at the parsed tree of a concrete buffer (ids distinct by
computation). -/
theorem C8_witness :
    (flattenGraph (parseMarkdownHeadings "# A\n## B\n# C".data)).2.countP
      (fun lk => lk.2 == "heading-1") = 1 := by
  have h := (C8_flatten_spanning_tree
    (parseMarkdownHeadings "# A\n## B\n# C".data)).2.2.2.2
  apply h (by decide) (.mk "heading-1" "B".data 2 1 [])
  · show _ ∈ preorder (parseMarkdownHeadings "# A\n## B\n# C".data)
    have hpre : preorder (parseMarkdownHeadings "# A\n## B\n# C".data) =
        [parseMarkdownHeadings "# A\n## B\n# C".data,
         .mk "heading-0" "A".data 1 0 [.mk "heading-1" "B".data 2 1 []],
         .mk "heading-1" "B".data 2 1 [],
         .mk "heading-2" "C".data 1 2 []] := rfl
    rw [hpre]
    simp
  · decide

/-! ### Subtree blocks in the document order -/

theorem split_preForest_aux :
    ∀ cs : List HeadingNode,
      (∀ c ∈ cs, goodNode c = true → ∀ n ∈ preorder c,
        ∃ u v, preorder c = u ++ preorder n ++ v ∧
          (v = [] ∨ ∃ m v2, v = m :: v2 ∧ m.level ≤ n.level)) →
      ∀ lvl, goodForest lvl cs = true →
      ∀ n ∈ preForest cs,
        ∃ u v, preForest cs = u ++ preorder n ++ v ∧
          (v = [] ∨ ∃ m v2, v = m :: v2 ∧ m.level ≤ n.level) := by
  intro cs
  induction cs with
  | nil => intro _ lvl _ n hn; simp at hn
  | cons c rest ih =>
    intro hIH lvl hg n hn
    obtain ⟨hlvl, hgc, hhead, hgrest⟩ := goodForest_cons.mp hg
    rw [preForest_cons] at hn
    rcases List.mem_append.mp hn with hnc | hnr
    · obtain ⟨u2, v2, hsplit, hsucc⟩ := hIH c (by simp) hgc n hnc
      rcases hsucc with rfl | ⟨m, v3, rfl, hm⟩
      · rw [List.append_nil] at hsplit
        cases rest with
        | nil =>
          refine ⟨u2, [], ?_, Or.inl rfl⟩
          rw [preForest_cons, preForest_nil, hsplit, List.append_nil]
        | cons d rest2 =>
          refine ⟨u2, preForest (d :: rest2), ?_, ?_⟩
          · rw [preForest_cons, hsplit]
          · right
            rw [preForest_cons, preorder_eq d]
            refine ⟨d, preForest d.children ++ preForest rest2, by simp, ?_⟩
            have hdc : d.level ≤ c.level := hhead d rfl
            have hcn : c.level ≤ n.level := level_le_of_mem_preorder hgc hnc
            omega
      · refine ⟨u2, m :: (v3 ++ preForest rest), ?_, Or.inr ⟨m, _, rfl, hm⟩⟩
        rw [preForest_cons, hsplit]
        simp
    · obtain ⟨u2, v2, hsplit, hsucc⟩ :=
        ih (fun c0 hc0 => hIH c0 (List.mem_cons_of_mem _ hc0)) lvl hgrest n hnr
      refine ⟨preorder c ++ u2, v2, ?_, hsucc⟩
      rw [preForest_cons, hsplit]
      simp

/-- Every node of a good tree occupies a contiguous block of the document
order, and the element that follows its block, if any, has level ≤ its
own. -/
theorem split_preorder :
    ∀ t : HeadingNode, goodNode t = true → ∀ n ∈ preorder t,
      ∃ u v, preorder t = u ++ preorder n ++ v ∧
        (v = [] ∨ ∃ m v2, v = m :: v2 ∧ m.level ≤ n.level) := by
  intro t
  induction t using headingInduction with
  | h i tx l ln cs ih =>
    intro hg n hn
    rw [preorder_eq] at hn
    rcases List.mem_cons.mp hn with rfl | hn2
    · exact ⟨[], [], by simp, Or.inl rfl⟩
    · simp only [children_mk] at hn2
      have hgf : goodForest l cs = true := by
        rw [goodNode_eq] at hg
        simpa using hg
      obtain ⟨u, v, hsplit, hsucc⟩ := split_preForest_aux cs
        (fun c hc hgc n0 hn0 => ih c hc hgc n0 hn0) l hgf n hn2
      refine ⟨HeadingNode.mk i tx l ln cs :: u, v, ?_, hsucc⟩
      rw [preorder_eq]
      simp only [children_mk]
      rw [hsplit]
      simp

theorem children_sublist_preForest :
    ∀ cs : List HeadingNode, cs.Sublist (preForest cs) := by
  intro cs
  induction cs with
  | nil => simp
  | cons c rest ih =>
    rw [preForest_cons, preorder_eq]
    exact List.Sublist.cons₂ c (List.sublist_append_of_sublist_right ih)

theorem einfo_fields {a b : HeadingNode} (h : einfo a = einfo b) :
    a.id = b.id ∧ a.text = b.text ∧ a.level = b.level ∧ a.line = b.line := by
  unfold einfo at h
  exact ⟨congrArg Prod.fst h, congrArg (fun q => q.2.1) h,
    congrArg (fun q => q.2.2.1) h, congrArg (fun q => q.2.2.2) h⟩

/-- Each non-root node of the parsed tree carries exactly the data of one
heading entry, and conversely. -/
theorem tail_entries_exists (ls : List Line) :
    (∀ nm ∈ (preorder (parseLines ls)).tail,
      ∃ en ∈ headingEntriesFrom 0 ls, einfo nm = einfo en) ∧
    (∀ en ∈ headingEntriesFrom 0 ls,
      ∃ nm ∈ (preorder (parseLines ls)).tail, einfo nm = einfo en) := by
  have h := parseLines_tail_infos ls
  constructor
  · intro nm hnm
    have : einfo nm ∈ (headingEntriesFrom 0 ls).map einfo := by
      rw [← h]
      exact List.mem_map_of_mem _ hnm
    rcases List.mem_map.mp this with ⟨en, hen, heq⟩
    exact ⟨en, hen, heq.symm⟩
  · intro en hen
    have : einfo en ∈ ((preorder (parseLines ls)).tail).map einfo := by
      rw [h]
      exact List.mem_map_of_mem _ hen
    rcases List.mem_map.mp this with ⟨nm, hnm, heq⟩
    exact ⟨nm, hnm, heq⟩

/-- The non-root nodes of the parsed tree appear in strictly increasing
line order. -/
theorem parseLines_tail_sorted (ls : List Line) :
    List.Pairwise (fun a b => a.line < b.line) (preorder (parseLines ls)).tail := by
  have h := parseLines_tail_infos ls
  have h2 := congrArg (List.map (fun q : Info => q.2.2.2)) h
  rw [List.map_map, List.map_map] at h2
  have hE := headingEntriesFrom_pairwise ls 0
  have hlines : List.Pairwise (fun a b : Nat => a < b)
      ((headingEntriesFrom 0 ls).map (fun e => e.line)) :=
    List.pairwise_map.mpr hE
  have hlines2 : List.Pairwise (fun a b : Nat => a < b)
      (((preorder (parseLines ls)).tail).map (fun n => n.line)) := by
    have hmapeq : ((preorder (parseLines ls)).tail).map (fun n => n.line) =
        (headingEntriesFrom 0 ls).map (fun e => e.line) := h2
    rw [hmapeq]
    exact hlines
  exact List.pairwise_map.mp hlines2

theorem parseLines_tail_line_lt_length (ls : List Line) :
    ∀ nm ∈ (preorder (parseLines ls)).tail, nm.line < ls.length := by
  intro nm hnm
  obtain ⟨en, hen, heq⟩ := (tail_entries_exists ls).1 nm hnm
  have := headingEntriesFrom_line_bounds ls 0 en hen
  have hline := (einfo_fields heq).2.2.2
  omega

/-! ### The subtree end boundary -/

@[simp] theorem scanIdx_nil (p : Line → Bool) (i : Nat) : scanIdx p i [] = none := rfl

theorem scanIdx_cons (p : Line → Bool) (i : Nat) (l : Line) (rest : List Line) :
    scanIdx p i (l :: rest) =
      if p l then some i else scanIdx p (i + 1) rest := rfl

theorem scanIdx_none_iff (p : Line → Bool) :
    ∀ (ls : List Line) (i : Nat),
      scanIdx p i ls = none ↔ ∀ l ∈ ls, p l = false := by
  intro ls
  induction ls with
  | nil => intro i; simp
  | cons l rest ih =>
    intro i
    rw [scanIdx_cons]
    by_cases hp : p l
    · rw [if_pos hp]
      simp [hp]
    · rw [if_neg hp]
      rw [ih (i + 1)]
      constructor
      · intro h l0 hl0
        rcases List.mem_cons.mp hl0 with rfl | hl0
        · simpa using hp
        · exact h l0 hl0
      · intro h l0 hl0
        exact h l0 (List.mem_cons_of_mem _ hl0)

theorem scanIdx_some_facts (p : Line → Bool) :
    ∀ (ls : List Line) (i j : Nat), scanIdx p i ls = some j →
      i ≤ j ∧ j - i < ls.length ∧
      (∃ l, ls[j - i]? = some l ∧ p l = true) ∧
      (∀ r, r < j - i → ∀ l, ls[r]? = some l → p l = false) := by
  intro ls
  induction ls with
  | nil => intro i j h; simp at h
  | cons l rest ih =>
    intro i j h
    rw [scanIdx_cons] at h
    by_cases hp : p l
    · rw [if_pos hp] at h
      have hij : i = j := Option.some.inj h
      subst hij
      refine ⟨le_refl _, by simp, ⟨l, by simp, hp⟩, ?_⟩
      intro r hr
      simp at hr
    · rw [if_neg hp] at h
      obtain ⟨h1, h2, ⟨l0, hl0, hpl0⟩, h4⟩ := ih (i + 1) j h
      refine ⟨by omega, by simp; omega, ⟨l0, ?_, hpl0⟩, ?_⟩
      · have harith : j - i = (j - (i + 1)) + 1 := by omega
        rw [harith]
        simpa using hl0
      · intro r hr l1 hl1
        cases r with
        | zero =>
          simp at hl1
          rw [← hl1]
          simpa using hp
        | succ r0 =>
          have hr0 : r0 < j - (i + 1) := by omega
          exact h4 r0 hr0 l1 (by simpa using hl1)

theorem scanIdx_eq_some (p : Line → Bool) :
    ∀ (ls : List Line) (i r : Nat) (l : Line), r < ls.length →
      ls[r]? = some l → p l = true →
      (∀ r2, r2 < r → ∀ l2, ls[r2]? = some l2 → p l2 = false) →
      scanIdx p i ls = some (i + r) := by
  intro ls
  induction ls with
  | nil => intro i r l hr; simp at hr
  | cons l0 rest ih =>
    intro i r l hr hl hp hno
    rw [scanIdx_cons]
    cases r with
    | zero =>
      simp at hl
      rw [if_pos (by rw [hl]; exact hp)]
      simp
    | succ r0 =>
      have hp0 : p l0 = false := hno 0 (by omega) l0 (by simp)
      rw [if_neg (by simp [hp0])]
      have := ih (i + 1) r0 l (by simp at hr; omega) (by simpa using hl) hp
        (fun r2 hr2 l2 hl2 => hno (r2 + 1) (by omega) l2 (by simpa using hl2))
      rw [this]
      congr 1
      omega

theorem endStrict_none_eq (ls : List Line) (s lvl : Nat)
    (h : scanIdx (strictLevelLe lvl) (s + 1) (ls.drop (s + 1)) = none) :
    endStrict ls s lvl = ls.length := by
  unfold endStrict
  rw [h]

theorem endStrict_some_eq (ls : List Line) (s lvl e : Nat)
    (h : scanIdx (strictLevelLe lvl) (s + 1) (ls.drop (s + 1)) = some e) :
    endStrict ls s lvl = e := by
  unfold endStrict
  rw [h]

theorem endStrict_le_length (ls : List Line) (s lvl : Nat) :
    endStrict ls s lvl ≤ ls.length := by
  cases h : scanIdx (strictLevelLe lvl) (s + 1) (ls.drop (s + 1)) with
  | none => rw [endStrict_none_eq ls s lvl h]
  | some j =>
    rw [endStrict_some_eq ls s lvl j h]
    obtain ⟨h1, h2, _, _⟩ := scanIdx_some_facts _ _ _ _ h
    rw [List.length_drop] at h2
    omega

theorem endStrict_gt (ls : List Line) (s lvl : Nat) (hs : s < ls.length) :
    s < endStrict ls s lvl := by
  cases h : scanIdx (strictLevelLe lvl) (s + 1) (ls.drop (s + 1)) with
  | none => rw [endStrict_none_eq ls s lvl h]; exact hs
  | some j =>
    rw [endStrict_some_eq ls s lvl j h]
    obtain ⟨h1, _, _, _⟩ := scanIdx_some_facts _ _ _ _ h
    omega

theorem endStrict_no_boundary (ls : List Line) (s lvl : Nat) :
    ∀ j, s < j → j < endStrict ls s lvl → ∀ l, ls[j]? = some l →
      strictLevelLe lvl l = false := by
  intro j hj1 hj2 l hl
  cases h : scanIdx (strictLevelLe lvl) (s + 1) (ls.drop (s + 1)) with
  | none =>
    have hall := (scanIdx_none_iff _ _ _).mp h
    apply hall
    have : (ls.drop (s + 1))[j - (s + 1)]? = some l := by
      rw [List.getElem?_drop]
      have harith : s + 1 + (j - (s + 1)) = j := by omega
      rw [harith]
      exact hl
    exact List.getElem?_mem this
  | some e =>
    rw [endStrict_some_eq ls s lvl e h] at hj2
    obtain ⟨h1, h2, _, h4⟩ := scanIdx_some_facts _ _ _ _ h
    apply h4 (j - (s + 1)) (by omega) l
    rw [List.getElem?_drop]
    have harith : s + 1 + (j - (s + 1)) = j := by omega
    rw [harith]
    exact hl

theorem endStrict_boundary (ls : List Line) (s lvl : Nat)
    (h0 : endStrict ls s lvl < ls.length) :
    ∃ l, ls[endStrict ls s lvl]? = some l ∧ strictLevelLe lvl l = true := by
  cases h : scanIdx (strictLevelLe lvl) (s + 1) (ls.drop (s + 1)) with
  | none =>
    rw [endStrict_none_eq ls s lvl h] at h0
    omega
  | some e =>
    rw [endStrict_some_eq ls s lvl e h]
    obtain ⟨h1, h2, ⟨l, hl, hpl⟩, _⟩ := scanIdx_some_facts _ _ _ _ h
    refine ⟨l, ?_, hpl⟩
    rw [List.getElem?_drop] at hl
    have harith : s + 1 + (e - (s + 1)) = e := by omega
    rw [harith] at hl
    exact hl

theorem endStrict_eq_of_boundary (ls : List Line) (s lvl e : Nat) (l : Line)
    (h1 : s < e) (he : ls[e]? = some l) (hl : strictLevelLe lvl l = true)
    (hno : ∀ j, s < j → j < e → ∀ l2, ls[j]? = some l2 →
      strictLevelLe lvl l2 = false) :
    endStrict ls s lvl = e := by
  have helen : e < ls.length := by
    rcases List.getElem?_eq_some_iff.mp he with ⟨hlt, _⟩
    exact hlt
  have hscan : scanIdx (strictLevelLe lvl) (s + 1) (ls.drop (s + 1)) =
      some ((s + 1) + (e - (s + 1))) := by
    apply scanIdx_eq_some (strictLevelLe lvl) (ls.drop (s + 1)) (s + 1)
      (e - (s + 1)) l
    · rw [List.length_drop]
      omega
    · rw [List.getElem?_drop]
      have : s + 1 + (e - (s + 1)) = e := by omega
      rw [this]
      exact he
    · exact hl
    · intro r2 hr2 l2 hl2
      rw [List.getElem?_drop] at hl2
      exact hno (s + 1 + r2) (by omega) (by omega) l2 hl2
  rw [endStrict_some_eq ls s lvl _ hscan]
  omega

theorem endStrict_eq_length_of_none (ls : List Line) (s lvl : Nat)
    (hno : ∀ j, s < j → j < ls.length → ∀ l2, ls[j]? = some l2 →
      strictLevelLe lvl l2 = false) :
    endStrict ls s lvl = ls.length := by
  unfold endStrict
  have hscan : scanIdx (strictLevelLe lvl) (s + 1) (ls.drop (s + 1)) = none := by
    rw [scanIdx_none_iff]
    intro l hl
    rcases List.getElem?_of_mem hl with ⟨r, hr⟩
    rw [List.getElem?_drop] at hr
    have hrlen : s + 1 + r < ls.length := by
      rcases List.getElem?_eq_some_iff.mp hr with ⟨hlt, _⟩
      exact hlt
    exact hno (s + 1 + r) (by omega) hrlen l hr
  exact endStrict_none_eq ls s lvl hscan

/-! ### C4: parse invariants -/

theorem getElem?_of_drop_cons {α : Type} {ls : List α} {j : Nat} {l : α}
    (h : ls.drop j = l :: ls.drop (j + 1)) : ls[j]? = some l := by
  have h0 : (ls.drop j)[0]? = some l := by rw [h]; simp
  rw [List.getElem?_drop] at h0
  simpa using h0

/-- Each non-root node of a parsed tree carries the data of a recognized
heading line located at its own line index. -/
theorem tail_node_line (ls : List Line) :
    ∀ nm ∈ (preorder (parseLines ls)).tail,
      ∃ l, ls[nm.line]? = some l ∧ lineHeading l = some (nm.level, nm.text) ∧
        nm.id = headingId nm.line := by
  intro nm hnm
  obtain ⟨en, hen, heq⟩ := (tail_entries_exists ls).1 nm hnm
  obtain ⟨hid, htx, hlv, hln⟩ := einfo_fields heq
  obtain ⟨j, l, hdrop, hj, hlh, hen_eq⟩ := mem_headingEntriesFrom ls 0 en hen
  have hjl : en.line = j := by rw [hen_eq]; simp
  refine ⟨l, ?_, ?_, ?_⟩
  · rw [hln, hjl]
    exact getElem?_of_drop_cons hdrop
  · rw [hlv, htx]
    exact hlh
  · rw [hid, hln]
    exact entries_id_line ls 0 en hen

theorem strictLevelLe_true {lvl : Nat} {l : Line}
    (h : strictLevelLe lvl l = true) :
    ∃ k t, lineHeading l = some (k, t) ∧ k ≤ lvl := by
  unfold strictLevelLe at h
  cases hlh : lineHeading l with
  | none => rw [hlh] at h; simp at h
  | some kt =>
    obtain ⟨k, t⟩ := kt
    rw [hlh] at h
    simp at h
    exact ⟨k, t, rfl, h⟩

theorem strictLevelLe_of (lvl : Nat) {l : Line} {k : Nat} {t : List Char}
    (h : lineHeading l = some (k, t)) (hk : k ≤ lvl) :
    strictLevelLe lvl l = true := by
  unfold strictLevelLe
  rw [h]
  simpa using hk

/-- A non-root member of the parsed preorder is a member of its tail. -/
theorem nonroot_mem_tail (ls : List Line) :
    ∀ n ∈ preorder (parseLines ls), n.id ≠ "root" →
      n ∈ (preorder (parseLines ls)).tail := by
  intro n hn hroot
  rw [preorder_eq] at hn
  rcases List.mem_cons.mp hn with rfl | hn2
  · exact absurd (parseLines_id _) hroot
  · rw [preorder_tail]
    exact hn2

/-- A non-root node of the parsed tree splits the tail of the preorder into
the part before it, its own subtree block, and the part after it; the part
after it, when non-empty, starts with a node of level ≤ its own. -/
theorem tail_split (ls : List Line) :
    ∀ n ∈ preorder (parseLines ls), n.id ≠ "root" →
      ∃ u2 v, (preorder (parseLines ls)).tail = u2 ++ preorder n ++ v ∧
        (v = [] ∨ ∃ m v2, v = m :: v2 ∧ m.level ≤ n.level) := by
  intro n hn hroot
  obtain ⟨u, v, hsp, hsucc⟩ := split_preorder _ (parseLines_good ls) n hn
  cases u with
  | nil =>
    exfalso
    rw [List.nil_append] at hsp
    rw [preorder_eq (parseLines ls), preorder_eq n, List.cons_append] at hsp
    have hhead : parseLines ls = n := (List.cons.injEq _ _ _ _ ▸ hsp).1
    apply hroot
    rw [← hhead]
    exact parseLines_id _
  | cons x u2 =>
    refine ⟨u2, v, ?_, hsucc⟩
    have h2 := congrArg List.tail hsp
    rw [preorder_eq (parseLines ls)] at h2
    simpa [preorder_tail] using h2

/-- Containment: the descendants of a non-root node `n` of the parsed tree
are exactly the non-root nodes whose lines lie in
`[n.line, endStrict ls n.line n.level)`. -/
theorem parseLines_containment (ls : List Line) :
    ∀ n ∈ preorder (parseLines ls), n.id ≠ "root" →
      (∀ d ∈ preorder n, n.line ≤ d.line ∧
        d.line < endStrict ls n.line n.level) ∧
      (∀ m ∈ preorder (parseLines ls), m.id ≠ "root" →
        n.line ≤ m.line → m.line < endStrict ls n.line n.level →
        m ∈ preorder n) := by
  intro n hn hroot
  obtain ⟨u2, v, hsp, hsucc⟩ := tail_split ls n hn hroot
  have hPW := parseLines_tail_sorted ls
  rw [hsp, List.pairwise_append] at hPW
  obtain ⟨hPul, hPv, hRlv⟩ := hPW
  rw [List.pairwise_append] at hPul
  obtain ⟨hPu, hPmid, hRu⟩ := hPul
  have hRmv : ∀ a ∈ preorder n, ∀ b ∈ v, a.line < b.line :=
    fun a ha b hb => hRlv a (List.mem_append.mpr (Or.inr ha)) b hb
  -- lines of descendants are ≥ n.line
  have hge : ∀ d ∈ preorder n, n.line ≤ d.line := by
    intro d hd
    rw [preorder_eq n] at hd hPmid
    rcases List.mem_cons.mp hd with rfl | hd2
    · exact Nat.le_refl _
    · exact Nat.le_of_lt ((List.pairwise_cons.mp hPmid).1 d hd2)
  -- membership of subtree nodes in the full tail
  have hsubtail : ∀ d ∈ preorder n, d ∈ (preorder (parseLines ls)).tail := by
    intro d hd
    rw [hsp]
    exact List.mem_append.mpr (Or.inl (List.mem_append.mpr (Or.inr hd)))
  have hnlen : n.line < ls.length :=
    parseLines_tail_line_lt_length ls n (hsubtail n (self_mem_preorder n))
  -- no strict boundary line strictly between n.line and the end of the block
  have hinside : ∀ j, n.line < j → (∀ b ∈ v, j < b.line) → j < ls.length →
      ∀ l2, ls[j]? = some l2 → strictLevelLe n.level l2 = false := by
    intro j hj1 hjv hjlen l2 hl2
    cases hb : strictLevelLe n.level l2 with
    | false => rfl
    | true =>
      exfalso
      obtain ⟨k, t, hlh, hk⟩ := strictLevelLe_true hb
      obtain ⟨hjlt, hjget⟩ := List.getElem?_eq_some_iff.mp hl2
      have hdrop : ls.drop j = l2 :: ls.drop (j + 1) := by
        rw [List.drop_eq_getElem_cons hjlt, hjget]
      have hmem := headingEntriesFrom_complete ls 0 j l2 k t hdrop hjlen hlh
      simp only [Nat.zero_add] at hmem
      obtain ⟨nm, hnm, heinfo⟩ := (tail_entries_exists ls).2 _ hmem
      obtain ⟨hid, htx, hlv, hln⟩ := einfo_fields heinfo
      simp only [line_mk] at hln
      simp only [level_mk] at hlv
      rw [hsp] at hnm
      rcases List.mem_append.mp hnm with hml | hinv
      · rcases List.mem_append.mp hml with hu | hmid
        · -- before the block: its line is below n.line
          have := hRu nm hu n (self_mem_preorder n)
          omega
        · -- inside the block: either n itself (wrong line) or a strict
          -- descendant (level too deep)
          rw [preorder_eq n] at hmid
          rcases List.mem_cons.mp hmid with rfl | hdesc
          · omega
          · have hgn := goodNode_of_mem_preorder _ (parseLines_good ls) n hn
            have := level_lt_of_mem_preForest n hgn nm hdesc
            omega
      · -- after the block: its line is at or beyond the head of v
        rcases hsucc with rfl | ⟨m, v2, rfl, hmlev⟩
        · simp at hinv
        · rcases List.mem_cons.mp hinv with rfl | hv2
          · have := hjv nm (List.mem_cons_self _ _)
            omega
          · have h1 := hjv m (List.mem_cons_self _ _)
            have h2 := (List.pairwise_cons.mp hPv).1 nm hv2
            omega
  rcases hsucc with rfl | ⟨m, v2, rfl, hmlev⟩
  · -- no successor: the block extends to the end of the buffer
    have hE : endStrict ls n.line n.level = ls.length := by
      apply endStrict_eq_length_of_none
      intro j hj1 hj2 l2 hl2
      exact hinside j hj1 (fun b hb => absurd hb (List.not_mem_nil b)) hj2 l2 hl2
    constructor
    · intro d hd
      refine ⟨hge d hd, ?_⟩
      rw [hE]
      exact parseLines_tail_line_lt_length ls d (hsubtail d hd)
    · intro m hm hmroot hm1 hm2
      have hmt := nonroot_mem_tail ls m hm hmroot
      rw [hsp] at hmt
      rcases List.mem_append.mp hmt with hml | hinv
      · rcases List.mem_append.mp hml with hu | hmid
        · have := hRu m hu n (self_mem_preorder n)
          omega
        · exact hmid
      · simp at hinv
  · -- successor m: the block ends exactly at m.line
    have hmtail : m ∈ (preorder (parseLines ls)).tail := by
      rw [hsp]
      exact List.mem_append.mpr (Or.inr (List.mem_cons_self _ _))
    obtain ⟨lm, hlm_get, hlm_lh, _⟩ := tail_node_line ls m hmtail
    have hnm_lt : n.line < m.line :=
      hRmv n (self_mem_preorder n) m (List.mem_cons_self _ _)
    have hmlen : m.line < ls.length := parseLines_tail_line_lt_length ls m hmtail
    have hE : endStrict ls n.line n.level = m.line := by
      apply endStrict_eq_of_boundary ls n.line n.level m.line lm hnm_lt hlm_get
        (strictLevelLe_of n.level hlm_lh hmlev)
      intro j hj1 hj2 l2 hl2
      apply hinside j hj1 ?_ (by omega) l2 hl2
      intro b hb
      rcases List.mem_cons.mp hb with rfl | hb2
      · exact hj2
      · have := (List.pairwise_cons.mp hPv).1 b hb2
        omega
    constructor
    · intro d hd
      refine ⟨hge d hd, ?_⟩
      rw [hE]
      exact hRmv d hd m (List.mem_cons_self _ _)
    · intro q hq hqroot hq1 hq2
      rw [hE] at hq2
      have hqt := nonroot_mem_tail ls q hq hqroot
      rw [hsp] at hqt
      rcases List.mem_append.mp hqt with hql | hqv
      · rcases List.mem_append.mp hql with hu | hqmid
        · have := hRu q hu n (self_mem_preorder n)
          omega
        · exact hqmid
      · rcases List.mem_cons.mp hqv with rfl | hqv2
        · omega
        · have := (List.pairwise_cons.mp hPv).1 q hqv2
          omega

/-- The children list of any node of the parsed tree is a sublist of the
tail of the preorder. -/
theorem children_sublist_tail (ls : List Line) :
    ∀ n ∈ preorder (parseLines ls),
      n.children.Sublist ((preorder (parseLines ls)).tail) := by
  intro n hn
  have hsub1 : n.children.Sublist (preForest n.children) :=
    children_sublist_preForest _
  by_cases hroot : n.id = "root"
  · have hnT : n = parseLines ls := by
      rw [preorder_eq] at hn
      rcases List.mem_cons.mp hn with rfl | hn2
      · rfl
      · exfalso
        have hmem : n ∈ (preorder (parseLines ls)).tail := by
          rw [preorder_tail]
          exact hn2
        obtain ⟨_, _, _, hid⟩ := tail_node_line ls n hmem
        rw [hid] at hroot
        exact headingId_ne_root n.line hroot
    rw [preorder_tail, ← hnT]
    exact hsub1
  · obtain ⟨u2, v, hsp, _⟩ := tail_split ls n hn hroot
    have hsub2 : (preForest n.children).Sublist (preorder n) := by
      rw [preorder_eq]
      exact List.sublist_cons_self _ _
    have hsub3 : (preorder n).Sublist ((u2 ++ preorder n) ++ v) :=
      (List.sublist_append_right u2 (preorder n)).trans
        (List.sublist_append_left _ v)
    rw [hsp]
    exact (hsub1.trans hsub2).trans hsub3

theorem C4_parse_invariants (md : List Char) :
    (parseMarkdownHeadings md).id = "root" ∧
    (parseMarkdownHeadings md).level = 0 ∧
    ((preorder (parseMarkdownHeadings md)).map HeadingNode.id).count "root"
      = 1 ∧
    (∀ n ∈ preorder (parseMarkdownHeadings md), n.id ≠ "root" →
      ∃ l, (splitNl md)[n.line]? = some l ∧
        lineHeading l = some (n.level, n.text)) ∧
    (∀ n ∈ preorder (parseMarkdownHeadings md), ∀ c ∈ n.children,
      n.level < c.level) ∧
    (∀ n ∈ preorder (parseMarkdownHeadings md),
      List.Chain' (fun a b => a.line < b.line) n.children) ∧
    (∀ n ∈ preorder (parseMarkdownHeadings md), n.id ≠ "root" →
      (∀ d ∈ preorder n, n.line ≤ d.line ∧
        d.line < endStrict (splitNl md) n.line n.level) ∧
      (∀ m ∈ preorder (parseMarkdownHeadings md), m.id ≠ "root" →
        n.line ≤ m.line → m.line < endStrict (splitNl md) n.line n.level →
        m ∈ preorder n)) := by
  unfold parseMarkdownHeadings
  refine ⟨parseLines_id _, parseLines_level _, ?_, ?_, ?_, ?_,
    parseLines_containment (splitNl md)⟩
  · apply List.count_eq_one_of_mem (parseLines_nodup_ids _)
    rw [parseLines_ids]
    exact List.mem_cons_self _ _
  · intro n hn hroot
    obtain ⟨l, h1, h2, _⟩ :=
      tail_node_line (splitNl md) n (nonroot_mem_tail (splitNl md) n hn hroot)
    exact ⟨l, h1, h2⟩
  · intro n hn c hc
    have hgn := goodNode_of_mem_preorder _ (parseLines_good _) n hn
    rw [goodNode_eq] at hgn
    exact (goodForest_mem hgn c hc).1
  · intro n hn
    have hsub := children_sublist_tail (splitNl md) n hn
    exact ((parseLines_tail_sorted (splitNl md)).sublist hsub).chain'

theorem C4_witness :
    (parseMarkdownHeadings ("# A\n## B".data)).id = "root" :=
  (C4_parse_invariants ("# A\n## B".data)).1

/-! ### C3: deletion removes a contiguous line range -/

theorem findBoundaryAux_eq_scanIdx (lvl : Nat) :
    ∀ (ls : List Line) (i : Nat),
      findBoundaryAux lvl i ls = scanIdx (looseLevelLe lvl) i ls := by
  intro ls
  induction ls with
  | nil => intro i; rfl
  | cons l rest ih =>
    intro i
    rw [scanIdx_cons]
    cases hk : looseLevel l with
    | none =>
      have hp : looseLevelLe lvl l = false := by unfold looseLevelLe; rw [hk]
      rw [hp]
      simp only [Bool.false_eq_true, if_false]
      rw [← ih (i + 1)]
      simp only [findBoundaryAux, hk]
    | some k =>
      have hp : looseLevelLe lvl l = decide (k ≤ lvl) := by
        unfold looseLevelLe; rw [hk]
      rw [hp]
      by_cases hkl : k ≤ lvl
      · rw [if_pos (by simpa using hkl)]
        simp only [findBoundaryAux, hk, if_pos hkl]
      · rw [if_neg (by simpa using hkl)]
        rw [← ih (i + 1)]
        simp only [findBoundaryAux, hk, if_neg hkl]

/-- C3 (amended): for every buffer and every nodeId resolving to a non-root
node, `deleteSubtree` removes exactly the contiguous line range
`[node.line, e)`: `e` is the first later line passing the LOOSE marker test
(1–6 markers followed by a whitespace character, regardless of what
follows) at level ≤ node.level — not the parser's heading test — or the
number of lines if no such line exists; all other lines are kept verbatim
and in order. -/
theorem C3_delete_line_range (md : List Char) (nid : String) (nd : HeadingNode)
    (hfind : findById (parseMarkdownHeadings md) nid = some nd)
    (hroot : nd.id ≠ "root") :
    ∃ e, nd.line < e ∧ e ≤ (splitNl md).length ∧
      (∀ j, nd.line < j → j < e → ∀ l, (splitNl md)[j]? = some l →
        looseLevelLe nd.level l = false) ∧
      (e < (splitNl md).length → ∃ l, (splitNl md)[e]? = some l ∧
        looseLevelLe nd.level l = true) ∧
      handleNodeDelete md nid =
        joinNl ((splitNl md).take nd.line ++ (splitNl md).drop e) := by
  unfold parseMarkdownHeadings at hfind
  have hmem := (findById_some _ _ _ hfind).2
  have htail : nd ∈ (preorder (parseLines (splitNl md))).tail :=
    nonroot_mem_tail _ nd hmem hroot
  have hlen : nd.line < (splitNl md).length :=
    parseLines_tail_line_lt_length _ nd htail
  have hcode : handleNodeDelete md nid =
      joinNl ((splitNl md).take nd.line ++ (splitNl md).drop
        (match findBoundaryAux nd.level (nd.line + 1)
            ((splitNl md).drop (nd.line + 1)) with
         | some e => e
         | none => (splitNl md).length)) := by
    simp only [handleNodeDelete, hfind]
    rw [if_neg hroot]
  cases hb : findBoundaryAux nd.level (nd.line + 1)
      ((splitNl md).drop (nd.line + 1)) with
  | none =>
    have hb2 := hb
    rw [findBoundaryAux_eq_scanIdx] at hb2
    refine ⟨(splitNl md).length, hlen, Nat.le_refl _, ?_, ?_, ?_⟩
    · intro j hj1 hj2 l hl
      have hall := (scanIdx_none_iff _ _ _).mp hb2
      apply hall
      have hidx : ((splitNl md).drop (nd.line + 1))[j - (nd.line + 1)]? =
          some l := by
        rw [List.getElem?_drop]
        have harith : nd.line + 1 + (j - (nd.line + 1)) = j := by omega
        rw [harith]
        exact hl
      exact List.getElem?_mem hidx
    · intro h
      omega
    · rw [hcode, hb]
  | some e0 =>
    have hb2 := hb
    rw [findBoundaryAux_eq_scanIdx] at hb2
    obtain ⟨h1, h2, ⟨l, hldx, hlp⟩, h4⟩ := scanIdx_some_facts _ _ _ _ hb2
    rw [List.length_drop] at h2
    refine ⟨e0, by omega, by omega, ?_, ?_, ?_⟩
    · intro j hj1 hj2 l2 hl2
      apply h4 (j - (nd.line + 1)) (by omega) l2
      rw [List.getElem?_drop]
      have harith : nd.line + 1 + (j - (nd.line + 1)) = j := by omega
      rw [harith]
      exact hl2
    · intro _
      refine ⟨l, ?_, hlp⟩
      rw [List.getElem?_drop] at hldx
      have harith : nd.line + 1 + (e0 - (nd.line + 1)) = e0 := by omega
      rw [harith] at hldx
      exact hldx
    · rw [hcode, hb]

theorem C3_witness :
    ∃ nd, findById (parseMarkdownHeadings ("# A\n## B\n## C\n# D".data))
        (headingId 0) = some nd ∧
      nd.id ≠ "root" ∧
      (∃ e, nd.line < e ∧ e ≤ (splitNl ("# A\n## B\n## C\n# D".data)).length ∧
        (∀ j, nd.line < j → j < e →
          ∀ l, (splitNl ("# A\n## B\n## C\n# D".data))[j]? = some l →
            looseLevelLe nd.level l = false) ∧
        (e < (splitNl ("# A\n## B\n## C\n# D".data)).length →
          ∃ l, (splitNl ("# A\n## B\n## C\n# D".data))[e]? = some l ∧
            looseLevelLe nd.level l = true) ∧
        handleNodeDelete ("# A\n## B\n## C\n# D".data) (headingId 0) =
          joinNl ((splitNl ("# A\n## B\n## C\n# D".data)).take nd.line ++
            (splitNl ("# A\n## B\n## C\n# D".data)).drop e)) ∧
      handleNodeDelete ("# A\n## B\n## C\n# D".data) (headingId 0) =
        "# D".data := by
  refine ⟨_, rfl, by decide, C3_delete_line_range _ _ _ rfl (by decide),
    by decide⟩

theorem C3_counterexample :
    ∃ nd, findById (parseMarkdownHeadings ("# A\n# \n## B".data))
        (headingId 0) = some nd ∧
      nd.id ≠ "root" ∧
      handleNodeDelete ("# A\n# \n## B".data) (headingId 0) ≠
        joinNl ((splitNl ("# A\n# \n## B".data)).take nd.line ++
          (splitNl ("# A\n# \n## B".data)).drop
            (endStrict (splitNl ("# A\n# \n## B".data)) nd.line nd.level)) := by
  refine ⟨_, rfl, by decide, by decide⟩

/-! ### C2: insertion placement and separator hygiene -/

theorem looseLevelLe_true {lvl : Nat} {l : Line}
    (h : looseLevelLe lvl l = true) :
    ∃ k, looseLevel l = some k ∧ k ≤ lvl := by
  unfold looseLevelLe at h
  cases hk : looseLevel l with
  | none => rw [hk] at h; simp at h
  | some k =>
    rw [hk] at h
    simp at h
    exact ⟨k, rfl, h⟩

theorem take_after_join (md A B : List Char) (h : md = A ++ '\n' :: B) :
    md.take (A.length + 1) = A ++ ['\n'] := by
  subst h
  rw [show A ++ '\n' :: B = (A ++ ['\n']) ++ B by simp]
  exact List.take_left' (by simp)

theorem drop_after_join (md A B : List Char) (h : md = A ++ '\n' :: B) :
    md.drop (A.length + 1) = B := by
  subst h
  rw [show A ++ '\n' :: B = (A ++ ['\n']) ++ B by simp]
  exact List.drop_left' (by simp)

theorem joinNl_split (L : List Line) (b : Nat) (hb1 : 0 < b)
    (hb2 : b < L.length) :
    joinNl L = joinNl (L.take b) ++ '\n' :: joinNl (L.drop b) := by
  have ht : L.take b ≠ [] := by
    intro h
    have h2 := congrArg List.length h
    rw [List.length_take] at h2
    simp only [List.length_nil] at h2
    omega
  have hd : L.drop b ≠ [] := by
    intro h
    have h2 := congrArg List.length h
    rw [List.length_drop] at h2
    simp at h2
    omega
  conv_lhs => rw [← List.take_append_drop b L]
  exact joinNl_append _ _ ht hd

theorem joinNl_head (l : Line) (ls : List Line) (hne : l ≠ []) :
    (joinNl (l :: ls)).head? = l.head? := by
  cases l with
  | nil => exact absurd rfl hne
  | cons c cs =>
    cases ls with
    | nil => rfl
    | cons a as =>
      rw [joinNl_cons_ne _ _ (by simp)]
      rfl

/-- The buffer handed back by `handleNodeAdd` when the line is appended at
the end (root parent, or no loose boundary after the parent's line). -/
theorem handleNodeAdd_append_eq (md : List Char) (pid : String)
    (txt : List Char) (p : HeadingNode)
    (hfind : findById (parseLines (splitNl md)) pid = some p)
    (hcase : pid = "root" ∨ (pid ≠ "root" ∧
      findBoundaryAux p.level (p.line + 1)
        ((splitNl md).drop (p.line + 1)) = none)) :
    handleNodeAdd md pid txt =
      md ++ (if md.getLast? = some '\n' then [] else ['\n']) ++
        List.replicate (min (p.level + 1) 6) '#' ++ ' ' :: txt ++ ['\n'] := by
  rcases hcase with hpid | ⟨hpid, hb⟩
  · subst hpid
    simp only [handleNodeAdd, hfind]
    simp [List.take_length, List.drop_length, List.append_assoc]
  · simp only [handleNodeAdd, hfind]
    rw [if_neg hpid]
    simp only [hb]
    simp [List.take_length, List.drop_length, List.append_assoc]

/-- The lines of the buffer handed back by `handleNodeAdd` when a loose
boundary line exists: the new line lands as a whole line right before the
boundary line. -/
theorem handleNodeAdd_boundary_eq (md : List Char) (pid : String)
    (txt : List Char) (p : HeadingNode) (b : Nat)
    (hfind : findById (parseLines (splitNl md)) pid = some p)
    (htxt : '\n' ∉ txt) (hpid : pid ≠ "root")
    (hb : findBoundaryAux p.level (p.line + 1)
      ((splitNl md).drop (p.line + 1)) = some b) :
    splitNl (handleNodeAdd md pid txt) =
      (splitNl md).take b ++
        (List.replicate (min (p.level + 1) 6) '#' ++ ' ' :: txt) ::
        (splitNl md).drop b := by
  have hb2 := hb
  rw [findBoundaryAux_eq_scanIdx] at hb2
  obtain ⟨h1, h2, ⟨l, hldx, hlp⟩, h4⟩ := scanIdx_some_facts _ _ _ _ hb2
  rw [List.length_drop] at h2
  have hops : (splitNl md)[b]? = some l := by
    rw [List.getElem?_drop] at hldx
    have harith : p.line + 1 + (b - (p.line + 1)) = b := by omega
    rw [harith] at hldx
    exact hldx
  have hlb_head : l.head? = some '#' := by
    obtain ⟨k, hk_some, _⟩ := looseLevelLe_true hlp
    exact (looseLevel_some_facts hk_some).2.2.choose_spec.choose_spec.2.2
  have hlne : l ≠ [] := by
    intro h
    rw [h] at hlb_head
    simp at hlb_head
  have hsplit_md : md = joinNl ((splitNl md).take b) ++
      '\n' :: joinNl ((splitNl md).drop b) := by
    conv_lhs => rw [← joinNl_splitNl md]
    exact joinNl_split (splitNl md) b (by omega) (by omega)
  have he1 := take_after_join md _ _ hsplit_md
  have he2 := drop_after_join md _ _ hsplit_md
  have hdropb : (splitNl md).drop b = l :: (splitNl md).drop (b + 1) := by
    obtain ⟨hblt, hbg⟩ := List.getElem?_eq_some_iff.mp hops
    rw [List.drop_eq_getElem_cons hblt, hbg]
  have he4 : (joinNl ((splitNl md).drop b)).head? = some '#' := by
    rw [hdropb, joinNl_head _ _ hlne]
    exact hlb_head
  have hcode : handleNodeAdd md pid txt =
      md.take ((joinNl ((splitNl md).take b)).length + 1) ++
        ((if (md.take ((joinNl ((splitNl md).take b)).length + 1)).getLast?
            = some '\n' then [] else ['\n']) ++
          List.replicate (min (p.level + 1) 6) '#' ++ ' ' :: txt ++
          (if (md.drop ((joinNl ((splitNl md).take b)).length + 1)).head?
            = some '\n' then [] else ['\n'])) ++
        md.drop ((joinNl ((splitNl md).take b)).length + 1) := by
    simp only [handleNodeAdd, hfind]
    rw [if_neg hpid]
    simp only [hb]
  rw [hcode, he1, he2, List.getLast?_concat, he4]
  rw [if_pos rfl,
    if_neg (by decide : ¬ (some '#' : Option Char) = some '\n')]
  have hshape : (joinNl ((splitNl md).take b) ++ ['\n']) ++
      (([] : List Char) ++
        List.replicate (min (p.level + 1) 6) '#' ++ ' ' :: txt ++
        ['\n']) ++
      joinNl ((splitNl md).drop b) =
      joinNl ((splitNl md).take b) ++ '\n' ::
        ((List.replicate (min (p.level + 1) 6) '#' ++ ' ' :: txt) ++
          '\n' :: joinNl ((splitNl md).drop b)) := by
    simp
  rw [hshape, splitNl_append_nl, splitNl_append_nl]
  have hto : splitNl (List.replicate (min (p.level + 1) 6) '#' ++
      ' ' :: txt) =
      [List.replicate (min (p.level + 1) 6) '#' ++ ' ' :: txt] := by
    apply splitNl_no_nl
    intro h
    rcases List.mem_append.mp h with h1 | h2
    · have := List.eq_of_mem_replicate h1
      exact absurd this (by decide)
    · rcases List.mem_cons.mp h2 with h3 | h4
      · exact absurd h3 (by decide)
      · exact htxt h4
  have htake : splitNl (joinNl ((splitNl md).take b)) =
      (splitNl md).take b := by
    apply splitNl_joinNl
    · intro h
      have h2 := congrArg List.length h
      rw [List.length_take] at h2
      have := splitNl_length_pos md
      simp only [List.length_nil] at h2
      omega
    · intro l2 hl2
      exact nl_not_mem_splitNl md l2 (List.mem_of_mem_take hl2)
  have hdrop2 : splitNl (joinNl ((splitNl md).drop b)) =
      (splitNl md).drop b := by
    apply splitNl_joinNl
    · intro h
      have h2 := congrArg List.length h
      rw [List.length_drop] at h2
      simp at h2
      omega
    · intro l2 hl2
      exact nl_not_mem_splitNl md l2 (List.mem_of_mem_drop hl2)
  rw [hto, htake, hdrop2]
  simp

/-- C2 (amended): with a resolved parent, the new heading line (markers,
one space, the text) is placed as follows.  If the parent is the root, or
no later line passes the LOOSE marker test at level ≤ parent.level, the
line is appended at the end of the buffer, preceded by a line separator
only when the buffer does not already end with one (an existing trailing
separator is kept, so a blank line can end up before the inserted line)
and always followed by one separator.  Otherwise the line is inserted as a
whole line immediately before the first such loose-boundary line — which
need not be a heading the parser recognizes — with exactly one separator
on each side. -/
theorem C2_insert_placement (md : List Char) (pid : String) (txt : List Char)
    (p : HeadingNode)
    (hfind : findById (parseMarkdownHeadings md) pid = some p)
    (htxt : '\n' ∉ txt) :
    (pid = "root" →
      handleNodeAdd md pid txt =
        md ++ (if md.getLast? = some '\n' then [] else ['\n']) ++
          List.replicate (min (p.level + 1) 6) '#' ++ ' ' :: txt ++ ['\n']) ∧
    (pid ≠ "root" →
      (∃ b, p.line < b ∧ b < (splitNl md).length ∧
        (∀ j, p.line < j → j < b → ∀ l, (splitNl md)[j]? = some l →
          looseLevelLe p.level l = false) ∧
        (∃ l, (splitNl md)[b]? = some l ∧ looseLevelLe p.level l = true) ∧
        splitNl (handleNodeAdd md pid txt) =
          (splitNl md).take b ++
            (List.replicate (min (p.level + 1) 6) '#' ++ ' ' :: txt) ::
            (splitNl md).drop b) ∨
      ((∀ j, p.line < j → ∀ l, (splitNl md)[j]? = some l →
          looseLevelLe p.level l = false) ∧
        handleNodeAdd md pid txt =
          md ++ (if md.getLast? = some '\n' then [] else ['\n']) ++
            List.replicate (min (p.level + 1) 6) '#' ++ ' ' :: txt ++ ['\n'])) := by
  unfold parseMarkdownHeadings at hfind
  constructor
  · intro hpid
    exact handleNodeAdd_append_eq md pid txt p hfind (Or.inl hpid)
  · intro hpid
    cases hb : findBoundaryAux p.level (p.line + 1)
        ((splitNl md).drop (p.line + 1)) with
    | none =>
      right
      have hb2 := hb
      rw [findBoundaryAux_eq_scanIdx] at hb2
      refine ⟨?_, handleNodeAdd_append_eq md pid txt p hfind
        (Or.inr ⟨hpid, hb⟩)⟩
      intro j hj1 l hl
      have hall := (scanIdx_none_iff _ _ _).mp hb2
      apply hall
      have hidx : ((splitNl md).drop (p.line + 1))[j - (p.line + 1)]? =
          some l := by
        rw [List.getElem?_drop]
        have harith : p.line + 1 + (j - (p.line + 1)) = j := by omega
        rw [harith]
        exact hl
      exact List.getElem?_mem hidx
    | some b =>
      left
      have hb2 := hb
      rw [findBoundaryAux_eq_scanIdx] at hb2
      obtain ⟨h1, h2, ⟨l, hldx, hlp⟩, h4⟩ := scanIdx_some_facts _ _ _ _ hb2
      rw [List.length_drop] at h2
      have hops : (splitNl md)[b]? = some l := by
        rw [List.getElem?_drop] at hldx
        have harith : p.line + 1 + (b - (p.line + 1)) = b := by omega
        rw [harith] at hldx
        exact hldx
      refine ⟨b, by omega, by omega, ?_, ⟨l, hops, hlp⟩,
        handleNodeAdd_boundary_eq md pid txt p b hfind htxt hpid hb⟩
      intro j hj1 hj2 l2 hl2
      apply h4 (j - (p.line + 1)) (by omega) l2
      rw [List.getElem?_drop]
      have harith : p.line + 1 + (j - (p.line + 1)) = j := by omega
      rw [harith]
      exact hl2

theorem C2_witness :
    ∃ p, findById (parseMarkdownHeadings ("# A\n## B\n## C\n# D".data))
        (headingId 0) = some p ∧ p.id ≠ "root" ∧
      (headingId 0 ≠ "root" →
        (∃ b, p.line < b ∧
          b < (splitNl ("# A\n## B\n## C\n# D".data)).length ∧
          (∀ j, p.line < j → j < b →
            ∀ l, (splitNl ("# A\n## B\n## C\n# D".data))[j]? = some l →
              looseLevelLe p.level l = false) ∧
          (∃ l, (splitNl ("# A\n## B\n## C\n# D".data))[b]? = some l ∧
            looseLevelLe p.level l = true) ∧
          splitNl (handleNodeAdd ("# A\n## B\n## C\n# D".data) (headingId 0)
              ("E".data)) =
            (splitNl ("# A\n## B\n## C\n# D".data)).take b ++
              (List.replicate (min (p.level + 1) 6) '#' ++ ' ' :: "E".data) ::
              (splitNl ("# A\n## B\n## C\n# D".data)).drop b) ∨
        ((∀ j, p.line < j →
            ∀ l, (splitNl ("# A\n## B\n## C\n# D".data))[j]? = some l →
              looseLevelLe p.level l = false) ∧
          handleNodeAdd ("# A\n## B\n## C\n# D".data) (headingId 0)
              ("E".data) =
            ("# A\n## B\n## C\n# D".data) ++
              (if ("# A\n## B\n## C\n# D".data).getLast? = some '\n' then []
                else ['\n']) ++
              List.replicate (min (p.level + 1) 6) '#' ++ ' ' :: "E".data ++
              ['\n'])) ∧
      handleNodeAdd ("# A\n## B\n## C\n# D".data) (headingId 0) ("E".data) =
        ("# A\n## B\n## C\n## E\n# D".data) ∧
      (∃ q, findById (parseMarkdownHeadings
          (handleNodeAdd ("# A\n## B\n## C\n# D".data) (headingId 0)
            ("E".data))) (headingId 0) = some q ∧
        q.children.map (fun c => c.text) = ["B".data, "C".data, "E".data] ∧
        q.children.map (fun c => c.level) = [2, 2, 2]) := by
  refine ⟨_, rfl, by decide, ?_, by decide, ⟨_, rfl, by decide, by decide⟩⟩
  have h := C2_insert_placement ("# A\n## B\n## C\n# D".data) (headingId 0)
    ("E".data) _ rfl (by decide)
  exact h.2

theorem C2_counterexample :
    (handleNodeAdd ("# A\n\n".data) "root" ("X".data) =
        ("# A\n\n# X\n".data) ∧
      splitNl (handleNodeAdd ("# A\n\n".data) "root" ("X".data)) =
        ["# A".data, [], "# X".data, []] ∧
      handleNodeAdd ("# A\n\n".data) "root" ("X".data) ≠
        ("# A\n# X\n".data)) ∧
    (∃ p, findById (parseMarkdownHeadings ("# A\n# \n## B".data))
        (headingId 0) = some p ∧ p.id ≠ "root" ∧
      splitNl (handleNodeAdd ("# A\n# \n## B".data) (headingId 0)
          ("X".data)) ≠
        (splitNl ("# A\n# \n## B".data)).take
            (endStrict (splitNl ("# A\n# \n## B".data)) p.line p.level) ++
          ("## X".data) ::
          (splitNl ("# A\n# \n## B".data)).drop
            (endStrict (splitNl ("# A\n# \n## B".data)) p.line p.level) ∧
      splitNl (handleNodeAdd ("# A\n# \n## B".data) (headingId 0)
          ("X".data)) ≠
        ((splitNl ("# A\n# \n## B".data)).take
            (endStrict (splitNl ("# A\n# \n## B".data)) p.line p.level) ++
          ("## X".data) ::
          (splitNl ("# A\n# \n## B".data)).drop
            (endStrict (splitNl ("# A\n# \n## B".data)) p.line p.level)) ++
          [[]]) := by
  exact ⟨⟨by decide, by decide, by decide⟩,
    ⟨_, rfl, by decide, by decide, by decide⟩⟩

/-! ### C1: helper layer -/

theorem findInForest_sound : ∀ (cs : List HeadingNode) (nid : String)
    (m : HeadingNode), findInForest cs nid = some m → m.id = nid := by
  intro cs
  induction cs with
  | nil => intro nid m h; simp at h
  | cons c rest ih =>
    intro nid m h
    rw [findInForest_cons] at h
    cases hc : findById c nid with
    | some r =>
      rw [hc] at h
      have hrm : r = m := Option.some.inj h
      subst hrm
      exact (findById_some c nid r hc).1
    | none =>
      rw [hc] at h
      exact ih nid m h

theorem findInForest_isSome : ∀ (cs : List HeadingNode) (nid : String)
    (c : HeadingNode), c ∈ cs → ∀ m0, findById c nid = some m0 →
    ∃ m, findInForest cs nid = some m := by
  intro cs
  induction cs with
  | nil => intro nid c hc; simp at hc
  | cons c0 rest ih =>
    intro nid c hc m0 hm0
    rw [findInForest_cons]
    cases hc0 : findById c0 nid with
    | some r => exact ⟨r, rfl⟩
    | none =>
      rcases List.mem_cons.mp hc with rfl | hc2
      · rw [hc0] at hm0
        simp at hm0
      · exact ih nid c hc2 m0 hm0

/-- Completeness of the depth-first lookup: a node of the tree is found by
its own id (by id-uniqueness of parsed trees, it is found exactly). -/
theorem findById_mem : ∀ (t : HeadingNode) (n : HeadingNode), n ∈ preorder t →
    ∃ m, findById t n.id = some m ∧ m.id = n.id := by
  intro t
  induction t using headingInduction with
  | h i tx l ln cs ih =>
    intro n hn
    rw [findById_eq]
    by_cases hid : i = n.id
    · rw [if_pos hid]
      exact ⟨_, rfl, by simpa using hid⟩
    · rw [if_neg hid]
      rw [preorder_eq] at hn
      rcases List.mem_cons.mp hn with rfl | hn2
      · exfalso
        apply hid
        simp
      · simp only [children_mk] at hn2
        obtain ⟨c, hc, hnc⟩ := mem_preForest_iff.mp hn2
        obtain ⟨m0, hm0, _⟩ := ih c hc n hnc
        obtain ⟨m, hm⟩ := findInForest_isSome cs n.id c hc m0 hm0
        exact ⟨m, hm, findInForest_sound cs n.id m hm⟩

theorem preorder_id_inj (ls : List Line) {a b : HeadingNode}
    (ha : a ∈ preorder (parseLines ls)) (hb : b ∈ preorder (parseLines ls))
    (heq : a.id = b.id) : a = b :=
  List.inj_on_of_nodup_map (parseLines_nodup_ids ls) ha hb heq

theorem eq_of_pairwise_line :
    ∀ (l : List HeadingNode), List.Pairwise (fun a b => a.line < b.line) l →
      ∀ a ∈ l, ∀ b ∈ l, a.line = b.line → a = b := by
  intro l
  induction l with
  | nil => intro _ a ha; simp at ha
  | cons x rest ih =>
    intro hpw a ha b hb heq
    obtain ⟨hx, hrest⟩ := List.pairwise_cons.mp hpw
    rcases List.mem_cons.mp ha with rfl | ha2
    · rcases List.mem_cons.mp hb with rfl | hb2
      · rfl
      · exact absurd heq (by have := hx b hb2; omega)
    · rcases List.mem_cons.mp hb with rfl | hb2
      · exact absurd heq (by have := hx a ha2; omega)
      · exact ih hrest a ha2 b hb2 heq

theorem getLast_of_max :
    ∀ (l : List HeadingNode), List.Pairwise (fun a b => a.line < b.line) l →
      ∀ w ∈ l, (∀ c ∈ l, c.line ≤ w.line) → l.getLast? = some w := by
  intro l
  induction l with
  | nil => intro _ w hw; simp at hw
  | cons x rest ih =>
    intro hpw w hw hmax
    cases rest with
    | nil =>
      rcases List.mem_cons.mp hw with rfl | h2
      · rfl
      · simp at h2
    | cons y ys =>
      rw [List.getLast?_cons_cons]
      obtain ⟨hx, hrest⟩ := List.pairwise_cons.mp hpw
      rcases List.mem_cons.mp hw with rfl | hw2
      · exfalso
        have h1 := hx y (List.mem_cons_self _ _)
        have h2 := hmax y (List.mem_cons_of_mem _ (List.mem_cons_self _ _))
        omega
      · exact ih hrest w hw2 (fun c hc => hmax c (List.mem_cons_of_mem _ hc))

theorem mem_preorder_trans :
    ∀ (t : HeadingNode) (n : HeadingNode), n ∈ preorder t →
      ∀ d ∈ preorder n, d ∈ preorder t := by
  intro t
  induction t using headingInduction with
  | h i tx l ln cs ih =>
    intro n hn d hd
    rw [preorder_eq] at hn
    rcases List.mem_cons.mp hn with rfl | hn2
    · exact hd
    · simp only [children_mk] at hn2
      obtain ⟨c, hc, hnc⟩ := mem_preForest_iff.mp hn2
      have hdc := ih c hc n hnc d hd
      rw [preorder_eq]
      simp only [children_mk]
      exact List.mem_cons_of_mem _ (mem_preForest_iff.mpr ⟨c, hc, hdc⟩)

theorem strict_false_of_loose_false {lvl : Nat} {l : Line}
    (h : looseLevelLe lvl l = false) : strictLevelLe lvl l = false := by
  cases hs : strictLevelLe lvl l with
  | false => rfl
  | true =>
    exfalso
    obtain ⟨k, t, hlh, hk⟩ := strictLevelLe_true hs
    have hll : looseLevel l = some k := looseLevel_of_lineHeading hlh
    unfold looseLevelLe at h
    rw [hll] at h
    simp at h
    omega

theorem strictLevelLe_eq_of_lineHeading {l : Line} {k : Nat} {t : List Char}
    (h : lineHeading l = some (k, t)) (lvl : Nat) :
    strictLevelLe lvl l = decide (k ≤ lvl) := by
  unfold strictLevelLe
  rw [h]

theorem strictLevelLe_nil (lvl : Nat) : strictLevelLe lvl [] = false := rfl

theorem headingEntriesFrom_length :
    ∀ (ls : List Line) (i j : Nat),
      (headingEntriesFrom i ls).length = (headingEntriesFrom j ls).length := by
  intro ls
  induction ls with
  | nil => intro i j; rfl
  | cons l rest ih =>
    intro i j
    cases hlh : lineHeading l with
    | none =>
      rw [headingEntriesFrom_cons_none _ _ _ hlh,
        headingEntriesFrom_cons_none _ _ _ hlh]
      exact ih (i + 1) (j + 1)
    | some kt =>
      obtain ⟨k, t⟩ := kt
      rw [headingEntriesFrom_cons_some _ _ _ _ _ hlh,
        headingEntriesFrom_cons_some _ _ _ _ _ hlh]
      simp only [List.length_cons]
      rw [ih (i + 1) (j + 1)]

theorem tail_length_eq (ls : List Line) :
    (preorder (parseLines ls)).tail.length =
      (headingEntriesFrom 0 ls).length := by
  have h := congrArg List.length (parseLines_tail_infos ls)
  simpa using h

theorem mem_of_tail {ls : List Line} {nm : HeadingNode}
    (h : nm ∈ (preorder (parseLines ls)).tail) :
    nm ∈ preorder (parseLines ls) := by
  rw [preorder_tail] at h
  rw [preorder_eq]
  exact List.mem_cons_of_mem _ h

/-- A recognized line yields a node of the parsed tree with exactly its
data. -/
theorem entry_node (ls : List Line) (j : Nat) (l : Line) (k : Nat)
    (t : List Char) (hj : ls[j]? = some l)
    (hlh : lineHeading l = some (k, t)) :
    ∃ nm ∈ (preorder (parseLines ls)).tail,
      nm.id = headingId j ∧ nm.text = t ∧ nm.level = k ∧ nm.line = j := by
  obtain ⟨hjlt, hjget⟩ := List.getElem?_eq_some_iff.mp hj
  have hdrop : ls.drop j = l :: ls.drop (j + 1) := by
    rw [List.drop_eq_getElem_cons hjlt, hjget]
  have hmem := headingEntriesFrom_complete ls 0 j l k t hdrop hjlt hlh
  simp only [Nat.zero_add] at hmem
  obtain ⟨nm, hnm, heinfo⟩ := (tail_entries_exists ls).2 _ hmem
  obtain ⟨hid, htx, hlv, hln⟩ := einfo_fields heinfo
  exact ⟨nm, hnm, by simpa using hid, by simpa using htx,
    by simpa using hlv, by simpa using hln⟩

theorem tail_level_bounds (ls : List Line) :
    ∀ nm ∈ (preorder (parseLines ls)).tail, 1 ≤ nm.level ∧ nm.level ≤ 6 := by
  intro nm hnm
  obtain ⟨en, hen, heq⟩ := (tail_entries_exists ls).1 nm hnm
  have hb := headingEntriesFrom_level_bounds ls 0 en hen
  have := (einfo_fields heq).2.2.1
  omega

theorem nl_not_mem_marker (k : Nat) (txt : List Char) (htxt : '\n' ∉ txt) :
    '\n' ∉ (List.replicate k '#' ++ ' ' :: txt) := by
  intro h
  rcases List.mem_append.mp h with h1 | h2
  · have := List.eq_of_mem_replicate h1
    exact absurd this (by decide)
  · rcases List.mem_cons.mp h2 with h3 | h4
    · exact absurd h3 (by decide)
    · exact htxt h4

theorem lineHeading_nil : lineHeading ([] : Line) = none := rfl

theorem preorder_length (t : HeadingNode) :
    (preorder t).length = (preorder t).tail.length + 1 := by
  rw [preorder_eq]
  simp

/-- Lines of the buffer produced by appending a heading line at the end:
a prefix of untouched lines, the new line, and a final empty line.  The
prefix carries exactly the heading entries of the original buffer. -/
theorem append_lines_shape (md : List Char) (k : Nat) (txt : List Char)
    (htxt : '\n' ∉ txt) :
    ∃ Lpre,
      splitNl (md ++ (if md.getLast? = some '\n' then [] else ['\n']) ++
          List.replicate k '#' ++ ' ' :: txt ++ ['\n']) =
        Lpre ++ [List.replicate k '#' ++ ' ' :: txt, []] ∧
      headingEntriesFrom 0 Lpre = headingEntriesFrom 0 (splitNl md) ∧
      (∀ j, j < Lpre.length → Lpre[j]? = (splitNl md)[j]?) ∧
      Lpre.length ≤ (splitNl md).length := by
  have hnl : '\n' ∉ (List.replicate k '#' ++ ' ' :: txt) :=
    nl_not_mem_marker k txt htxt
  by_cases hlast : md.getLast? = some '\n'
  · have hne : md ≠ [] := by
      intro h
      rw [h] at hlast
      simp at hlast
    have hmd : md.dropLast ++ ['\n'] = md := by
      have h2 := List.dropLast_append_getLast hne
      have h3 : md.getLast hne = '\n' := by
        have h4 := List.getLast?_eq_getLast md hne
        rw [hlast] at h4
        exact (Option.some.inj h4).symm
      rw [h3] at h2
      exact h2
    obtain ⟨md0, rfl⟩ : ∃ md0, md = md0 ++ ['\n'] := ⟨md.dropLast, hmd.symm⟩
    have hsplit : splitNl (md0 ++ ['\n']) = splitNl md0 ++ [[]] := by
      have hshape2 : md0 ++ ['\n'] = md0 ++ '\n' :: ([] : List Char) := rfl
      rw [hshape2, splitNl_append_nl]
      rfl
    have hnil : headingEntriesFrom (0 + (splitNl md0).length)
        ([[]] : List Line) = [] := by
      rw [headingEntriesFrom_cons_none _ _ _ lineHeading_nil]
      rfl
    refine ⟨splitNl md0, ?_, ?_, ?_, ?_⟩
    · rw [if_pos hlast]
      have hshape : (md0 ++ ['\n']) ++ ([] : List Char) ++
          List.replicate k '#' ++ ' ' :: txt ++ ['\n'] =
          md0 ++ '\n' :: ((List.replicate k '#' ++ ' ' :: txt) ++
            '\n' :: ([] : List Char)) := by
        simp
      rw [hshape, splitNl_append_nl, splitNl_append_nl, splitNl_no_nl _ hnl]
      rfl
    · rw [hsplit, headingEntriesFrom_append, hnil, List.append_nil]
    · intro j hj
      rw [hsplit, List.getElem?_append]
      rw [if_pos hj]
    · rw [hsplit]
      simp
  · refine ⟨splitNl md, ?_, rfl, fun j hj => rfl, Nat.le_refl _⟩
    rw [if_neg hlast]
    have hshape : md ++ ['\n'] ++ List.replicate k '#' ++ ' ' :: txt ++
        ['\n'] =
        md ++ '\n' :: ((List.replicate k '#' ++ ' ' :: txt) ++
          '\n' :: ([] : List Char)) := by
      simp
    rw [hshape, splitNl_append_nl, splitNl_append_nl, splitNl_no_nl _ hnl]
    rfl

/-- A child of a node of the parsed tree is itself a non-root node of the
tree. -/
theorem child_in_tail (ls2 : List Line) (q c : HeadingNode)
    (hq : q ∈ preorder (parseLines ls2)) (hc : c ∈ q.children) :
    c ∈ (preorder (parseLines ls2)).tail := by
  have hc_po : c ∈ preorder q := by
    rw [preorder_eq]
    exact List.mem_cons_of_mem _
      (mem_preForest_iff.mpr ⟨c, hc, self_mem_preorder c⟩)
  have hc_mem : c ∈ preorder (parseLines ls2) := mem_preorder_trans _ q hq c hc_po
  have hgq : goodNode q = true :=
    goodNode_of_mem_preorder _ (parseLines_good ls2) q hq
  have hq_lt_c : q.level < c.level := by
    rw [goodNode_eq] at hgq
    exact (goodForest_mem hgq c hc).1
  have hc_ne : c.id ≠ "root" := by
    intro hcr
    have hTc : c = parseLines ls2 :=
      preorder_id_inj ls2 hc_mem (self_mem_preorder _)
        (by rw [hcr, parseLines_id])
    have hc0 : c.level = 0 := by rw [hTc, parseLines_level]
    omega
  exact nonroot_mem_tail ls2 c hc_mem hc_ne

/-- Core of the insert-then-parse argument: a node `w` of the subtree of
`q`, one level deeper than `q`, whose line carries a heading of its own
level, and whose line bounds the lines of all children of `q`, is the last
child of `q`. -/
theorem last_child_core (ls2 : List Line) (q w : HeadingNode)
    (hq : q ∈ preorder (parseLines ls2))
    (hw_tail : w ∈ (preorder (parseLines ls2)).tail)
    (hwq : w ∈ preorder q) (hwneq : w ≠ q)
    (hlevel : w.level = q.level + 1)
    (hmax : ∀ c ∈ q.children, c.line ≤ w.line) :
    q.children.getLast? = some w := by
  obtain ⟨wl, hwl_get, hwl_lh, _⟩ := tail_node_line ls2 w hw_tail
  rw [preorder_eq] at hwq
  rcases List.mem_cons.mp hwq with heq | hw_pf
  · exact absurd heq hwneq
  obtain ⟨c, hc_child, hw_pc⟩ := mem_preForest_iff.mp hw_pf
  have hc_tail := child_in_tail ls2 q c hq hc_child
  have hc_mem : c ∈ preorder (parseLines ls2) := mem_of_tail hc_tail
  have hc_ne : c.id ≠ "root" := by
    intro hcr
    have hTc : c = parseLines ls2 :=
      preorder_id_inj ls2 hc_mem (self_mem_preorder _)
        (by rw [hcr, parseLines_id])
    have hgq : goodNode q = true :=
      goodNode_of_mem_preorder _ (parseLines_good ls2) q hq
    rw [goodNode_eq] at hgq
    have := (goodForest_mem hgq c hc_child).1
    have hc0 : c.level = 0 := by rw [hTc, parseLines_level]
    omega
  have hq_lt_c : q.level < c.level := by
    have hgq : goodNode q = true :=
      goodNode_of_mem_preorder _ (parseLines_good ls2) q hq
    rw [goodNode_eq] at hgq
    exact (goodForest_mem hgq c hc_child).1
  have hcontain_c := parseLines_containment ls2 c hc_mem hc_ne
  have hcw : c = w := by
    by_contra hcw_ne
    have hc_le : c.line ≤ w.line := (hcontain_c.1 w hw_pc).1
    have hc_lt : c.line < w.line := by
      rcases Nat.lt_or_ge c.line w.line with h | h
      · exact h
      · exact absurd (eq_of_pairwise_line _ (parseLines_tail_sorted ls2) c
          hc_tail w hw_tail (by omega)) hcw_ne
    have hlt_end : w.line < endStrict ls2 c.line c.level :=
      (hcontain_c.1 w hw_pc).2
    have hfalse := endStrict_no_boundary ls2 c.line c.level w.line hc_lt
      hlt_end wl hwl_get
    rw [strictLevelLe_eq_of_lineHeading hwl_lh c.level] at hfalse
    simp at hfalse
    omega
  subst hcw
  have hpw : List.Pairwise (fun a b => a.line < b.line) q.children :=
    (parseLines_tail_sorted ls2).sublist (children_sublist_tail ls2 q hq)
  exact getLast_of_max q.children hpw c hc_child hmax

/-- A non-root node `w` after `q` with no strict boundary of `q`'s level
between them (nor at `w`'s own line) lies inside `q`'s subtree. -/
theorem w_mem_parent (ls2 : List Line) (q w : HeadingNode)
    (hq_mem : q ∈ preorder (parseLines ls2)) (hq_ne : q.id ≠ "root")
    (hw_tail : w ∈ (preorder (parseLines ls2)).tail) (hw_ne : w.id ≠ "root")
    (hql : q.line < w.line)
    (hbet : ∀ j, q.line < j → j < w.line → ∀ l2, ls2[j]? = some l2 →
      strictLevelLe q.level l2 = false)
    (hat : ∀ l2, ls2[w.line]? = some l2 → strictLevelLe q.level l2 = false) :
    w ∈ preorder q := by
  have hw_mem := mem_of_tail hw_tail
  have hwlen : w.line < ls2.length :=
    parseLines_tail_line_lt_length ls2 w hw_tail
  have hE : w.line < endStrict ls2 q.line q.level := by
    rcases Nat.lt_or_ge w.line (endStrict ls2 q.line q.level) with h | hge
    · exact h
    · exfalso
      have hqlen : q.line < ls2.length := by omega
      have hgtE := endStrict_gt ls2 q.line q.level hqlen
      have hElen : endStrict ls2 q.line q.level < ls2.length := by omega
      obtain ⟨le, hle_get, hle_strict⟩ :=
        endStrict_boundary ls2 q.line q.level hElen
      rcases Nat.lt_or_ge (endStrict ls2 q.line q.level) w.line with hlt | hge2
      · have hf := hbet _ hgtE hlt le hle_get
        rw [hf] at hle_strict
        simp at hle_strict
      · have hEw : endStrict ls2 q.line q.level = w.line := by omega
        rw [hEw] at hle_get
        have hf := hat le hle_get
        rw [hf] at hle_strict
        simp at hle_strict
  exact (parseLines_containment ls2 q hq_mem hq_ne).2 w hw_mem hw_ne
    (by omega) hE

theorem children_bound (ls2 : List Line) (q : HeadingNode)
    (hq_mem : q ∈ preorder (parseLines ls2)) (hq_ne : q.id ≠ "root")
    (e : Nat) (hEle : endStrict ls2 q.line q.level ≤ e + 1) :
    ∀ c ∈ q.children, c.line ≤ e := by
  intro c hc
  have hc_po : c ∈ preorder q := by
    rw [preorder_eq]
    exact List.mem_cons_of_mem _
      (mem_preForest_iff.mpr ⟨c, hc, self_mem_preorder c⟩)
  have := (parseLines_containment ls2 q hq_mem hq_ne).1 c hc_po
  omega

/-- C1 (amended): for every clean buffer (every line passing the loose
marker test is a real heading) and every parentId resolving to a node of
level ≤ 5 (the root included), inserting the child "X" and reparsing yields
a tree in which the parent (found again by the same id, with unchanged
text, level and line) has a new node as its LAST child whose text is "X"
and whose level is parent.level + 1, the total node count having grown by
exactly one.  For a parent of level 6 the cap makes the new line a sibling,
not a child (see the counterexample). -/
theorem C1_insert_then_parse (md : List Char) (pid : String) (p : HeadingNode)
    (hfind : findById (parseMarkdownHeadings md) pid = some p)
    (hlev : p.level ≤ 5)
    (hclean : cleanLines (splitNl md)) :
    ∃ q w,
      findById (parseMarkdownHeadings (handleNodeAdd md pid ['X'])) pid =
        some q ∧
      q.id = pid ∧ q.level = p.level ∧ q.text = p.text ∧ q.line = p.line ∧
      q.children.getLast? = some w ∧
      w.level = p.level + 1 ∧ w.text = ['X'] ∧
      (preorder (parseMarkdownHeadings (handleNodeAdd md pid ['X']))).length =
        (preorder (parseMarkdownHeadings md)).length + 1 := by
  unfold parseMarkdownHeadings at hfind ⊢
  have hmin : min (p.level + 1) 6 = p.level + 1 := by omega
  have hhl : lineHeading (List.replicate (min (p.level + 1) 6) '#' ++
      ' ' :: (['X'] : List Char)) = some (p.level + 1, ['X']) := by
    rw [hmin]
    refine lineHeading_marker_space (by omega) (by omega) (by decide)
      (by decide) ?_
    intro c hc
    have h := Option.some.inj hc
    rw [← h]
    exact Or.inl (by decide)
  by_cases hpid : pid = "root"
  · -- root parent: the line is appended at the end of the buffer
    subst hpid
    have hpT : p = parseLines (splitNl md) := by
      rw [findById_self _ _ (parseLines_id _)] at hfind
      exact (Option.some.inj hfind).symm
    have hplevel : p.level = 0 := by rw [hpT, parseLines_level]
    have heq := handleNodeAdd_append_eq md "root" ['X'] p hfind (Or.inl rfl)
    obtain ⟨Lpre, hshape, hEpre, hIdxPre, hLenPre⟩ :=
      append_lines_shape md (min (p.level + 1) 6) ['X'] (by decide)
    have hlines : splitNl (handleNodeAdd md "root" ['X']) =
        Lpre ++ [List.replicate (min (p.level + 1) 6) '#' ++
          ' ' :: (['X'] : List Char), []] := by
      rw [heq]
      exact hshape
    rw [hlines]
    set hl2 := List.replicate (min (p.level + 1) 6) '#' ++
      ' ' :: (['X'] : List Char) with hhl2def
    set L2 := Lpre ++ [hl2, []] with hL2def
    have hidxb : L2[Lpre.length]? = some hl2 := by
      rw [hL2def]
      rw [List.getElem?_append_right (Nat.le_refl _)]
      simp
    obtain ⟨w, hw_tail, hw_id, hw_text, hw_level, hw_line⟩ :=
      entry_node L2 Lpre.length hl2 (p.level + 1) ['X'] hidxb hhl
    have hE2 : headingEntriesFrom 0 L2 =
        headingEntriesFrom 0 Lpre ++
          [HeadingNode.mk (headingId (0 + Lpre.length)) ['X'] (p.level + 1)
            (0 + Lpre.length) []] := by
      rw [hL2def, headingEntriesFrom_append,
        headingEntriesFrom_cons_some _ _ _ _ _ hhl,
        headingEntriesFrom_cons_none _ _ _ lineHeading_nil]
      rfl
    have htail_max : ∀ nm ∈ (preorder (parseLines L2)).tail,
        nm.line ≤ Lpre.length := by
      intro nm hnm
      obtain ⟨en, hen, heinfo⟩ := (tail_entries_exists _).1 nm hnm
      rw [hE2] at hen
      have hln := (einfo_fields heinfo).2.2.2
      rcases List.mem_append.mp hen with h1 | h2
      · have := (headingEntriesFrom_line_bounds _ _ _ h1).2
        omega
      · rcases List.mem_cons.mp h2 with he | h3
        · rw [he] at hln
          simp only [line_mk] at hln
          omega
        · simp at h3
    have hw_ne_T : w ≠ parseLines L2 := by
      intro h
      rw [h, parseLines_level] at hw_level
      omega
    have hmax : ∀ c ∈ (parseLines L2).children, c.line ≤ w.line := by
      intro c hc
      have := htail_max c (child_in_tail _ _ c (self_mem_preorder _) hc)
      omega
    have hlast := last_child_core L2 (parseLines L2) w
      (self_mem_preorder _) hw_tail (mem_of_tail hw_tail) hw_ne_T
      (by rw [hw_level, parseLines_level, hplevel]) hmax
    have hsize : (preorder (parseLines L2)).length =
        (preorder (parseLines (splitNl md))).length + 1 := by
      rw [preorder_length, preorder_length, tail_length_eq, tail_length_eq]
      rw [hE2, List.length_append, hEpre]
      simp
    refine ⟨parseLines L2, w, findById_self _ _ (parseLines_id _),
      parseLines_id _, ?_, ?_, ?_, hlast, hw_level, hw_text, hsize⟩
    · rw [parseLines_level, hpT, parseLines_level]
    · rw [parseLines_text, hpT, parseLines_text]
    · rw [parseLines_line, hpT, parseLines_line]
  · -- a genuine heading parent
    obtain ⟨hp_id, hp_mem⟩ := findById_some _ _ _ hfind
    have hp_tail : p ∈ (preorder (parseLines (splitNl md))).tail :=
      nonroot_mem_tail _ p hp_mem (by rw [hp_id]; exact hpid)
    obtain ⟨lp, hlp_get, hlp_lh, hlp_id⟩ :=
      tail_node_line (splitNl md) p hp_tail
    have hp_pid : pid = headingId p.line := by rw [← hp_id, hlp_id]
    have hp_lt : p.line < (splitNl md).length :=
      parseLines_tail_line_lt_length _ p hp_tail
    cases hbnd : findBoundaryAux p.level (p.line + 1)
        ((splitNl md).drop (p.line + 1)) with
    | none =>
      -- no loose boundary: the line is appended at the end of the buffer
      have hb2 := hbnd
      rw [findBoundaryAux_eq_scanIdx] at hb2
      have hbet_all : ∀ j, p.line < j → ∀ l2, (splitNl md)[j]? = some l2 →
          looseLevelLe p.level l2 = false := by
        intro j hj1 l hl
        have hall := (scanIdx_none_iff _ _ _).mp hb2
        apply hall
        have hidx : ((splitNl md).drop (p.line + 1))[j - (p.line + 1)]? =
            some l := by
          rw [List.getElem?_drop]
          have harith : p.line + 1 + (j - (p.line + 1)) = j := by omega
          rw [harith]
          exact hl
        exact List.getElem?_mem hidx
      have heq := handleNodeAdd_append_eq md pid ['X'] p hfind
        (Or.inr ⟨hpid, hbnd⟩)
      obtain ⟨Lpre, hshape, hEpre, hIdxPre, hLenPre⟩ :=
        append_lines_shape md (min (p.level + 1) 6) ['X'] (by decide)
      have hlines : splitNl (handleNodeAdd md pid ['X']) =
          Lpre ++ [List.replicate (min (p.level + 1) 6) '#' ++
            ' ' :: (['X'] : List Char), []] := by
        rw [heq]
        exact hshape
      rw [hlines]
      set hl2 := List.replicate (min (p.level + 1) 6) '#' ++
        ' ' :: (['X'] : List Char) with hhl2def
      set L2 := Lpre ++ [hl2, []] with hL2def
      -- the parent's entry line sits inside the preserved prefix
      have hp_in_pre : p.line < Lpre.length := by
        obtain ⟨en, hen, heinfo⟩ := (tail_entries_exists (splitNl md)).1 p hp_tail
        rw [← hEpre] at hen
        have := (headingEntriesFrom_line_bounds _ _ _ hen).2
        have hln := (einfo_fields heinfo).2.2.2
        omega
      have hidxp : L2[p.line]? = some lp := by
        rw [hL2def, List.getElem?_append]
        rw [if_pos hp_in_pre, hIdxPre p.line hp_in_pre]
        exact hlp_get
      have hidxb : L2[Lpre.length]? = some hl2 := by
        rw [hL2def]
        rw [List.getElem?_append_right (Nat.le_refl _)]
        simp
      obtain ⟨w, hw_tail, hw_id, hw_text, hw_level, hw_line⟩ :=
        entry_node L2 Lpre.length hl2 (p.level + 1) ['X'] hidxb hhl
      obtain ⟨q, hq_tail, hq_id, hq_text, hq_level, hq_line⟩ :=
        entry_node L2 p.line lp p.level p.text hidxp hlp_lh
      have hq_mem : q ∈ preorder (parseLines L2) := mem_of_tail hq_tail
      have hq_ne : q.id ≠ "root" := by
        rw [hq_id]
        exact headingId_ne_root _
      have hw_ne : w.id ≠ "root" := by
        rw [hw_id]
        exact headingId_ne_root _
      -- the inserted node lies inside the parent's subtree
      have hwq : w ∈ preorder q := by
        apply w_mem_parent L2 q w hq_mem hq_ne hw_tail hw_ne
        · omega
        · intro j hj1 hj2 l2 hl2j
          rw [hq_line] at hj1
          rw [hw_line] at hj2
          have hl2j' : (splitNl md)[j]? = some l2 := by
            rw [← hIdxPre j hj2]
            rw [hL2def, List.getElem?_append, if_pos hj2] at hl2j
            exact hl2j
          have := hbet_all j hj1 l2 hl2j'
          rw [hq_level]
          exact strict_false_of_loose_false this
        · intro l2 hl2j
          rw [hw_line, hidxb] at hl2j
          have hl2eq : l2 = hl2 := (Option.some.inj hl2j).symm
          rw [hl2eq, hq_level, strictLevelLe_eq_of_lineHeading hhl]
          simp
      have hwneq : w ≠ q := by
        intro h
        rw [h] at hw_line
        omega
      have hE2 : headingEntriesFrom 0 L2 =
          headingEntriesFrom 0 Lpre ++
            [HeadingNode.mk (headingId (0 + Lpre.length)) ['X'] (p.level + 1)
              (0 + Lpre.length) []] := by
        rw [hL2def, headingEntriesFrom_append,
          headingEntriesFrom_cons_some _ _ _ _ _ hhl,
          headingEntriesFrom_cons_none _ _ _ lineHeading_nil]
        rfl
      have htail_max : ∀ nm ∈ (preorder (parseLines L2)).tail,
          nm.line ≤ Lpre.length := by
        intro nm hnm
        obtain ⟨en, hen, heinfo⟩ := (tail_entries_exists _).1 nm hnm
        rw [hE2] at hen
        have hln := (einfo_fields heinfo).2.2.2
        rcases List.mem_append.mp hen with h1 | h2
        · have := (headingEntriesFrom_line_bounds _ _ _ h1).2
          omega
        · rcases List.mem_cons.mp h2 with he | h3
          · rw [he] at hln
            simp only [line_mk] at hln
            omega
          · simp at h3
      have hmax : ∀ c ∈ q.children, c.line ≤ w.line := by
        intro c hc
        have := htail_max c (child_in_tail _ _ c hq_mem hc)
        omega
      have hlast := last_child_core L2 q w hq_mem hw_tail hwq hwneq
        (by rw [hw_level, hq_level]) hmax
      have hsize : (preorder (parseLines L2)).length =
          (preorder (parseLines (splitNl md))).length + 1 := by
        rw [preorder_length, preorder_length, tail_length_eq, tail_length_eq]
        rw [hE2, List.length_append, hEpre]
        simp
      obtain ⟨m, hm_find, hm_id⟩ := findById_mem (parseLines L2) q hq_mem
      have hmq : m = q :=
        preorder_id_inj L2 (findById_some _ _ _ hm_find).2 hq_mem hm_id
      rw [hmq] at hm_find
      rw [hq_id, ← hp_pid] at hm_find
      refine ⟨q, w, hm_find, by rw [hq_id, ← hp_pid], hq_level, hq_text,
        hq_line, hlast, hw_level, hw_text, hsize⟩
    | some b =>
      -- loose boundary at line b: the line is inserted right before it
      have hb2 := hbnd
      rw [findBoundaryAux_eq_scanIdx] at hb2
      obtain ⟨h1, h2, ⟨lb, hlbdx, hlb_loose⟩, h4⟩ :=
        scanIdx_some_facts _ _ _ _ hb2
      rw [List.length_drop] at h2
      have hlb_ops : (splitNl md)[b]? = some lb := by
        rw [List.getElem?_drop] at hlbdx
        have harith : p.line + 1 + (b - (p.line + 1)) = b := by omega
        rw [harith] at hlbdx
        exact hlbdx
      have hblen : b < (splitNl md).length :=
        (List.getElem?_eq_some_iff.mp hlb_ops).1
      have hbet_loose : ∀ j, p.line < j → j < b →
          ∀ l2, (splitNl md)[j]? = some l2 →
            looseLevelLe p.level l2 = false := by
        intro j hj1 hj2 l2 hl2
        apply h4 (j - (p.line + 1)) (by omega) l2
        rw [List.getElem?_drop]
        have harith : p.line + 1 + (j - (p.line + 1)) = j := by omega
        rw [harith]
        exact hl2
      have heqlines := handleNodeAdd_boundary_eq md pid ['X'] p b hfind
        (by decide) hpid hbnd
      rw [heqlines]
      set hl2 := List.replicate (min (p.level + 1) 6) '#' ++
        ' ' :: (['X'] : List Char) with hhl2def
      set L2 := (splitNl md).take b ++ hl2 :: (splitNl md).drop b with hL2def
      have hlen_take : ((splitNl md).take b).length = b := by
        rw [List.length_take]
        omega
      have hidx_lt : ∀ j, j < b → L2[j]? = (splitNl md)[j]? := by
        intro j hj
        rw [hL2def, List.getElem?_append]
        rw [hlen_take, if_pos hj, List.getElem?_take, if_pos hj]
      have hidx_b : L2[b]? = some hl2 := by
        rw [hL2def, List.getElem?_append_right (le_of_eq hlen_take)]
        rw [hlen_take]
        simp
      have hidx_b1 : L2[b + 1]? = some lb := by
        rw [hL2def, List.getElem?_append_right (by rw [hlen_take]; omega)]
        rw [hlen_take]
        have harith : b + 1 - b = 1 := by omega
        rw [harith]
        have hstep : (hl2 :: (splitNl md).drop b)[1]? =
            ((splitNl md).drop b)[0]? := by simp
        rw [hstep, List.getElem?_drop]
        have harith2 : b + 0 = b := by omega
        rw [harith2]
        exact hlb_ops
      have hidxp : L2[p.line]? = some lp := by
        rw [hidx_lt p.line (by omega)]
        exact hlp_get
      obtain ⟨w, hw_tail, hw_id, hw_text, hw_level, hw_line⟩ :=
        entry_node L2 b hl2 (p.level + 1) ['X'] hidx_b hhl
      obtain ⟨q, hq_tail, hq_id, hq_text, hq_level, hq_line⟩ :=
        entry_node L2 p.line lp p.level p.text hidxp hlp_lh
      have hq_mem : q ∈ preorder (parseLines L2) := mem_of_tail hq_tail
      have hq_ne : q.id ≠ "root" := by
        rw [hq_id]
        exact headingId_ne_root _
      have hw_ne : w.id ≠ "root" := by
        rw [hw_id]
        exact headingId_ne_root _
      have hwq : w ∈ preorder q := by
        apply w_mem_parent L2 q w hq_mem hq_ne hw_tail hw_ne
        · omega
        · intro j hj1 hj2 l2 hl2j
          rw [hq_line] at hj1
          rw [hw_line] at hj2
          have hl2j' : (splitNl md)[j]? = some l2 := by
            rw [← hidx_lt j hj2]
            exact hl2j
          have := hbet_loose j hj1 hj2 l2 hl2j'
          rw [hq_level]
          exact strict_false_of_loose_false this
        · intro l2 hl2j
          rw [hw_line, hidx_b] at hl2j
          have hl2eq : l2 = hl2 := (Option.some.inj hl2j).symm
          rw [hl2eq, hq_level, strictLevelLe_eq_of_lineHeading hhl]
          simp
      have hwneq : w ≠ q := by
        intro h
        rw [h] at hw_line
        omega
      -- the clean-buffer hypothesis pins the subtree end at b + 1
      have hstrict_b : strictLevelLe p.level lb = true := by
        obtain ⟨k, hk_some, hk_le⟩ := looseLevelLe_true hlb_loose
        have hlb_mem : lb ∈ splitNl md := List.getElem?_mem hlb_ops
        have hsome := hclean lb hlb_mem (by rw [hk_some]; rfl)
        cases hlh2 : lineHeading lb with
        | none => rw [hlh2] at hsome; simp at hsome
        | some kt =>
          obtain ⟨k0, t0⟩ := kt
          have hk0 : looseLevel lb = some k0 := looseLevel_of_lineHeading hlh2
          rw [hk_some] at hk0
          have hkk : k0 = k := by
            have := Option.some.inj hk0
            omega
          exact strictLevelLe_of p.level hlh2 (by omega)
      have hE_le : endStrict L2 q.line q.level ≤ b + 1 := by
        rcases Nat.lt_or_ge (b + 1) (endStrict L2 q.line q.level) with h | h
        · exfalso
          have hf := endStrict_no_boundary L2 q.line q.level (b + 1)
            (by omega) h lb hidx_b1
          rw [hq_level] at hf
          rw [hf] at hstrict_b
          simp at hstrict_b
        · omega
      have hmax : ∀ c ∈ q.children, c.line ≤ w.line := by
        intro c hc
        have := children_bound L2 q hq_mem hq_ne b hE_le c hc
        omega
      have hlast := last_child_core L2 q w hq_mem hw_tail hwq hwneq
        (by rw [hw_level, hq_level]) hmax
      -- entries of the new line list: prefix entries, the new entry, and
      -- the shifted suffix entries
      have hE2 : headingEntriesFrom 0 L2 =
          headingEntriesFrom 0 ((splitNl md).take b) ++
            HeadingNode.mk (headingId (0 + b)) ['X'] (p.level + 1) (0 + b) [] ::
            headingEntriesFrom (0 + b + 1) ((splitNl md).drop b) := by
        rw [hL2def, headingEntriesFrom_append, hlen_take,
          headingEntriesFrom_cons_some _ _ _ _ _ hhl]
      have hEL : headingEntriesFrom 0 (splitNl md) =
          headingEntriesFrom 0 ((splitNl md).take b) ++
            headingEntriesFrom (0 + b) ((splitNl md).drop b) := by
        have h := headingEntriesFrom_append ((splitNl md).take b) 0
          ((splitNl md).drop b)
        rw [List.take_append_drop, hlen_take] at h
        exact h
      have hsize : (preorder (parseLines L2)).length =
          (preorder (parseLines (splitNl md))).length + 1 := by
        rw [preorder_length, preorder_length, tail_length_eq, tail_length_eq]
        rw [hE2, hEL, List.length_append, List.length_append,
          List.length_cons]
        rw [headingEntriesFrom_length ((splitNl md).drop b) (0 + b + 1) (0 + b)]
        omega
      obtain ⟨m, hm_find, hm_id⟩ := findById_mem (parseLines L2) q hq_mem
      have hmq : m = q :=
        preorder_id_inj L2 (findById_some _ _ _ hm_find).2 hq_mem hm_id
      rw [hmq] at hm_find
      rw [hq_id, ← hp_pid] at hm_find
      refine ⟨q, w, hm_find, by rw [hq_id, ← hp_pid], hq_level, hq_text,
        hq_line, hlast, hw_level, hw_text, hsize⟩

theorem C1_witness :
    ∃ p, findById (parseMarkdownHeadings ("# A\n## B\n## C\n# D".data))
        (headingId 0) = some p ∧ p.level ≤ 5 ∧
      cleanLines (splitNl ("# A\n## B\n## C\n# D".data)) ∧
      (∃ q w, findById (parseMarkdownHeadings (handleNodeAdd
          ("# A\n## B\n## C\n# D".data) (headingId 0) ['X']))
          (headingId 0) = some q ∧
        q.id = headingId 0 ∧ q.level = p.level ∧ q.text = p.text ∧
        q.line = p.line ∧
        q.children.getLast? = some w ∧
        w.level = p.level + 1 ∧ w.text = ['X'] ∧
        (preorder (parseMarkdownHeadings (handleNodeAdd
            ("# A\n## B\n## C\n# D".data) (headingId 0) ['X']))).length =
          (preorder (parseMarkdownHeadings
            ("# A\n## B\n## C\n# D".data))).length + 1) := by
  refine ⟨_, rfl, by decide, by decide, ?_⟩
  exact C1_insert_then_parse ("# A\n## B\n## C\n# D".data) (headingId 0) _
    rfl (by decide) (by decide)

theorem C1_counterexample :
    (∃ p, findById (parseMarkdownHeadings ("###### A".data)) (headingId 0) =
        some p ∧ p.level = 6 ∧
      ∃ q, findById (parseMarkdownHeadings
          (handleNodeAdd ("###### A".data) (headingId 0) ['X']))
          (headingId 0) = some q ∧ q.children.length = 0) ∧
    (∃ p, findById (parseMarkdownHeadings ("# A\n# \n## B".data))
        (headingId 0) = some p ∧ p.level = 1 ∧
      ∃ q w, findById (parseMarkdownHeadings
          (handleNodeAdd ("# A\n# \n## B".data) (headingId 0) ['X']))
          (headingId 0) = some q ∧
        q.children.getLast? = some w ∧ w.text ≠ ['X']) := by
  refine ⟨⟨_, rfl, by decide, _, rfl, by decide⟩,
    ⟨_, rfl, by decide, _, _, rfl, rfl, by decide⟩⟩

end NotionT
